import Mathlib

/-!
# Shallow embedding of the shrimper scoring engine

This file embeds the personal-handicap scoring engine of the repository:

* `app/scoring.py` — the single-race scorer (`calculate_race_results`,
  `adjusted_time`, the settings lookup tables);
* `app/routes.py` — the chronological recalculation driver
  (`recalculate_handicaps`), the forward-only variant
  (`recalculate_handicaps_from`), the traditional drop-worst aggregation
  inside `_season_standings`, and the starting-handicap guard inside
  `update_race`.

Modelling conventions:

* Python `int` becomes `ℤ` (or `ℕ` for identifiers and ranks); Python
  `float` arithmetic on times/points becomes `ℚ` (the algorithms only
  add/subtract/multiply/divide and compare, so exact arithmetic is the
  intended semantics); `None`-able values become `Option`.
* Python exceptions (unparseable `HH:MM:SS` strings, `TypeError` on
  arithmetic with `None`) become `Except Unit`.
* Wall-clock strings are abstracted by their parse outcome: the inductive
  `TimeVal` records whether the stored value is `None`, a falsy string, a
  parseable `H:M:S` string, or a truthy unparseable string, which is all
  `_parse_hms` and Python truthiness can observe about them.
* Python's stable `list.sort` is modelled by a stable insertion sort
  (`pySortK`): both are the unique stable sort, so they agree elementwise.
* The settings tables of `data/settings.json` are passed explicitly as a
  `ScoringConfig` (the module-level lookups built by `_build_lookup`);
  `testConfig` instantiates them with the fixture tables from
  `tests/conftest.py`.
-/

namespace Shrimper

/-- Python's built-in `round` on the exact value: round half to even. -/
def pyRound (q : ℚ) : ℤ :=
  let f := ⌊q⌋
  let frac := q - (f : ℚ)
  if frac < 1/2 then f
  else if 1/2 < frac then f + 1
  else if f % 2 = 0 then f else f + 1

/-- The three settings lookup tables together with their
`default_or_higher` fallbacks, as built by `scoring._build_lookup`. -/
structure ScoringConfig where
  handicap_deltas : List (Nat × ℤ)
  handicap_default : ℤ
  league_points : List (Nat × ℚ)
  points_default : ℚ
  fleet_factors : List (Nat × ℚ)
  fleet_default : ℚ
deriving Repr, DecidableEq

/-- `scoring._full_delta`: base handicap delta for a finishing position. -/
def full_delta (cfg : ScoringConfig) (position : Nat) : ℤ :=
  (cfg.handicap_deltas.lookup position).getD cfg.handicap_default

/-- `scoring._scaling_factor`: fleet size scaling factor. -/
def scaling_factor (cfg : ScoringConfig) (fleet_size : Nat) : ℚ :=
  (cfg.fleet_factors.lookup fleet_size).getD cfg.fleet_default

/-- `scoring._base_points`: base league points for a finishing position. -/
def base_points (cfg : ScoringConfig) (position : Nat) : ℚ :=
  (cfg.league_points.lookup position).getD cfg.points_default

/-- `scoring.adjusted_time`: elapsed seconds, allowance seconds and
handicap-adjusted seconds for one finisher. -/
def adjusted_time (start finish handicap : ℤ) : ℤ × ℚ × ℚ :=
  let elapsed : ℤ := finish - start
  let allowance : ℚ := (handicap : ℚ) * ((elapsed : ℚ) / 3600)
  (elapsed, allowance, (elapsed : ℚ) - allowance)

/-- An input row of `calculate_race_results` (the dict built by the
recalculation driver): `competitor_id`, `start`/`finish` seconds,
`initial_handicap` and `status`, each absent-able key an `Option`. -/
structure Entry where
  competitor_id : Nat := 0
  start : Option ℤ := none
  finish : Option ℤ := none
  initial_handicap : Option ℤ := none
  status : Option String := none
deriving Repr, DecidableEq

/-- An output row of `calculate_race_results`. Keys the Python code never
sets on a row are `none`/zero defaults here. -/
structure Result where
  competitor_id : Nat := 0
  start : Option ℤ := none
  finish : Option ℤ := none
  initial_handicap : Option ℤ := none
  status : Option String := none
  elapsed_seconds : ℤ := 0
  allowance_seconds : ℚ := 0
  adjusted_time_seconds : ℚ := 0
  absolute_position : Option Nat := none
  handicap_position : Option Nat := none
  full_delta : ℤ := 0
  scaled_delta : ℚ := 0
  actual_delta : ℤ := 0
  revised_handicap : Option ℤ := none
  points : ℚ := 0
  traditional_points : ℚ := 0
deriving Repr, DecidableEq

/-- `status in {"DNF", "DNS", "DSQ"}`. -/
def statusNonFin (s : Option String) : Bool :=
  s == some "DNF" || s == some "DNS" || s == some "DSQ"

/-- An entry is routed to the non-finisher branch when its status is
DNF/DNS/DSQ or it has no finish time. -/
def entryNonFin (e : Entry) : Bool :=
  statusNonFin e.status || e.finish.isNone

/-- Result carried over from an entry before any ranking fields are set. -/
def baseResult (e : Entry) : Result :=
  { competitor_id := e.competitor_id, start := e.start, finish := e.finish,
    initial_handicap := e.initial_handicap, status := e.status }

/-- The enriched finisher row for one entry (timing fields applied). -/
def finisherRow (e : Entry) (st fin ih : ℤ) : Result :=
  let t := adjusted_time st fin ih
  { baseResult e with
    elapsed_seconds := t.1
    allowance_seconds := t.2.1
    adjusted_time_seconds := t.2.2 }

/-- First loop of `calculate_race_results`: split the entries into enriched
finisher rows (with `adjusted_time` applied) and raw non-finisher entries,
in input order.  A finisher whose `start` or `initial_handicap` is absent
makes the Python code raise (`KeyError`/`TypeError`), hence `.error`. -/
def splitEntries : List Entry → Except Unit (List Result × List Entry)
  | [] => .ok ([], [])
  | e :: rest =>
    match splitEntries rest with
    | .error u => .error u
    | .ok (fs, ns) =>
      if entryNonFin e then
        .ok (fs, e :: ns)
      else
        match e.start, e.finish, e.initial_handicap with
        | some st, some fin, some ih => .ok (finisherRow e st fin ih :: fs, ns)
        | _, _, _ => .error ()

/-- Stable insertion step: place `a` before the first strictly greater
element, after any equal ones (Python `list.sort` tie behaviour). -/
def pyInsert {α κ : Type} [LinearOrder κ] (k : α → κ) (a : α) : List α → List α
  | [] => [a]
  | b :: bs => if k a < k b then a :: b :: bs else b :: pyInsert k a bs

/-- Stable sort by a key, modelling Python's `list.sort(key=...)`. -/
def pySortK {α κ : Type} [LinearOrder κ] (k : α → κ) : List α → List α
  | [] => []
  | a :: as => pyInsert k a (pySortK k as)

/-- The shared rank-assignment loop of `calculate_race_results`: walk the
sorted rows with a 1-based index, keeping the previous key and the position
assigned to it; a strictly greater key restarts the position at the current
index, an equal key repeats the previous position. Returns each row paired
with its assigned position. -/
def rankWalk {κ : Type} [LinearOrder κ] (k : Result → κ) :
    List Result → Nat → Option κ → Nat → List (Result × Nat)
  | [], _, _, _ => []
  | r :: rest, idx, last, pos =>
    match last with
    | none => (r, idx) :: rankWalk k rest (idx + 1) (some (k r)) idx
    | some l =>
      if l < k r then (r, idx) :: rankWalk k rest (idx + 1) (some (k r)) idx
      else (r, pos) :: rankWalk k rest (idx + 1) (some l) pos

/-- Per-finisher update of the handicap-rank loop: deltas, revised
handicap, league points and traditional points from the position. -/
def applyHandicapRank (cfg : ScoringConfig) (factor : ℚ) (r : Result)
    (p : Nat) : Result :=
  let baseDelta := full_delta cfg p
  let scaledDelta := (baseDelta : ℚ) * factor
  let actualDelta := pyRound scaledDelta
  { r with
    handicap_position := some p
    full_delta := baseDelta
    scaled_delta := scaledDelta
    actual_delta := actualDelta
    revised_handicap := r.initial_handicap.map (· + actualDelta)
    points := base_points cfg p * factor
    traditional_points := (p : ℚ) }

/-- Non-finisher output row: timing zeroed, `finish` forced to `None`,
handicap unchanged, zero points, `fleet_size + 1` traditional points. -/
def mkNonFinisher (fleet_size : Nat) (e : Entry) : Result :=
  { competitor_id := e.competitor_id, start := e.start, finish := none,
    initial_handicap := e.initial_handicap, status := e.status,
    elapsed_seconds := 0, allowance_seconds := 0, adjusted_time_seconds := 0,
    absolute_position := none, handicap_position := none,
    full_delta := 0, scaled_delta := 0, actual_delta := 0,
    revised_handicap := e.initial_handicap, points := 0,
    traditional_points := (fleet_size : ℚ) + 1 }

/-- `race_start` as computed by `calculate_race_results`: the first
non-null `start` value in input order. -/
def raceStart (entries : List Entry) : Option ℤ :=
  entries.findSome? (·.start)

/-- Number of entries routed to the finisher branch. -/
def numFinishers (entries : List Entry) : Nat :=
  (entries.filter (fun e => !entryNonFin e)).length

/-- The degenerate-race condition of `calculate_race_results`: zero
finishers, or the race start unset or zero. -/
def degenerateRace (entries : List Entry) : Prop :=
  raceStart entries = some 0 ∨ raceStart entries = none ∨
    numFinishers entries = 0

instance (entries : List Entry) : Decidable (degenerateRace entries) := by
  unfold degenerateRace; infer_instance

/-- Absolute-position pass: sort the finisher rows by raw elapsed time and
assign `absolute_position` with the shared rank loop. -/
def absRankedOf (fs : List Result) : List Result :=
  (rankWalk (·.elapsed_seconds) (pySortK (·.elapsed_seconds) fs) 1 none 0).map
    (fun p => { p.1 with absolute_position := some p.2 })

/-- The finisher rows re-sorted by handicap-adjusted time. -/
def hcpSortedOf (fs : List Result) : List Result :=
  pySortK (·.adjusted_time_seconds) (absRankedOf fs)

/-- Handicap-position pass over the adjusted-time order: positions, deltas,
revised handicaps, league points and traditional points. -/
def finisherRowsOf (cfg : ScoringConfig) (fs : List Result) : List Result :=
  let hcpSorted := hcpSortedOf fs
  let factor := scaling_factor cfg hcpSorted.length
  (rankWalk (·.adjusted_time_seconds) hcpSorted 1 none 0).map
    (fun p => applyHandicapRank cfg factor p.1 p.2)

/-- The degenerate-race fixup applied to one row. -/
def zeroTrad (r : Result) : Result :=
  { r with traditional_points := 0 }

/-- Tail of `calculate_race_results` after the partition loop: rank the
finishers, append the non-finisher rows, and zero every row's traditional
points when the race is degenerate. -/
def assembleResults (cfg : ScoringConfig) (race_start : Option ℤ)
    (fs : List Result) (ns : List Entry) : List Result :=
  let finishers := finisherRowsOf cfg fs
  let fleet_size := (hcpSortedOf fs).length
  let results := finishers ++ ns.map (mkNonFinisher fleet_size)
  if race_start = some 0 ∨ race_start = none ∨ fleet_size = 0 then
    results.map zeroTrad
  else
    results

/-- `scoring.calculate_race_results`.  `race_start` is the first non-null
`start` in input order; finishers are ranked by raw elapsed time (absolute
position) and handicap-adjusted time (handicap position) with shared
positions on ties; non-finishers follow; a race with zero finishers or a
null/zero `race_start` has every row's traditional points forced to 0. -/
def calculate_race_results (cfg : ScoringConfig) (entries : List Entry) :
    Except Unit (List Result) :=
  match splitEntries entries with
  | .error u => .error u
  | .ok (fins, nonfinEntries) =>
    .ok (assembleResults cfg (raceStart entries) fins nonfinEntries)


/-- The settings tables of the repository's test fixture
(`tests/conftest.py`), used to evaluate the engine on concrete inputs. -/
def testConfig : ScoringConfig where
  handicap_deltas :=
    [(1, -30), (2, -20), (3, -10), (4, 0), (5, 10), (6, 20), (7, 30),
     (8, 40), (9, 50), (10, 60)]
  handicap_default := 60
  league_points := [(1, 25), (2, 18), (3, 12), (4, 9), (5, 6)]
  points_default := 3
  fleet_factors :=
    [(1, 0), (2, 0), (3, 0), (4, 3/10), (5, 6/10), (6, 8/10), (7, 1),
     (8, 1), (9, 1), (10, 1)]
  fleet_default := 1

/-! ## Data model of the recalculation driver (`app/routes.py`) -/

/-- A stored wall-clock value, abstracted by everything `_parse_hms` and
Python truthiness can observe: `None`, a falsy (empty) string, a parseable
`H:M:S` string, or a truthy string on which `int()` raises. -/
inductive TimeVal
  | null
  | emptyStr
  | hms (h m s : ℤ)
  | bad
deriving Repr, DecidableEq, Inhabited

/-- Python truthiness of the stored value (`if ft:`). -/
def TimeVal.truthy : TimeVal → Bool
  | .null => false
  | .emptyStr => false
  | .hms _ _ _ => true
  | .bad => true

/-- `routes._parse_hms`: `None` for falsy input, seconds for `H:M:S`, and a
raised `ValueError` (modelled as `.error`) on a truthy unparseable string. -/
def parse_hms : TimeVal → Except Unit (Option ℤ)
  | .null => .ok none
  | .emptyStr => .ok none
  | .hms h m s => .ok (some (h * 3600 + m * 60 + s))
  | .bad => .error ()

/-- Zero-padded rendering used only by the `(date, start_time)` sort
fallback; on well-formed data it is the stored string itself. -/
def TimeVal.render : TimeVal → String
  | .null => ""
  | .emptyStr => ""
  | .hms h m s =>
    let pad := fun (n : ℤ) =>
      let m := n.natAbs
      if m < 10 then "0" ++ toString m else toString m
    pad h ++ ":" ++ pad m ++ ":" ++ pad s
  | .bad => "?"

/-- A race entrant as stored in the season tree. -/
structure Entrant where
  competitor_id : Option Nat := none
  finish_time : TimeVal := .null
  status : Option String := none
  handicap_override : Option ℤ := none
  initial_handicap : Option ℤ := none
deriving Repr, DecidableEq, Inhabited

/-- A race as stored in the season tree (fields the driver reads). -/
structure Race where
  race_id : String := ""
  date : String := ""
  start_time : TimeVal := .null
  competitors : List Entrant := []
deriving Repr, DecidableEq, Inhabited

/-- A fleet-roster competitor.  The datastore layer (`get_fleet`) coalesces
null handicaps to `0`, so both handicap fields are plain integers here. -/
structure Competitor where
  competitor_id : Option Nat := none
  starting_handicap_s_per_hr : ℤ := 0
  current_handicap_s_per_hr : ℤ := 0
deriving Repr, DecidableEq, Inhabited

/-- The materialized snapshot `recalculate_handicaps` works on: the fleet
roster, the flattened season/series race list in tree order, and the
authoritative chronological race-id sequence from `datastore.get_races`
(empty when unavailable). -/
structure RaceData where
  fleet : List Competitor := []
  races : List Race := []
  order : List String := []
deriving Repr, DecidableEq, Inhabited

/-- Python truthiness of a competitor id (`if not cid: continue` skips both
`None` and `0`). -/
def isTruthyCid : Option Nat → Bool
  | some n => n != 0
  | none => false

/-- Python truthiness of a status string (`if status:`). -/
def statusTruthy : Option String → Bool
  | some s => s != ""
  | none => false

/-- The handicap map threaded through the driver (a Python dict keyed by
competitor id). -/
def HMap : Type := Nat → Option ℤ

def hmSet (m : HMap) (k : Nat) (v : ℤ) : HMap :=
  fun k' => if k' = k then some v else m k'

def hmGet (m : HMap) (k : Nat) : Option ℤ := m k

/-- `routes._race_order_map().get(rid)`: the dict comprehension keeps the
last index of each truthy race id. -/
def orderIndex (order : List String) (rid : String) : Option Nat :=
  ((order.enum.filter (fun p => p.2 == rid && p.2 != "")).map Prod.fst).getLast?

/-- Sort key in the authoritative-order branch (`order.get(rid, 10**9)`). -/
def raceKeyOrder (order : List String) (r : Race) : Nat :=
  (orderIndex order r.race_id).getD (10 ^ 9)

/-- Sort key in the `(date, start_time)` fallback branch. -/
def raceKeyDate (r : Race) : String :=
  r.date ++ "\x00" ++ r.start_time.render

/-- The chronological arrangement of `d.races` as a list of indices: the
stable sort `race_list.sort(key=...)`, with the authoritative-order key
when `get_races` returned ids and the date/time key otherwise. -/
def sortedIdx (d : RaceData) : List Nat :=
  if d.order.isEmpty then
    let keys := d.races.map raceKeyDate
    pySortK (fun i => keys.getD i "") (List.range d.races.length)
  else
    let keys := d.races.map (raceKeyOrder d.order)
    pySortK (fun i => keys.getD i 0) (List.range d.races.length)

/-- `handicap_map = {cid: starting for c in competitors if cid truthy}`;
later roster rows overwrite earlier ones exactly as the Python dict does. -/
def initialHandicapMap (fleet : List Competitor) : HMap :=
  fleet.foldl (fun m c =>
    match c.competitor_id with
    | some cid => if cid = 0 then m else hmSet m cid c.starting_handicap_s_per_hr
    | none => m) (fun _ => none)

/-- The per-entrant seeding loop of `recalculate_handicaps`: write each
truthy entrant's `initial_handicap` (override first, else the carried map
value with default `0`), update the map on overrides, and build the
scorer's entry row; a truthy unparseable `finish_time` raises. -/
def seedEntrants (m : HMap) (start_seconds : ℤ) :
    List Entrant → Except Unit (HMap × List Entrant × List Entry)
  | [] => .ok (m, [], [])
  | ent :: rest =>
    match ent.competitor_id with
    | none =>
      match seedEntrants m start_seconds rest with
      | .error u => .error u
      | .ok (m', ents', es) => .ok (m', ent :: ents', es)
    | some cid =>
      if cid = 0 then
        match seedEntrants m start_seconds rest with
        | .error u => .error u
        | .ok (m', ents', es) => .ok (m', ent :: ents', es)
      else
        let seeded : HMap × ℤ :=
          match ent.handicap_override with
          | some ov => (hmSet m cid ov, ov)
          | none => (m, (m cid).getD 0)
        let ent' := { ent with initial_handicap := some seeded.2 }
        match (if ent.finish_time.truthy then parse_hms ent.finish_time
               else .ok none) with
        | .error u => .error u
        | .ok fin =>
          let entry : Entry :=
            { competitor_id := cid, start := some start_seconds,
              initial_handicap := some seeded.2, finish := fin,
              status := if statusTruthy ent.status then ent.status else none }
          match seedEntrants seeded.1 start_seconds rest with
          | .error u => .error u
          | .ok (m', ents', es) => .ok (m', ent' :: ents', entry :: es)

/-- The pre-race seed the driver assigns to one truthy entrant: the
override when present, else the carried map value with default `0`. -/
def seedVal (m : HMap) (cid : Nat) (e : Entrant) : ℤ :=
  match e.handicap_override with
  | some ov => ov
  | none => (m cid).getD 0

/-- `for res in results: if cid and revised is not None: map[cid] = revised`. -/
def applyRevised (m : HMap) : List Result → HMap
  | [] => m
  | res :: rest =>
    let m' :=
      if res.competitor_id = 0 then m
      else
        match res.revised_handicap with
        | some rv => hmSet m res.competitor_id rv
        | none => m
    applyRevised m' rest

/-- One race of the recalculation loop: seed the entrants, score the race
when any entry was built, and feed the revised handicaps forward. -/
def stepRace (cfg : ScoringConfig) (m : HMap) (race : Race) :
    Except Unit (HMap × Race) :=
  match parse_hms race.start_time with
  | .error u => .error u
  | .ok st0 =>
    let start_seconds := st0.getD 0
    match seedEntrants m start_seconds race.competitors with
    | .error u => .error u
    | .ok (m1, ents', entries) =>
      let race' := { race with competitors := ents' }
      if entries.isEmpty then .ok (m1, race')
      else
        match calculate_race_results cfg entries with
        | .error u => .error u
        | .ok results => .ok (applyRevised m1 results, race')

/-- The chronological loop of `recalculate_handicaps` over the sorted race
positions, mutating each processed race in place. -/
def driverLoop (cfg : ScoringConfig) : List Nat → List Race → HMap →
    Except Unit (List Race × HMap)
  | [], races, m => .ok (races, m)
  | i :: rest, races, m =>
    match races.get? i with
    | none => driverLoop cfg rest races m
    | some race =>
      match stepRace cfg m race with
      | .error u => .error u
      | .ok (m', race') => driverLoop cfg rest (races.set i race') m'

/-- Final roster write-back:
`comp[current] = handicap_map.get(cid, comp.get(current, 0))`. -/
def writeFleet (m : HMap) (fleet : List Competitor) : List Competitor :=
  fleet.map (fun c =>
    match c.competitor_id with
    | some cid =>
      if cid = 0 then c
      else { c with current_handicap_s_per_hr :=
        (m cid).getD c.current_handicap_s_per_hr }
    | none => c)

/-- `routes.recalculate_handicaps`: replay every race in global
chronological order from the roster's starting handicaps, persisting each
entrant's pre-race seed and the final current handicaps. -/
def recalculate_handicaps (cfg : ScoringConfig) (d : RaceData) :
    Except Unit RaceData :=
  match driverLoop cfg (sortedIdx d) d.races (initialHandicapMap d.fleet) with
  | .error u => .error u
  | .ok (races', m) =>
    .ok { d with races := races', fleet := writeFleet m d.fleet }

/-! ### Reading the persisted outcome back (used to state the invariants) -/

/-- The scorer entry rows determined by a race's persisted data alone. -/
def entryRows (start_seconds : ℤ) : List Entrant → Except Unit (List Entry)
  | [] => .ok []
  | ent :: rest =>
    match entryRows start_seconds rest with
    | .error u => .error u
    | .ok es =>
      match ent.competitor_id with
      | none => .ok es
      | some cid =>
        if cid = 0 then .ok es
        else
          match (if ent.finish_time.truthy then parse_hms ent.finish_time
                 else .ok none) with
          | .error u => .error u
          | .ok fin =>
            .ok ({ competitor_id := cid, start := some start_seconds,
                   initial_handicap := ent.initial_handicap, finish := fin,
                   status := if statusTruthy ent.status then ent.status
                     else none } :: es)

def entriesOfRace (race : Race) : Except Unit (List Entry) :=
  match parse_hms race.start_time with
  | .error u => .error u
  | .ok st0 => entryRows (st0.getD 0) race.competitors

/-- The revised handicap a persisted race produces for a competitor: score
the race from its stored seeds and read the competitor's row. -/
def revisedOf (cfg : ScoringConfig) (race : Race) (cid : Nat) : Option ℤ :=
  match entriesOfRace race with
  | .error _ => none
  | .ok entries =>
    match calculate_race_results cfg entries with
    | .error _ => none
    | .ok results =>
      results.findSome? (fun r =>
        if r.competitor_id = cid then r.revised_handicap else none)

/-- The races of a dataset arranged in the driver's chronological order. -/
def chronRaces (d : RaceData) : List Race :=
  (sortedIdx d).map (fun i => d.races.getD i default)

/-- The chronological occurrence list of one competitor: every
`(race, entrant)` pair carrying that competitor id, in race order. -/
def occurrencesOf (cid : Nat) (rs : List Race) : List (Race × Entrant) :=
  rs.flatMap (fun r =>
    (r.competitors.filter (fun e => e.competitor_id == some cid)).map
      (fun e => (r, e)))

/-- The truthy competitor ids entered in a race, in entrant order. -/
def truthyCids (r : Race) : List Nat :=
  r.competitors.filterMap (fun e =>
    match e.competitor_id with
    | some n => if n = 0 then none else some n
    | none => none)

/-- The chronological loop re-expressed over the already-arranged race
list (the driver applied to `chronRaces`); used to reason about the
processing order. -/
def procRaces (cfg : ScoringConfig) : HMap → List Race →
    Except Unit (HMap × List Race)
  | m, [] => .ok (m, [])
  | m, r :: rs =>
    match stepRace cfg m r with
    | .error u => .error u
    | .ok (m', r') =>
      match procRaces cfg m' rs with
      | .error u => .error u
      | .ok (M, rs') => .ok (M, r' :: rs')

/-! ### Forward-only recalculation (`routes.recalculate_handicaps_from`) -/

/-- Per-entrant seeding of the forward pass (routes.py 746–781): a `None`
competitor id is skipped (`0` is processed, unlike the full driver); the
seed is the override when set, else the revised handicap already carried
in this forward pass, else the persisted `initial_handicap` (possibly
absent); a truthy unparseable finish time is caught and treated as no
finish.  The computed seed is persisted onto the row only when present and
no override is set — `apply_recalculated_handicaps` updates rows
`WHERE handicap_override IS NULL`. -/
def seedEntrantsFrom (rl : HMap) (s : ℤ) :
    List Entrant → List Entrant × List Entry
  | [] => ([], [])
  | ent :: rest =>
    match ent.competitor_id with
    | none =>
      let out := seedEntrantsFrom rl s rest
      (ent :: out.1, out.2)
    | some cid =>
      let initial : Option ℤ :=
        match ent.handicap_override with
        | some ov => some ov
        | none =>
          match rl cid with
          | some rv => some rv
          | none => ent.initial_handicap
      let fin : Option ℤ :=
        match (if ent.finish_time.truthy then parse_hms ent.finish_time
               else Except.ok none) with
        | .ok f => f
        | .error _ => none
      let entry : Entry :=
        { competitor_id := cid, start := some s, initial_handicap := initial,
          finish := fin,
          status := if statusTruthy ent.status then ent.status else none }
      let ent' : Entrant :=
        match ent.handicap_override, initial with
        | none, some v => { ent with initial_handicap := some v }
        | _, _ => ent
      let out := seedEntrantsFrom rl s rest
      (ent' :: out.1, entry :: out.2)

/-- `if cid is not None and revised is not None: revised_latest[cid] =
revised` — the forward pass does not skip competitor id `0`. -/
def applyRevisedFrom (rl : HMap) : List Result → HMap
  | [] => rl
  | res :: rest =>
    match res.revised_handicap with
    | some rv => applyRevisedFrom (hmSet rl res.competitor_id rv) rest
    | none => applyRevisedFrom rl rest

/-- One race of the forward pass: parse the start (uncaught, as in the
code), seed from `revised_latest` and persisted values, score when any
entry was built, feed revised handicaps forward. -/
def stepRaceFrom (cfg : ScoringConfig) (rl : HMap) (race : Race) :
    Except Unit (HMap × Race) :=
  match parse_hms race.start_time with
  | .error u => .error u
  | .ok st0 =>
    let out := seedEntrantsFrom rl (st0.getD 0) race.competitors
    let race' := { race with competitors := out.1 }
    if out.2.isEmpty then .ok (rl, race')
    else
      match calculate_race_results cfg out.2 with
      | .error u => .error u
      | .ok results => .ok (applyRevisedFrom rl results, race')

/-- The forward loop re-expressed structurally over an already-arranged
race list. -/
def procRacesFrom (cfg : ScoringConfig) : HMap → List Race →
    Except Unit (HMap × List Race)
  | rl, [] => .ok (rl, [])
  | rl, r :: rs =>
    match stepRaceFrom cfg rl r with
    | .error u => .error u
    | .ok (rl', r') =>
      match procRacesFrom cfg rl' rs with
      | .error u => .error u
      | .ok (R, rs') => .ok (R, r' :: rs')

/-- The forward loop as the code walks it: each forward id is located in
the stored race list (`ds_find_race` finds the first race carrying it; a
missing id is skipped) and that race is updated in place. -/
def fromLoop (cfg : ScoringConfig) : HMap → List String → List Race →
    Except Unit (HMap × List Race)
  | rl, [], races => .ok (rl, races)
  | rl, rid :: rest, races =>
    match races.findIdx? (fun r => r.race_id == rid) with
    | none => fromLoop cfg rl rest races
    | some i =>
      match stepRaceFrom cfg rl (races.getD i default) with
      | .error u => .error u
      | .ok (rl', race') => fromLoop cfg rl' rest (races.set i race')

/-- Fleet write-back of the forward pass: only competitors touched in the
window (`fleet_current = revised_latest`) receive a new current handicap. -/
def writeFleetTouched (rl : HMap) (fleet : List Competitor) : List Competitor :=
  fleet.map (fun c =>
    match c.competitor_id with
    | some cid =>
      match rl cid with
      | some v => { c with current_handicap_s_per_hr := v }
      | none => c
    | none => c)

/-- `routes.recalculate_handicaps_from`: resolve the start race in the
authoritative id order (falling back to the tree order when unavailable),
walk the forward ids only, and persist the window's seeds plus the touched
competitors' current handicaps.  A start id absent from the order reaches
a branch that references an undefined name (`new_race_id`, routes.py 727)
and crashes, modelled as an error. -/
def recalculate_handicaps_from (cfg : ScoringConfig) (d : RaceData)
    (start_race_id : String) : Except Unit RaceData :=
  let all_ids := if d.order.isEmpty
    then (d.races.map Race.race_id).filter (fun rid => rid ≠ "")
    else d.order
  match all_ids.findIdx? (fun rid => rid == start_race_id) with
  | none => .error ()
  | some s =>
    match fromLoop cfg (fun _ => none) (all_ids.drop s) d.races with
    | .error u => .error u
    | .ok (rl, races') =>
      .ok { d with races := races', fleet := writeFleetTouched rl d.fleet }

/-! ### The starting-handicap guard of `update_race` -/

/-- The add-new-entrants-with-finish-times loop of `update_race`
(routes.py 1986–1997): a payload competitor id not yet entered whose
finish value is truthy is appended; if it has no usable override in the
payload and the fleet provides no baseline starting handicap, the request
is rejected with a 400 error; otherwise `initial_handicap` is seeded from
the fleet baseline when one exists (never fabricated). -/
def addNewFinishEntrants (baseline : Nat → Option ℤ)
    (ov_map : List (Nat × Option ℤ)) :
    List Nat → List (Nat × TimeVal) → Except String (List Entrant)
  | _, [] => .ok []
  | existing, (cid, finish) :: rest =>
    if cid ≠ 0 ∧ cid ∉ existing ∧ finish.truthy then
      if (ov_map.lookup cid = none ∨ ov_map.lookup cid = some none) ∧
          baseline cid = none then
        .error ("No starting handicap available from the Fleet for competitor "
          ++ toString cid ++ ". Add a starting handicap or provide a race override.")
      else
        let ent : Entrant :=
          { competitor_id := some cid, finish_time := finish,
            initial_handicap := baseline cid }
        match addNewFinishEntrants baseline ov_map (cid :: existing) rest with
        | .error msg => .error msg
        | .ok ents => .ok (ent :: ents)
    else
      addNewFinishEntrants baseline ov_map existing rest

/-! ### Traditional-standings aggregation (`routes._season_standings`) -/

/-- One line of a competitor's per-series record in the traditional
branch of `_season_standings`: the race id, that race's
`traditional_points`, and whether the competitor finished it. -/
structure SeriesRaceResult where
  race_id : String := ""
  points : ℚ := 0
  finished : Bool := false
deriving Repr, DecidableEq, Inhabited

/-- The drop allowance: 2 if the competitor finished more than 4 races of
the series, 1 if exactly 4, else 0. -/
def dropCount (results : List SeriesRaceResult) : Nat :=
  let finish_count := results.countP (·.finished)
  if finish_count > 4 then 2 else if finish_count = 4 then 1 else 0

/-- `_season_standings` (routes.py 925–941), per series: raw sum of
traditional points minus the first `drop_n` entries of the
points-descending stable sort. -/
def seriesSubtotal (results : List SeriesRaceResult) : ℚ :=
  let raw_total := (results.map (·.points)).sum
  let drop_n := dropCount results
  if drop_n = 0 then raw_total
  else
    let sorted_res := pySortK (fun r => -r.points) results
    raw_total - ((sorted_res.take drop_n).map (·.points)).sum

/-- Season total in traditional mode: the sum of the per-series subtotals
after drops (`total = sum(series_totals.values())`). -/
def seasonTotalTraditional (series_results : List (List SeriesRaceResult)) : ℚ :=
  (series_results.map seriesSubtotal).sum

/-! ### Concrete witness data -/

/-- A small two-race dataset for the driver claims: two roster competitors
plus one race entrant (id 7) missing from the roster. -/
def fleetW : List Competitor :=
  [{ competitor_id := some 1, starting_handicap_s_per_hr := 300,
     current_handicap_s_per_hr := 300 },
   { competitor_id := some 2, starting_handicap_s_per_hr := 240,
     current_handicap_s_per_hr := 240 }]

def raceW1 : Race :=
  { race_id := "R1", date := "2025-01-01", start_time := .hms 10 0 0,
    competitors :=
      [{ competitor_id := some 1, finish_time := .hms 11 0 0 },
       { competitor_id := some 2, finish_time := .hms 11 2 0 },
       { competitor_id := some 7, finish_time := .hms 11 1 0 }] }

def raceW2 : Race :=
  { race_id := "R2", date := "2025-01-08", start_time := .hms 10 0 0,
    competitors :=
      [{ competitor_id := some 1, finish_time := .hms 11 0 0,
         handicap_override := some 500 },
       { competitor_id := some 2, finish_time := .hms 11 1 0 },
       { competitor_id := some 7 }] }

def dW : RaceData :=
  { fleet := fleetW, races := [raceW2, raceW1], order := ["R1", "R2"] }

def dW' : RaceData :=
  (recalculate_handicaps testConfig dW).toOption.getD default

/-- `dW` with one malformed (truthy, unparseable) finish time in R1. -/
def dWbad : RaceData :=
  { dW with races :=
      [raceW2,
       { raceW1 with competitors :=
          [{ competitor_id := some 1, finish_time := .hms 11 0 0 },
           { competitor_id := some 2, finish_time := .bad },
           { competitor_id := some 7, finish_time := .hms 11 1 0 }] }] }

/-- A concrete `update_race` payload: competitor 5 sends a finish time
with an empty override payload against an empty baseline. -/
def addNewFinishW : Except String (List Entrant) :=
  addNewFinishEntrants (fun _ => none) [] [] [(5, .hms 11 0 0)]

/-- One-competitor roster for the forward-recalculation claims. -/
def fleet4 : List Competitor :=
  [{ competitor_id := some 1, starting_handicap_s_per_hr := 60,
     current_handicap_s_per_hr := 60 }]

/-- R1: competitor 1 sails under a handicap override of 100 and does not
finish, so the race's revised handicap is exactly the override — the
override becomes the carry-forward baseline.  The persisted seed already
equals the override, so a full replay reproduces this race exactly. -/
def race41 : Race :=
  { race_id := "R1", date := "2025-06-01", start_time := .hms 10 0 0,
    competitors :=
      [{ competitor_id := some 1, handicap_override := some 100,
         initial_handicap := some 100 }] }

/-- R2 as persisted with a stale seed: competitor 1's stored
`initial_handicap` is still the fleet baseline 60, not the 100 carried out
of R1. -/
def race42 : Race :=
  { race_id := "R2", date := "2025-06-08", start_time := .hms 10 0 0,
    competitors :=
      [{ competitor_id := some 1, initial_handicap := some 60 }] }

/-- The counterexample dataset: no race before R2 differs from what a full
replay writes, yet the stale persisted seed on R2 makes the forward pass
diverge. -/
def d4 : RaceData :=
  { fleet := fleet4, races := [race41, race42], order := ["R1", "R2"] }

def full4 : RaceData :=
  (recalculate_handicaps testConfig d4).toOption.getD default

def part4 : RaceData :=
  (recalculate_handicaps_from testConfig d4 "R2").toOption.getD default

/-- R2 with the consistent persisted seed (the 100 carried out of R1). -/
def race52 : Race :=
  { race_id := "R2", date := "2025-06-08", start_time := .hms 10 0 0,
    competitors :=
      [{ competitor_id := some 1, initial_handicap := some 100 }] }

/-- The amended-claim witness dataset: like `d4` but with R2's seed equal
to the value the full replay carries into R2. -/
def d5 : RaceData :=
  { fleet := fleet4, races := [race41, race52], order := ["R1", "R2"] }

def dfull5 : RaceData :=
  (recalculate_handicaps testConfig d5).toOption.getD default

/-- The handicap map the full replay carries into the window (after R1). -/
def mX5 : HMap :=
  ((procRaces testConfig (initialHandicapMap d5.fleet)
    (d5.races.take 1)).toOption.getD ((fun _ => none : HMap), [])).1

def pre5 : List Race :=
  ((procRaces testConfig (initialHandicapMap d5.fleet)
    (d5.races.take 1)).toOption.getD ((fun _ => none : HMap), [])).2

/-- A two-boat race with a real (non-zero) start: one finisher, one DNF. -/
def entsC2 : List Entry :=
  [{ competitor_id := 1, start := some 100, finish := some 3700,
     initial_handicap := some 360 },
   { competitor_id := 2, start := some 100, finish := none,
     initial_handicap := some 300, status := some "DNF" }]

def resC2 : List Result :=
  (calculate_race_results testConfig entsC2).toOption.getD []

/-- Degenerate-race witness: only DNS entries, so zero finishers. -/
def entsC7 : List Entry :=
  [{ competitor_id := 1, start := some 100, finish := none,
     initial_handicap := some 360, status := some "DNS" },
   { competitor_id := 2, start := some 100, finish := none,
     initial_handicap := some 300 }]

def resC7 : List Result :=
  (calculate_race_results testConfig entsC7).toOption.getD []

/-- A tie on adjusted and elapsed time (boats 1 and 2), plus a slower boat. -/
def entsC8 : List Entry :=
  [{ competitor_id := 1, start := some 100, finish := some 3700,
     initial_handicap := some 300 },
   { competitor_id := 2, start := some 100, finish := some 3700,
     initial_handicap := some 300 },
   { competitor_id := 3, start := some 100, finish := some 3800,
     initial_handicap := some 300 }]

def resC8 : List Result :=
  (calculate_race_results testConfig entsC8).toOption.getD []

/-- First listed entry has `start = 0`; the later entries carry a non-zero
start and finish normally, yet the quirk fires off the first value alone. -/
def entsC10 : List Entry :=
  [{ competitor_id := 1, start := some 0, finish := some 3600,
     initial_handicap := some 300 },
   { competitor_id := 2, start := some 30000, finish := some 33600,
     initial_handicap := some 300 },
   { competitor_id := 3, start := some 30000, finish := some 33650,
     initial_handicap := some 300 }]

def resC10 : List Result :=
  (calculate_race_results testConfig entsC10).toOption.getD []

/-! ## Sorting and ranking lemmas -/

section SortLemmas

variable {α κ : Type} [LinearOrder κ] (k : α → κ)

theorem pyInsert_perm (a : α) (l : List α) :
    (pyInsert k a l).Perm (a :: l) := by
  induction l with
  | nil => simp [pyInsert]
  | cons b bs ih =>
    simp only [pyInsert]
    by_cases h : k a < k b
    · simp [h]
    · simp only [h, if_false]
      exact ((ih.cons b).trans (List.Perm.swap a b bs)).symm.symm

theorem pySortK_perm (l : List α) : (pySortK k l).Perm l := by
  induction l with
  | nil => simp [pySortK]
  | cons a as ih =>
    exact (pyInsert_perm k a (pySortK k as)).trans (ih.cons a)

theorem mem_pyInsert {a x : α} {l : List α} (h : x ∈ pyInsert k a l) :
    x = a ∨ x ∈ l := by
  have := (pyInsert_perm k a l).mem_iff.mp h
  simpa using this

theorem pyInsert_sorted {a : α} {l : List α}
    (h : l.Pairwise (fun x y => k x ≤ k y)) :
    (pyInsert k a l).Pairwise (fun x y => k x ≤ k y) := by
  induction l with
  | nil => simp [pyInsert]
  | cons b bs ih =>
    rcases List.pairwise_cons.mp h with ⟨hb, hbs⟩
    simp only [pyInsert]
    by_cases hab : k a < k b
    · rw [if_pos hab]
      refine List.pairwise_cons.mpr ⟨?_, h⟩
      intro x hx
      rcases List.mem_cons.mp hx with rfl | hx
      · exact le_of_lt hab
      · exact le_trans (le_of_lt hab) (hb x hx)
    · rw [if_neg hab]
      refine List.pairwise_cons.mpr ⟨?_, ih hbs⟩
      intro x hx
      rcases mem_pyInsert k hx with rfl | hx
      · exact le_of_not_lt hab
      · exact hb x hx

theorem pySortK_sorted (l : List α) :
    (pySortK k l).Pairwise (fun x y => k x ≤ k y) := by
  induction l with
  | nil => simp [pySortK]
  | cons a as ih => exact pyInsert_sorted k ih

theorem pySortK_length (l : List α) : (pySortK k l).length = l.length :=
  (pySortK_perm k l).length_eq

end SortLemmas

section RankLemmas

variable {κ : Type} [LinearOrder κ] (k : Result → κ)

theorem rankWalk_map_fst (l : List Result) (idx : Nat) (last : Option κ)
    (pos : Nat) : (rankWalk k l idx last pos).map Prod.fst = l := by
  induction l generalizing idx last pos with
  | nil => simp [rankWalk]
  | cons r rest ih =>
    rcases last with _ | l
    · simp [rankWalk, ih]
    · by_cases h : l < k r <;> simp [rankWalk, h, ih]

theorem rankWalk_length (l : List Result) (idx : Nat) (last : Option κ)
    (pos : Nat) : (rankWalk k l idx last pos).length = l.length := by
  have := congrArg List.length (rankWalk_map_fst k l idx last pos)
  simpa using this

/-- Ranking invariant of the shared rank loop: on a sorted suffix `l`
preceded by an already-processed context `c`, every emitted pair carries
position `1 + ` the number of rows (in the whole race) whose key is
strictly smaller. -/
theorem rankWalk_spec (l : List Result) :
    ∀ (c : List Result) (last : Option κ) (pos : Nat),
      (∀ x ∈ c, ∀ y ∈ l, k x ≤ k y) →
      l.Pairwise (fun x y => k x ≤ k y) →
      (match last with
       | none => c = []
       | some lv => (∀ x ∈ c, k x ≤ lv) ∧ (∀ y ∈ l, lv ≤ k y) ∧
           pos = c.countP (fun x => k x < lv) + 1) →
      ∀ p ∈ rankWalk k l (c.length + 1) last pos,
        p.2 = (c.countP (fun x => k x < k p.1)
          + l.countP (fun y => k y < k p.1)) + 1 := by
  induction l with
  | nil => intro c last pos _ _ _ p hp; simp [rankWalk] at hp
  | cons r rest ih =>
    intro c last pos hcl hsort hlast p hp
    rcases List.pairwise_cons.mp hsort with ⟨hr, hrest⟩
    have hcr : ∀ x ∈ c, k x ≤ k r := fun x hx => hcl x hx r (by simp)
    have hcount_cons : (r :: rest).countP (fun y => k y < k r) = 0 := by
      refine List.countP_eq_zero.mpr ?_
      intro y hy
      rcases List.mem_cons.mp hy with rfl | hy
      · simp
      · simpa using not_lt.mpr (hr y hy)
    -- `hall`: when the strict branch fires, every context key is smaller.
    -- The head formula, for the position the loop assigns to `r`:
    have hhead : ∀ pos' : Nat,
        (pos' = c.length + 1 ∧ (∀ x ∈ c, k x < k r)) ∨
          (pos' = c.countP (fun x => k x < k r) + 1) →
        pos' = (c.countP (fun x => k x < k r)
          + (r :: rest).countP (fun y => k y < k r)) + 1 := by
      intro pos' hcase
      rcases hcase with ⟨h1, h2⟩ | h1
      · have : c.countP (fun x => k x < k r) = c.length := by
          refine List.countP_eq_length.mpr ?_
          intro x hx; simpa using h2 x hx
        rw [h1, this, hcount_cons]
      · rw [h1, hcount_cons]
    -- The tail step: apply the induction hypothesis with context `c ++ [r]`.
    have htail : ∀ pos' : Nat,
        pos' = (c.countP (fun x => k x < k r)
          + (r :: rest).countP (fun y => k y < k r)) + 1 →
        ∀ q ∈ rankWalk k rest (c.length + 1 + 1) (some (k r)) pos',
        q.2 = (c.countP (fun x => k x < k q.1)
          + (r :: rest).countP (fun y => k y < k q.1)) + 1 := by
      intro pos' hpos' q hq
      have hctx : ∀ x ∈ c ++ [r], ∀ y ∈ rest, k x ≤ k y := by
        intro x hx y hy
        rcases List.mem_append.mp hx with hx | hx
        · exact hcl x hx y (List.mem_cons_of_mem r hy)
        · simp only [List.mem_singleton] at hx; subst hx; exact hr y hy
      have hlast' : (∀ x ∈ c ++ [r], k x ≤ k r) ∧ (∀ y ∈ rest, k r ≤ k y) ∧
          pos' = (c ++ [r]).countP (fun x => k x < k r) + 1 := by
        refine ⟨?_, fun y hy => hr y hy, ?_⟩
        · intro x hx
          rcases List.mem_append.mp hx with hx | hx
          · exact hcr x hx
          · simp only [List.mem_singleton] at hx; subst hx; exact le_rfl
        · rw [hpos', hcount_cons]
          simp [List.countP_append]
      have hlen : (c ++ [r]).length + 1 = c.length + 1 + 1 := by simp
      have := ih (c ++ [r]) (some (k r)) pos' hctx hrest hlast' q (by rw [hlen]; exact hq)
      rw [this]
      have : (c ++ [r]).countP (fun x => k x < k q.1)
          + rest.countP (fun y => k y < k q.1)
          = c.countP (fun x => k x < k q.1)
          + (r :: rest).countP (fun y => k y < k q.1) := by
        simp only [List.countP_append, List.countP_cons, List.countP_nil]
        omega
      omega
    -- Unfold one loop step and dispatch on the branch taken.
    cases last with
    | none =>
      simp only [rankWalk] at hp
      have hc : c = [] := hlast
      subst hc
      rcases List.mem_cons.mp hp with rfl | hp
      · exact hhead _ (Or.inl ⟨rfl, by simp⟩)
      · exact htail _ (hhead _ (Or.inl ⟨rfl, by simp⟩)) p hp
    | some lv =>
      simp only [rankWalk] at hp
      rcases hlast with ⟨hle, hlow, hpos⟩
      by_cases hlt : lv < k r
      · rw [if_pos hlt] at hp
        have harg : ∀ x ∈ c, k x < k r := fun x hx => lt_of_le_of_lt (hle x hx) hlt
        rcases List.mem_cons.mp hp with rfl | hp
        · exact hhead _ (Or.inl ⟨rfl, harg⟩)
        · exact htail _ (hhead _ (Or.inl ⟨rfl, harg⟩)) p hp
      · rw [if_neg hlt] at hp
        have hlv : lv = k r := le_antisymm (hlow r (by simp)) (le_of_not_lt hlt)
        have hposr : pos = c.countP (fun x => k x < k r) + 1 := by
          rw [hpos, hlv]
        rcases List.mem_cons.mp hp with rfl | hp
        · exact hhead _ (Or.inr hposr)
        · rw [hlv] at hp
          exact htail _ (hhead _ (Or.inr hposr)) p hp

end RankLemmas

/-! ## Pipeline lemmas for the single-race scorer -/

section ScorerLemmas

theorem splitEntries_ok {entries : List Entry} {fs : List Result}
    {ns : List Entry} (h : splitEntries entries = .ok (fs, ns)) :
    ns = entries.filter entryNonFin ∧ fs.length = numFinishers entries ∧
      ∀ r ∈ fs, r.finish.isSome = true ∧ statusNonFin r.status = false := by
  induction entries generalizing fs ns with
  | nil =>
    obtain ⟨rfl, rfl⟩ : fs = [] ∧ ns = [] := by
      simpa [splitEntries, Prod.ext_iff, eq_comm] using h
    simp [numFinishers]
  | cons e rest ih =>
    rcases hr : splitEntries rest with u | ⟨fs', ns'⟩
    · rw [splitEntries, hr] at h
      exact absurd h (by simp)
    · rcases ih hr with ⟨hns, hlen, hrows⟩
      simp only [splitEntries, hr] at h
      by_cases he : entryNonFin e
      · rw [if_pos he] at h
        obtain ⟨rfl, rfl⟩ : fs = fs' ∧ ns = e :: ns' := by
          simpa [Prod.ext_iff, eq_comm] using h
        refine ⟨by simp [List.filter_cons, he, hns], ?_, hrows⟩
        simp [numFinishers, List.filter_cons, he, hlen, numFinishers]
      · rw [if_neg he] at h
        have hsf : statusNonFin e.status = false := by
          have := he
          unfold entryNonFin at this
          simp only [Bool.or_eq_true, not_or] at this
          simpa using this.1
        have hfin : e.finish.isSome = true := by
          have := he
          unfold entryNonFin at this
          simp only [Bool.or_eq_true, not_or] at this
          simpa [Option.isNone_iff_eq_none, Option.isSome_iff_ne_none]
            using this.2

        match hst : e.start, hf : e.finish, hih : e.initial_handicap with
        | some st, some fin, some iv =>
          rw [hst, hf, hih] at h
          obtain ⟨rfl, rfl⟩ : fs = finisherRow e st fin iv :: fs' ∧ ns = ns' := by
            simpa [Prod.ext_iff, eq_comm] using h
          refine ⟨by simp [List.filter_cons, he, hns], ?_, ?_⟩
          · simp [numFinishers, List.filter_cons, he, hlen, numFinishers]
          · intro r hmem
            rcases List.mem_cons.mp hmem with rfl | hmem
            · exact ⟨by simp [finisherRow, baseResult, hf],
                by simp [finisherRow, baseResult, hsf]⟩
            · exact hrows r hmem
        | none, _, _ =>
          rw [hst, hf, hih] at h
          exact absurd h (by simp)
        | some _, none, _ => simp [hf] at hfin
        | some st, some fin, none =>
          rw [hst, hf, hih] at h
          exact absurd h (by simp)

theorem countP_rankMap {κ : Type} [LinearOrder κ] (k : Result → κ)
    (g : Result → Nat → Result) (l : List Result) (pred : Result → Bool)
    (hg : ∀ q n, pred (g q n) = pred q) :
    ((rankWalk k l 1 none 0).map (fun p => g p.1 p.2)).countP pred
      = l.countP pred := by
  rw [List.countP_map]
  have h1 : (rankWalk k l 1 none 0).countP (fun p => pred (g p.1 p.2))
      = (rankWalk k l 1 none 0).countP (fun p => pred p.1) := by
    apply List.countP_congr
    intro p _
    rw [hg p.1 p.2]
  have h2 : (rankWalk k l 1 none 0).countP (fun p => pred p.1)
      = ((rankWalk k l 1 none 0).map Prod.fst).countP pred := by
    rw [List.countP_map]
    rfl
  calc (rankWalk k l 1 none 0).countP ((fun r => pred r) ∘ fun p => g p.1 p.2)
      = (rankWalk k l 1 none 0).countP (fun p => pred (g p.1 p.2)) := rfl
    _ = ((rankWalk k l 1 none 0).map Prod.fst).countP pred := h1.trans h2
    _ = l.countP pred := by rw [rankWalk_map_fst]

theorem mem_rankMap {κ : Type} [LinearOrder κ] (k : Result → κ)
    (g : Result → Nat → Result) (l : List Result) {r : Result}
    (h : r ∈ (rankWalk k l 1 none 0).map (fun p => g p.1 p.2)) :
    ∃ q n, (q, n) ∈ rankWalk k l 1 none 0 ∧ q ∈ l ∧ r = g q n := by
  rcases List.mem_map.mp h with ⟨p, hp, hr⟩
  refine ⟨p.1, p.2, by simpa using hp, ?_, hr.symm⟩
  have hm : p.1 ∈ (rankWalk k l 1 none 0).map Prod.fst :=
    List.mem_map_of_mem Prod.fst hp
  rwa [rankWalk_map_fst] at hm

theorem countP_absRankedOf (fs : List Result) (pred : Result → Bool)
    (hg : ∀ q n, pred { q with absolute_position := some n } = pred q) :
    (absRankedOf fs).countP pred = fs.countP pred := by
  unfold absRankedOf
  rw [countP_rankMap _ _ _ _ hg]
  exact (pySortK_perm _ fs).countP_eq pred

theorem countP_finisherRowsOf (cfg : ScoringConfig) (fs : List Result)
    (pred : Result → Bool)
    (hg1 : ∀ q n, pred (applyHandicapRank cfg
      (scaling_factor cfg (hcpSortedOf fs).length) q n) = pred q)
    (hg2 : ∀ q n, pred { q with absolute_position := some n } = pred q) :
    (finisherRowsOf cfg fs).countP pred = fs.countP pred := by
  unfold finisherRowsOf
  rw [countP_rankMap _ _ _ _ hg1]
  unfold hcpSortedOf
  rw [(pySortK_perm _ _).countP_eq]
  exact countP_absRankedOf fs pred hg2

theorem hcpSortedOf_length (fs : List Result) :
    (hcpSortedOf fs).length = fs.length := by
  unfold hcpSortedOf absRankedOf
  rw [pySortK_length, List.length_map, rankWalk_length, pySortK_length]

/-- Every row produced by the finisher pipeline carries the fields of a
partition row and the two count-of-strictly-better position formulas. -/
theorem finisherRowsOf_spec {cfg : ScoringConfig} {fs : List Result}
    {r : Result} (h : r ∈ finisherRowsOf cfg fs) :
    ∃ q ∈ fs, r.finish = q.finish ∧ r.status = q.status ∧
      r.elapsed_seconds = q.elapsed_seconds ∧
      r.adjusted_time_seconds = q.adjusted_time_seconds ∧
      r.handicap_position = some (fs.countP
        (fun s => s.adjusted_time_seconds < r.adjusted_time_seconds) + 1) ∧
      r.absolute_position = some (fs.countP
        (fun s => s.elapsed_seconds < r.elapsed_seconds) + 1) := by
  unfold finisherRowsOf at h
  rcases mem_rankMap (fun s : Result => s.adjusted_time_seconds)
    (fun q n => applyHandicapRank cfg
      (scaling_factor cfg (hcpSortedOf fs).length) q n)
    (hcpSortedOf fs) h with ⟨q1, n, hqn, hq1mem, hr⟩
  -- the handicap position: 1 + number of strictly smaller adjusted times
  have hspecH := rankWalk_spec
    (fun s : Result => s.adjusted_time_seconds) (hcpSortedOf fs)
    [] (none : Option ℚ) 0 (by simp) (pySortK_sorted _ _) rfl (q1, n)
    (by simpa using hqn)
  -- locate q1 in the absolute-position stage
  have hq1abs : q1 ∈ absRankedOf fs := by
    unfold hcpSortedOf at hq1mem
    exact ((pySortK_perm (fun s : Result => s.adjusted_time_seconds)
      (absRankedOf fs)).mem_iff).mp hq1mem
  unfold absRankedOf at hq1abs
  rcases mem_rankMap (fun s : Result => s.elapsed_seconds)
    (fun q n => { q with absolute_position := some n })
    (pySortK (·.elapsed_seconds) fs) hq1abs with ⟨q0, p0, hq0n, hq0mem, hq1⟩
  have hspecA := rankWalk_spec
    (fun s : Result => s.elapsed_seconds) (pySortK (·.elapsed_seconds) fs)
    [] (none : Option ℤ) 0 (by simp) (pySortK_sorted _ _) rfl (q0, p0)
    (by simpa using hq0n)
  have hq0fs : q0 ∈ fs :=
    ((pySortK_perm (fun s : Result => s.elapsed_seconds) fs).mem_iff).mp hq0mem
  refine ⟨q0, hq0fs, ?_, ?_, ?_, ?_, ?_, ?_⟩
  · rw [hr, hq1]; simp [applyHandicapRank]
  · rw [hr, hq1]; simp [applyHandicapRank]
  · rw [hr, hq1]; simp [applyHandicapRank]
  · rw [hr, hq1]; simp [applyHandicapRank]
  · -- handicap position
    have hradj : r.adjusted_time_seconds = q1.adjusted_time_seconds := by
      rw [hr]; simp [applyHandicapRank]
    have hcount : (hcpSortedOf fs).countP
        (fun s => s.adjusted_time_seconds < q1.adjusted_time_seconds)
        = fs.countP (fun s => s.adjusted_time_seconds < q1.adjusted_time_seconds) := by
      unfold hcpSortedOf
      rw [(pySortK_perm _ _).countP_eq]
      exact countP_absRankedOf fs _ (by intro q m; simp)
    have hpos : r.handicap_position = some n := by
      rw [hr]; simp [applyHandicapRank]
    rw [hpos, hradj]
    simp only at hspecH
    rw [hspecH, hcount]
    simp
  · -- absolute position
    have hrelap : r.elapsed_seconds = q0.elapsed_seconds := by
      rw [hr, hq1]; simp [applyHandicapRank]
    have hcount : (pySortK (·.elapsed_seconds) fs).countP
        (fun s => s.elapsed_seconds < q0.elapsed_seconds)
        = fs.countP (fun s => s.elapsed_seconds < q0.elapsed_seconds) :=
      (pySortK_perm _ _).countP_eq _
    have hpos : r.absolute_position = some p0 := by
      rw [hr, hq1]; simp [applyHandicapRank]
    rw [hpos, hrelap]
    simp only at hspecA
    rw [hspecA, hcount]
    simp

theorem calculate_ok {cfg : ScoringConfig} {entries : List Entry}
    {res : List Result} (h : calculate_race_results cfg entries = .ok res) :
    ∃ fs ns, splitEntries entries = .ok (fs, ns) ∧
      res = assembleResults cfg (raceStart entries) fs ns := by
  unfold calculate_race_results at h
  rcases hs : splitEntries entries with u | ⟨fs, ns⟩
  · rw [hs] at h
    exact absurd h (by simp)
  · rw [hs] at h
    exact ⟨fs, ns, rfl, by simpa [eq_comm] using h⟩

/-- The degenerate-race test inside `assembleResults`, in terms of the
entry list, given the partition succeeded. -/
theorem degen_cond_iff {entries : List Entry} {fs : List Result}
    {ns : List Entry} (h : splitEntries entries = .ok (fs, ns)) :
    (raceStart entries = some 0 ∨ raceStart entries = none ∨
        (hcpSortedOf fs).length = 0) ↔ degenerateRace entries := by
  rcases splitEntries_ok h with ⟨_, hlen, _⟩
  unfold degenerateRace numFinishers
  rw [hcpSortedOf_length, hlen]
  unfold numFinishers
  tauto

theorem assembleResults_mem {cfg : ScoringConfig} {race_start : Option ℤ}
    {fs : List Result} {ns : List Entry} {r : Result}
    (h : r ∈ assembleResults cfg race_start fs ns) :
    ((race_start = some 0 ∨ race_start = none ∨ (hcpSortedOf fs).length = 0) ∧
      ∃ r0, (r0 ∈ finisherRowsOf cfg fs ∨
        r0 ∈ ns.map (mkNonFinisher (hcpSortedOf fs).length)) ∧ r = zeroTrad r0) ∨
    (¬(race_start = some 0 ∨ race_start = none ∨ (hcpSortedOf fs).length = 0) ∧
      (r ∈ finisherRowsOf cfg fs ∨
        r ∈ ns.map (mkNonFinisher (hcpSortedOf fs).length))) := by
  unfold assembleResults at h
  by_cases hd : race_start = some 0 ∨ race_start = none ∨ (hcpSortedOf fs).length = 0
  · rw [if_pos hd] at h
    rcases List.mem_map.mp h with ⟨r0, hr0, hz⟩
    exact Or.inl ⟨hd, r0, List.mem_append.mp hr0, hz.symm⟩
  · rw [if_neg hd] at h
    exact Or.inr ⟨hd, List.mem_append.mp h⟩

theorem mkNonFinisher_props (n : Nat) (e : Entry) :
    (mkNonFinisher n e).finish = none ∧
    (mkNonFinisher n e).revised_handicap = (mkNonFinisher n e).initial_handicap ∧
    (mkNonFinisher n e).points = 0 ∧
    (mkNonFinisher n e).handicap_position = none ∧
    (mkNonFinisher n e).full_delta = 0 ∧
    (mkNonFinisher n e).scaled_delta = 0 ∧
    (mkNonFinisher n e).actual_delta = 0 ∧
    (mkNonFinisher n e).traditional_points = (n : ℚ) + 1 := by
  simp [mkNonFinisher]

/-- Shared facts about every output row classified as a non-finisher
(null finish or DNF/DNS/DSQ status). -/
theorem nonfin_row_props {cfg : ScoringConfig} {entries : List Entry}
    {fs : List Result} {ns : List Entry}
    (hsplit : splitEntries entries = .ok (fs, ns)) {r : Result}
    (hr : r ∈ assembleResults cfg (raceStart entries) fs ns)
    (hnf : r.finish = none ∨ statusNonFin r.status = true) :
    r.revised_handicap = r.initial_handicap ∧ r.points = 0 ∧
    r.handicap_position = none ∧ r.full_delta = 0 ∧ r.scaled_delta = 0 ∧
    r.actual_delta = 0 ∧
    (¬degenerateRace entries →
      r.traditional_points = (numFinishers entries : ℚ) + 1) := by
  rcases splitEntries_ok hsplit with ⟨hns, hlen, hrows⟩
  have hnsize : (hcpSortedOf fs).length = numFinishers entries := by
    rw [hcpSortedOf_length, hlen]
  have hfinrow : ∀ r0 ∈ finisherRowsOf cfg fs,
      r0.finish ≠ none ∧ statusNonFin r0.status = false := by
    intro r0 hr0
    rcases finisherRowsOf_spec hr0 with ⟨q, hq, hf, hst, _⟩
    rcases hrows q hq with ⟨hqs, hqnf⟩
    refine ⟨?_, by rw [hst]; exact hqnf⟩
    rw [hf]
    exact Option.isSome_iff_ne_none.mp hqs
  rcases assembleResults_mem hr with ⟨hd, r0, hr0, rfl⟩ | ⟨hd, hr0⟩
  · have hdeg : degenerateRace entries := (degen_cond_iff hsplit).mp hd
    rcases hr0 with hfin | hnfm
    · exfalso
      rcases hfinrow r0 hfin with ⟨hne, hsf⟩
      rcases hnf with h1 | h1
      · exact hne (by simpa [zeroTrad] using h1)
      · rw [show (zeroTrad r0).status = r0.status from rfl, hsf] at h1
        exact Bool.false_ne_true h1
    · rcases List.mem_map.mp hnfm with ⟨e, _, rfl⟩
      refine ⟨by simp [zeroTrad, mkNonFinisher], by simp [zeroTrad, mkNonFinisher],
        by simp [zeroTrad, mkNonFinisher], by simp [zeroTrad, mkNonFinisher],
        by simp [zeroTrad, mkNonFinisher], by simp [zeroTrad, mkNonFinisher],
        fun hcon => absurd hdeg hcon⟩
  · rcases hr0 with hfin | hnfm
    · exfalso
      rcases hfinrow r hfin with ⟨hne, hsf⟩
      rcases hnf with h1 | h1
      · exact hne h1
      · rw [hsf] at h1
        exact Bool.false_ne_true h1
    · rcases List.mem_map.mp hnfm with ⟨e, _, rfl⟩
      refine ⟨by simp [mkNonFinisher], by simp [mkNonFinisher],
        by simp [mkNonFinisher], by simp [mkNonFinisher],
        by simp [mkNonFinisher], by simp [mkNonFinisher], fun _ => ?_⟩
      rw [show (mkNonFinisher (hcpSortedOf fs).length e).traditional_points
          = ((hcpSortedOf fs).length : ℚ) + 1 from rfl, hnsize]

/-- In a degenerate race every assembled row has zero traditional points. -/
theorem degen_all_zero {cfg : ScoringConfig} {entries : List Entry}
    {fs : List Result} {ns : List Entry}
    (hsplit : splitEntries entries = .ok (fs, ns))
    (hdeg : degenerateRace entries) {r : Result}
    (hr : r ∈ assembleResults cfg (raceStart entries) fs ns) :
    r.traditional_points = 0 := by
  have hdc := (degen_cond_iff hsplit).mpr hdeg
  unfold assembleResults at hr
  rw [if_pos hdc] at hr
  rcases List.mem_map.mp hr with ⟨r0, _, rfl⟩
  simp [zeroTrad]

/-- Counting the non-finisher rows of the assembled result list. -/
theorem countP_nonfin_rows {cfg : ScoringConfig} {entries : List Entry}
    {fs : List Result} {ns : List Entry}
    (hsplit : splitEntries entries = .ok (fs, ns)) :
    (assembleResults cfg (raceStart entries) fs ns).countP
        (fun r => r.finish.isNone || statusNonFin r.status)
      = (entries.filter entryNonFin).length := by
  rcases splitEntries_ok hsplit with ⟨hns, hlen, hrows⟩
  have hcount_fin : (finisherRowsOf cfg fs).countP
      (fun r => r.finish.isNone || statusNonFin r.status) = 0 := by
    refine List.countP_eq_zero.mpr ?_
    intro r0 hr0
    rcases finisherRowsOf_spec hr0 with ⟨q, hq, hf, hst, _⟩
    rcases hrows q hq with ⟨hqs, hqnf⟩
    rcases Option.isSome_iff_exists.mp hqs with ⟨v, hv⟩
    simp [hf, hst, hqnf, hv]
  have hcount_ns : (ns.map (mkNonFinisher (hcpSortedOf fs).length)).countP
      (fun r => r.finish.isNone || statusNonFin r.status) = ns.length := by
    rw [List.countP_map]
    refine List.countP_eq_length.mpr ?_
    intro e _
    simp [mkNonFinisher]
  have hcore : (finisherRowsOf cfg fs
      ++ ns.map (mkNonFinisher (hcpSortedOf fs).length)).countP
      (fun r => r.finish.isNone || statusNonFin r.status) = ns.length := by
    rw [List.countP_append, hcount_fin, hcount_ns]
    omega
  unfold assembleResults
  by_cases hd : raceStart entries = some 0 ∨ raceStart entries = none ∨
      (hcpSortedOf fs).length = 0
  · rw [if_pos hd, List.countP_map]
    have : ((fun r => r.finish.isNone || statusNonFin r.status) ∘ zeroTrad)
        = (fun r : Result => r.finish.isNone || statusNonFin r.status) := by
      funext r
      rfl
    rw [this, hcore, hns]
  · rw [if_neg hd, hcore, hns]

/-- Transfer of strict-adjusted-time counts from the assembled output back
to the partition rows. -/
theorem countP_res_adj {cfg : ScoringConfig} {entries : List Entry}
    {fs : List Result} {ns : List Entry}
    (hsplit : splitEntries entries = .ok (fs, ns)) (v : ℚ) :
    (assembleResults cfg (raceStart entries) fs ns).countP
        (fun s => s.finish.isSome && decide (s.adjusted_time_seconds < v))
      = fs.countP (fun s => decide (s.adjusted_time_seconds < v)) := by
  rcases splitEntries_ok hsplit with ⟨hns, hlen, hrows⟩
  set pred : Result → Bool :=
    fun s => s.finish.isSome && decide (s.adjusted_time_seconds < v) with hpred
  have hcount_fin : (finisherRowsOf cfg fs).countP pred = fs.countP pred := by
    refine countP_finisherRowsOf cfg fs pred ?_ ?_
    · intro q n
      simp [hpred, applyHandicapRank]
    · intro q n
      simp [hpred]
  have hfs : fs.countP pred
      = fs.countP (fun s => decide (s.adjusted_time_seconds < v)) := by
    refine List.countP_congr ?_
    intro s hs
    rcases hrows s hs with ⟨hsome, _⟩
    simp [hpred, hsome]
  have hcount_ns : (ns.map (mkNonFinisher (hcpSortedOf fs).length)).countP
      pred = 0 := by
    rw [List.countP_map]
    refine List.countP_eq_zero.mpr ?_
    intro e _
    simp [hpred, mkNonFinisher]
  have hcore : (finisherRowsOf cfg fs
      ++ ns.map (mkNonFinisher (hcpSortedOf fs).length)).countP pred
      = fs.countP (fun s => decide (s.adjusted_time_seconds < v)) := by
    rw [List.countP_append, hcount_fin, hcount_ns, hfs]
    omega
  unfold assembleResults
  by_cases hd : raceStart entries = some 0 ∨ raceStart entries = none ∨
      (hcpSortedOf fs).length = 0
  · rw [if_pos hd, List.countP_map]
    have : (pred ∘ zeroTrad) = pred := by
      funext r
      rfl
    rw [this, hcore]
  · rw [if_neg hd, hcore]

/-- Transfer of strict-elapsed-time counts from the assembled output back
to the partition rows. -/
theorem countP_res_elapsed {cfg : ScoringConfig} {entries : List Entry}
    {fs : List Result} {ns : List Entry}
    (hsplit : splitEntries entries = .ok (fs, ns)) (w : ℤ) :
    (assembleResults cfg (raceStart entries) fs ns).countP
        (fun s => s.finish.isSome && decide (s.elapsed_seconds < w))
      = fs.countP (fun s => decide (s.elapsed_seconds < w)) := by
  rcases splitEntries_ok hsplit with ⟨hns, hlen, hrows⟩
  set pred : Result → Bool :=
    fun s => s.finish.isSome && decide (s.elapsed_seconds < w) with hpred
  have hcount_fin : (finisherRowsOf cfg fs).countP pred = fs.countP pred := by
    refine countP_finisherRowsOf cfg fs pred ?_ ?_
    · intro q n
      simp [hpred, applyHandicapRank]
    · intro q n
      simp [hpred]
  have hfs : fs.countP pred
      = fs.countP (fun s => decide (s.elapsed_seconds < w)) := by
    refine List.countP_congr ?_
    intro s hs
    rcases hrows s hs with ⟨hsome, _⟩
    simp [hpred, hsome]
  have hcount_ns : (ns.map (mkNonFinisher (hcpSortedOf fs).length)).countP
      pred = 0 := by
    rw [List.countP_map]
    refine List.countP_eq_zero.mpr ?_
    intro e _
    simp [hpred, mkNonFinisher]
  have hcore : (finisherRowsOf cfg fs
      ++ ns.map (mkNonFinisher (hcpSortedOf fs).length)).countP pred
      = fs.countP (fun s => decide (s.elapsed_seconds < w)) := by
    rw [List.countP_append, hcount_fin, hcount_ns, hfs]
    omega
  unfold assembleResults
  by_cases hd : raceStart entries = some 0 ∨ raceStart entries = none ∨
      (hcpSortedOf fs).length = 0
  · rw [if_pos hd, List.countP_map]
    have : (pred ∘ zeroTrad) = pred := by
      funext r
      rfl
    rw [this, hcore]
  · rw [if_neg hd, hcore]

/-- Every finisher row of the assembled output satisfies both position
formulas, restated over the output itself. -/
theorem finisher_positions {cfg : ScoringConfig} {entries : List Entry}
    {fs : List Result} {ns : List Entry}
    (hsplit : splitEntries entries = .ok (fs, ns)) {r : Result}
    (hr : r ∈ assembleResults cfg (raceStart entries) fs ns)
    (hfin : r.finish.isSome = true) :
    r.handicap_position = some ((assembleResults cfg (raceStart entries)
        fs ns).countP (fun s => s.finish.isSome &&
          decide (s.adjusted_time_seconds < r.adjusted_time_seconds)) + 1) ∧
    r.absolute_position = some ((assembleResults cfg (raceStart entries)
        fs ns).countP (fun s => s.finish.isSome &&
          decide (s.elapsed_seconds < r.elapsed_seconds)) + 1) := by
  -- the row comes from the finisher pipeline (up to the zeroTrad fixup)
  have hcase := assembleResults_mem hr
  have main : ∀ r0 ∈ finisherRowsOf cfg fs,
      r0.handicap_position = some (fs.countP
        (fun s => decide (s.adjusted_time_seconds < r0.adjusted_time_seconds)) + 1) ∧
      r0.absolute_position = some (fs.countP
        (fun s => decide (s.elapsed_seconds < r0.elapsed_seconds)) + 1) := by
    intro r0 hr0
    rcases finisherRowsOf_spec hr0 with ⟨q, _, _, _, _, _, hh, ha⟩
    exact ⟨hh, ha⟩
  rcases hcase with ⟨_, r0, hr0, rfl⟩ | ⟨_, hr0⟩
  · rcases hr0 with hr0 | hr0
    · rcases main r0 hr0 with ⟨hh, ha⟩
      rw [countP_res_adj hsplit, countP_res_elapsed hsplit]
      exact ⟨hh, ha⟩
    · exfalso
      rcases List.mem_map.mp hr0 with ⟨e, _, he⟩
      rw [show (zeroTrad r0).finish = r0.finish from rfl, ← he] at hfin
      simp [mkNonFinisher] at hfin
  · rcases hr0 with hr0 | hr0
    · rcases main r hr0 with ⟨hh, ha⟩
      rw [countP_res_adj hsplit, countP_res_elapsed hsplit]
      exact ⟨hh, ha⟩
    · exfalso
      rcases List.mem_map.mp hr0 with ⟨e, _, he⟩
      rw [← he] at hfin
      simp [mkNonFinisher] at hfin

end ScorerLemmas

/-! ## Driver lemmas -/

section DriverLemmas

theorem list_set_self {α : Type} {l : List α} {i : Nat} {a : α}
    (h : l.get? i = some a) : l.set i a = l := by
  apply List.ext
  intro n
  by_cases hn : n = i
  · subst hn
    rw [List.get?_set_eq]
    simp_all
  · rw [List.get?_set_ne _ _ (fun hc => hn hc.symm)]

/-- Re-seeding already-seeded entrants writes the same seeds, produces the
same entries, and leaves the entrant list unchanged. -/
theorem seedEntrants_idem {m : HMap} {s : ℤ} {ents ents' : List Entrant}
    {m' : HMap} {es : List Entry}
    (h : seedEntrants m s ents = .ok (m', ents', es)) :
    seedEntrants m s ents' = .ok (m', ents', es) := by
  induction ents generalizing m ents' es with
  | nil =>
    obtain ⟨rfl, rfl, rfl⟩ : m = m' ∧ [] = ents' ∧ [] = es := by
      simpa [seedEntrants, Prod.ext_iff] using h
    rfl
  | cons ent rest ih =>
    match hcid : ent.competitor_id with
    | none =>
      simp only [seedEntrants, hcid] at h
      rcases hrec : seedEntrants m s rest with u | ⟨m1, ents1, es1⟩
      · rw [hrec] at h
        exact absurd h (by simp)
      · rw [hrec] at h
        obtain ⟨rfl, rfl, rfl⟩ : m1 = m' ∧ ent :: ents1 = ents' ∧ es1 = es := by
          simpa [Prod.ext_iff] using h
        simp [seedEntrants, hcid, ih hrec]
    | some cid =>
      simp only [seedEntrants, hcid] at h
      by_cases hz : cid = 0
      · rw [if_pos hz] at h
        rcases hrec : seedEntrants m s rest with u | ⟨m1, ents1, es1⟩
        · rw [hrec] at h
          exact absurd h (by simp)
        · rw [hrec] at h
          obtain ⟨rfl, rfl, rfl⟩ : m1 = m' ∧ ent :: ents1 = ents' ∧ es1 = es := by
            simpa [Prod.ext_iff] using h
          simp [seedEntrants, hcid, hz, ih hrec]
      · rcases hov : ent.handicap_override with _ | ov
        · simp only [hz, if_false, hov] at h
          rcases hft : (if ent.finish_time.truthy then parse_hms ent.finish_time
              else .ok none) with u | fin
          · rw [hft] at h
            exact absurd h (by simp)
          · rw [hft] at h
            rcases hrec : seedEntrants m s rest with u | ⟨m1, ents1, es1⟩
            · rw [hrec] at h
              exact absurd h (by simp)
            · rw [hrec] at h
              obtain ⟨rfl, hE, hS⟩ : m1 = m' ∧
                  ({ competitor_id := some cid, finish_time := ent.finish_time,
                     status := ent.status, handicap_override := none,
                     initial_handicap := some ((m cid).getD 0) } : Entrant)
                    :: ents1 = ents' ∧
                  ({ competitor_id := cid, start := some s,
                     finish := fin,
                     initial_handicap := some ((m cid).getD 0),
                     status := if statusTruthy ent.status then ent.status
                       else none } : Entry) :: es1 = es := by
                simpa [Prod.ext_iff, hov] using h
              subst hE hS
              simp [seedEntrants, hz, hft, ih hrec]
        · simp only [hz, if_false, hov] at h
          rcases hft : (if ent.finish_time.truthy then parse_hms ent.finish_time
              else .ok none) with u | fin
          · rw [hft] at h
            exact absurd h (by simp)
          · rw [hft] at h
            rcases hrec : seedEntrants (hmSet m cid ov) s rest with u |
                ⟨m1, ents1, es1⟩
            · rw [hrec] at h
              exact absurd h (by simp)
            · rw [hrec] at h
              obtain ⟨rfl, hE, hS⟩ : m1 = m' ∧
                  ({ competitor_id := some cid, finish_time := ent.finish_time,
                     status := ent.status, handicap_override := some ov,
                     initial_handicap := some ov } : Entrant)
                    :: ents1 = ents' ∧
                  ({ competitor_id := cid, start := some s,
                     finish := fin, initial_handicap := some ov,
                     status := if statusTruthy ent.status then ent.status
                       else none } : Entry) :: es1 = es := by
                simpa [Prod.ext_iff, hov] using h
              subst hE hS
              simp [seedEntrants, hz, hft, ih hrec]

/-- Re-running one already-processed race from the same map state changes
nothing. -/
theorem stepRace_idem {cfg : ScoringConfig} {m m' : HMap} {race race' : Race}
    (h : stepRace cfg m race = .ok (m', race')) :
    stepRace cfg m race' = .ok (m', race') := by
  unfold stepRace at h ⊢
  rcases hst : parse_hms race.start_time with u | st0
  · simp [hst] at h
  · simp only [hst] at h
    rcases hseed : seedEntrants m (st0.getD 0) race.competitors with u |
        ⟨m1, ents', entries⟩
    · simp [hseed] at h
    · simp only [hseed] at h
      have hidem := seedEntrants_idem hseed
      by_cases hemp : entries.isEmpty
      · rw [if_pos hemp] at h
        obtain ⟨rfl, rfl⟩ : m1 = m' ∧
            ({ race with competitors := ents' } : Race) = race' := by
          simpa [Prod.ext_iff] using h
        simp [hst, hidem, hemp]
      · rw [if_neg hemp] at h
        rcases hcalc : calculate_race_results cfg entries with u | results
        · simp [hcalc] at h
        · simp only [hcalc] at h
          obtain ⟨rfl, rfl⟩ : applyRevised m1 results = m' ∧
              ({ race with competitors := ents' } : Race) = race' := by
            simpa [Prod.ext_iff] using h
          simp [hst, hidem, hemp, hcalc]

/-- Positions outside the processed index list keep their race unchanged. -/
theorem driverLoop_preserves {cfg : ScoringConfig} {idxs : List Nat}
    {races R : List Race} {m M : HMap}
    (h : driverLoop cfg idxs races m = .ok (R, M)) :
    ∀ j, j ∉ idxs → R.get? j = races.get? j := by
  induction idxs generalizing races m with
  | nil =>
    obtain ⟨rfl, rfl⟩ : races = R ∧ m = M := by
      simpa [driverLoop, Prod.ext_iff] using h
    intro j _
    rfl
  | cons i rest ih =>
    intro j hj
    rw [driverLoop] at h
    rcases hr : races.get? i with _ | race
    · simp only [hr] at h
      exact ih h j (fun hc => hj (List.mem_cons_of_mem i hc))
    · simp only [hr] at h
      rcases hstep : stepRace cfg m race with u | ⟨m1, race'⟩
      · simp [hstep] at h
      · simp only [hstep] at h
        have := ih h j (fun hc => hj (List.mem_cons_of_mem i hc))
        rw [this]
        have hij : i ≠ j := fun hc => hj (hc ▸ List.mem_cons_self i rest)
        exact List.get?_set_ne _ _ hij

/-- Re-running the chronological loop over its own output from the same
starting map reproduces that output exactly. -/
theorem driverLoop_idem {cfg : ScoringConfig} {idxs : List Nat}
    {races R : List Race} {m M : HMap} (hnd : idxs.Nodup)
    (h : driverLoop cfg idxs races m = .ok (R, M)) :
    driverLoop cfg idxs R m = .ok (R, M) := by
  induction idxs generalizing races m with
  | nil =>
    obtain ⟨rfl, rfl⟩ : races = R ∧ m = M := by
      simpa [driverLoop, Prod.ext_iff] using h
    rfl
  | cons i rest ih =>
    rcases List.nodup_cons.mp hnd with ⟨hi, hrest⟩
    rw [driverLoop] at h
    rcases hr : races.get? i with _ | race
    · simp only [hr] at h
      have hRi : R.get? i = races.get? i := driverLoop_preserves h i hi
      rw [driverLoop]
      simp only [hRi, hr]
      exact ih hrest h
    · simp only [hr] at h
      rcases hstep : stepRace cfg m race with u | ⟨m1, race'⟩
      · simp [hstep] at h
      · simp only [hstep] at h
        have hlen : i < races.length := by
          by_contra hc
          rw [List.get?_eq_none.mpr (by omega)] at hr
          exact Option.noConfusion hr
        have hRi : R.get? i = some race' := by
          rw [driverLoop_preserves h i hi]
          rw [List.get?_set_eq]
          rw [List.get?_eq_get (by simpa using hlen)]
          rfl
        rw [driverLoop]
        simp only [hRi, stepRace_idem hstep]
        have hset : R.set i race' = R := list_set_self hRi
        rw [hset]
        exact ih hrest h

theorem sortedIdx_nodup (d : RaceData) : (sortedIdx d).Nodup := by
  unfold sortedIdx
  by_cases ho : d.order.isEmpty
  · rw [if_pos ho]
    exact (pySortK_perm _ _).nodup_iff.mpr (List.nodup_range _)
  · rw [if_neg ho]
    exact (pySortK_perm _ _).nodup_iff.mpr (List.nodup_range _)

theorem driverLoop_length {cfg : ScoringConfig} {idxs : List Nat}
    {races R : List Race} {m M : HMap}
    (h : driverLoop cfg idxs races m = .ok (R, M)) :
    R.length = races.length := by
  induction idxs generalizing races m with
  | nil =>
    obtain ⟨rfl, rfl⟩ : races = R ∧ m = M := by
      simpa [driverLoop, Prod.ext_iff] using h
    rfl
  | cons i rest ih =>
    rw [driverLoop] at h
    rcases hr : races.get? i with _ | race
    · simp only [hr] at h
      exact ih h
    · simp only [hr] at h
      rcases hstep : stepRace cfg m race with u | ⟨m1, race'⟩
      · simp [hstep] at h
      · simp only [hstep] at h
        rw [ih h]
        exact List.length_set races i race'

theorem driverLoop_headers {cfg : ScoringConfig} {idxs : List Nat}
    {races R : List Race} {m M : HMap}
    (h : driverLoop cfg idxs races m = .ok (R, M)) :
    ∀ j, (R.get? j).map (fun r => (r.race_id, r.date, r.start_time))
      = (races.get? j).map (fun r => (r.race_id, r.date, r.start_time)) := by
  induction idxs generalizing races m with
  | nil =>
    obtain ⟨rfl, rfl⟩ : races = R ∧ m = M := by
      simpa [driverLoop, Prod.ext_iff] using h
    intro j
    rfl
  | cons i rest ih =>
    intro j
    rw [driverLoop] at h
    rcases hr : races.get? i with _ | race
    · simp only [hr] at h
      exact ih h j
    · simp only [hr] at h
      rcases hstep : stepRace cfg m race with u | ⟨m1, race'⟩
      · simp [hstep] at h
      · simp only [hstep] at h
        rw [ih h j]
        by_cases hij : j = i
        · subst hij
          rw [List.get?_set_eq, hr]
          have hsr : race'.race_id = race.race_id ∧ race'.date = race.date ∧
              race'.start_time = race.start_time := by
            unfold stepRace at hstep
            rcases hst : parse_hms race.start_time with u | st0
            · simp [hst] at hstep
            · simp only [hst] at hstep
              rcases hseed : seedEntrants m (st0.getD 0) race.competitors
                  with u | ⟨m2, ents', entries⟩
              · simp [hseed] at hstep
              · simp only [hseed] at hstep
                by_cases hemp : entries.isEmpty
                · rw [if_pos hemp] at hstep
                  obtain ⟨rfl, rfl⟩ : m2 = m1 ∧
                      ({ race with competitors := ents' } : Race) = race' := by
                    simpa [Prod.ext_iff] using hstep
                  exact ⟨rfl, rfl, rfl⟩
                · rw [if_neg hemp] at hstep
                  rcases hcalc : calculate_race_results cfg entries
                      with u | results
                  · simp [hcalc] at hstep
                  · simp only [hcalc] at hstep
                    obtain ⟨rfl, rfl⟩ : applyRevised m2 results = m1 ∧
                        ({ race with competitors := ents' } : Race) = race' := by
                      simpa [Prod.ext_iff] using hstep
                    exact ⟨rfl, rfl, rfl⟩
          rcases hsr with ⟨h1, h2, h3⟩
          simp [Option.map, h1, h2, h3]
        · rw [List.get?_set_ne _ _ (fun hc => hij hc.symm)]

theorem sortedIdx_congr {d d' : RaceData} (horder : d'.order = d.order)
    (hlen : d'.races.length = d.races.length)
    (hh : ∀ j, (d'.races.get? j).map (fun r => (r.race_id, r.date, r.start_time))
      = (d.races.get? j).map (fun r => (r.race_id, r.date, r.start_time))) :
    sortedIdx d' = sortedIdx d := by
  have hkdate : d'.races.map raceKeyDate = d.races.map raceKeyDate := by
    apply List.ext
    intro j
    rw [List.get?_map, List.get?_map]
    have := hh j
    rcases hj : d'.races.get? j with _ | r
    · rw [hj] at this
      rcases hj' : d.races.get? j with _ | r'
      · rfl
      · rw [hj'] at this
        exact absurd this (by simp)
    · rw [hj] at this
      rcases hj' : d.races.get? j with _ | r'
      · rw [hj'] at this
        exact absurd this (by simp)
      · rw [hj'] at this
        obtain ⟨h1, h2, h3⟩ : r.race_id = r'.race_id ∧ r.date = r'.date ∧
            r.start_time = r'.start_time := by
          simpa [Prod.ext_iff] using this
        simp [raceKeyDate, h1, h2, h3]
  have hkord : ∀ o, d'.races.map (raceKeyOrder o)
      = d.races.map (raceKeyOrder o) := by
    intro o
    apply List.ext
    intro j
    rw [List.get?_map, List.get?_map]
    have := hh j
    rcases hj : d'.races.get? j with _ | r
    · rw [hj] at this
      rcases hj' : d.races.get? j with _ | r'
      · rfl
      · rw [hj'] at this
        exact absurd this (by simp)
    · rw [hj] at this
      rcases hj' : d.races.get? j with _ | r'
      · rw [hj'] at this
        exact absurd this (by simp)
      · rw [hj'] at this
        obtain ⟨h1, _, _⟩ : r.race_id = r'.race_id ∧ r.date = r'.date ∧
            r.start_time = r'.start_time := by
          simpa [Prod.ext_iff] using this
        simp [raceKeyOrder, h1]
  unfold sortedIdx
  rw [horder, hlen, hkdate, hkord]

theorem initialHandicapMap_writeFleet (m : HMap) (fleet : List Competitor) :
    initialHandicapMap (writeFleet m fleet) = initialHandicapMap fleet := by
  unfold writeFleet initialHandicapMap
  rw [List.foldl_map]
  congr 1
  funext acc c
  rcases hc : c.competitor_id with _ | cid
  · simp [hc]
  · by_cases hz : cid = 0
    · simp [hc, hz]
    · simp [hc, hz]

theorem writeFleet_idem (m : HMap) (fleet : List Competitor) :
    writeFleet m (writeFleet m fleet) = writeFleet m fleet := by
  unfold writeFleet
  rw [List.map_map]
  apply List.map_congr_left
  intro c _
  rcases hc : c.competitor_id with _ | cid
  · simp [hc]
  · by_cases hz : cid = 0
    · simp [hc, hz]
    · rcases hm : m cid with _ | v
      · simp [hc, hz, hm]
      · simp [hc, hz, hm]

theorem countP_split {α : Type} (l : List α) (p q : α → Bool) :
    l.countP p = l.countP (fun a => p a && q a)
      + l.countP (fun a => p a && !q a) := by
  induction l with
  | nil => simp
  | cons a as ih =>
    simp only [List.countP_cons, ih]
    cases hp : p a <;> cases hq : q a <;> simp <;> omega

/-- Partition rows preserve each entry's competitor id and initial
handicap, counted through any predicate on those two fields. -/
theorem splitEntries_countP {entries : List Entry} {fs : List Result}
    {ns : List Entry} (h : splitEntries entries = .ok (fs, ns))
    (P : Nat → Option ℤ → Bool) :
    fs.countP (fun r => P r.competitor_id r.initial_handicap)
      = entries.countP (fun e =>
          !entryNonFin e && P e.competitor_id e.initial_handicap) := by
  induction entries generalizing fs ns with
  | nil =>
    obtain ⟨rfl, rfl⟩ : fs = [] ∧ ns = [] := by
      simpa [splitEntries, Prod.ext_iff, eq_comm] using h
    simp
  | cons e rest ih =>
    rcases hr : splitEntries rest with u | ⟨fs', ns'⟩
    · rw [splitEntries, hr] at h
      exact absurd h (by simp)
    · simp only [splitEntries, hr] at h
      by_cases he : entryNonFin e
      · rw [if_pos he] at h
        obtain ⟨rfl, rfl⟩ : fs = fs' ∧ ns = e :: ns' := by
          simpa [Prod.ext_iff, eq_comm] using h
        simp [List.countP_cons, he, ih hr]
      · rw [if_neg he] at h
        match hst : e.start, hf : e.finish, hih : e.initial_handicap with
        | some st, some fin, some iv =>
          rw [hst, hf, hih] at h
          obtain ⟨rfl, rfl⟩ : fs = finisherRow e st fin iv :: fs' ∧ ns = ns' := by
            simpa [Prod.ext_iff, eq_comm] using h
          have hpres : P (finisherRow e st fin iv).competitor_id
              (finisherRow e st fin iv).initial_handicap
              = P e.competitor_id e.initial_handicap := rfl
          simp [List.countP_cons, he, ih hr, hpres]
        | none, _, _ =>
          rw [hst, hf, hih] at h
          exact absurd h (by simp)
        | some _, none, _ =>
          exact absurd (by unfold entryNonFin; simp [hf]) he
        | some st, some fin, none =>
          rw [hst, hf, hih] at h
          exact absurd h (by simp)

/-- Counting output rows through any predicate on competitor id and
initial handicap equals counting the input entries. -/
theorem countP_res_cid_init {cfg : ScoringConfig} {entries : List Entry}
    {fs : List Result} {ns : List Entry}
    (hsplit : splitEntries entries = .ok (fs, ns)) (P : Nat → Option ℤ → Bool) :
    (assembleResults cfg (raceStart entries) fs ns).countP
        (fun r => P r.competitor_id r.initial_handicap)
      = entries.countP (fun e => P e.competitor_id e.initial_handicap) := by
  rcases splitEntries_ok hsplit with ⟨hns, _, _⟩
  set pred : Result → Bool :=
    fun r => P r.competitor_id r.initial_handicap with hpred
  have hcount_fin : (finisherRowsOf cfg fs).countP pred = fs.countP pred := by
    refine countP_finisherRowsOf cfg fs pred ?_ ?_
    · intro q n
      simp [hpred, applyHandicapRank]
    · intro q n
      simp [hpred]
  have hcount_ns : (ns.map (mkNonFinisher (hcpSortedOf fs).length)).countP pred
      = ns.countP (fun e => P e.competitor_id e.initial_handicap) := by
    rw [List.countP_map]
    refine List.countP_congr ?_
    intro e _
    simp [hpred, mkNonFinisher]
  have hcore : (finisherRowsOf cfg fs
      ++ ns.map (mkNonFinisher (hcpSortedOf fs).length)).countP pred
      = entries.countP (fun e => P e.competitor_id e.initial_handicap) := by
    rw [List.countP_append, hcount_fin, hcount_ns,
      splitEntries_countP hsplit P, hns]
    have e1 : entries.countP (fun e =>
        !entryNonFin e && P e.competitor_id e.initial_handicap)
        = entries.countP (fun e =>
          P e.competitor_id e.initial_handicap && !entryNonFin e) := by
      refine List.countP_congr ?_
      intro e _
      rw [Bool.and_comm]
    have e2 : (entries.filter entryNonFin).countP
        (fun e => P e.competitor_id e.initial_handicap)
        = entries.countP (fun e =>
          P e.competitor_id e.initial_handicap && entryNonFin e) := by
      simpa using List.countP_filter
        (fun e => P e.competitor_id e.initial_handicap) entryNonFin entries
    have e3 : entries.countP (fun e => P e.competitor_id e.initial_handicap)
        = entries.countP (fun e =>
            P e.competitor_id e.initial_handicap && entryNonFin e)
          + entries.countP (fun e =>
            P e.competitor_id e.initial_handicap && !entryNonFin e) := by
      simpa using countP_split entries
        (fun e => P e.competitor_id e.initial_handicap)
        (fun e => entryNonFin e)
    rw [e1, e2, e3]
    exact Nat.add_comm _ _
  unfold assembleResults
  by_cases hd : raceStart entries = some 0 ∨ raceStart entries = none ∨
      (hcpSortedOf fs).length = 0
  · rw [if_pos hd, List.countP_map]
    have : (pred ∘ zeroTrad) = pred := by
      funext r
      rfl
    rw [this, hcore]
  · rw [if_neg hd, hcore]

/-- In every output row the revised handicap is present exactly when the
initial handicap is. -/
theorem res_revised_isSome {cfg : ScoringConfig} {entries : List Entry}
    {fs : List Result} {ns : List Entry}
    (hsplit : splitEntries entries = .ok (fs, ns)) {r : Result}
    (hr : r ∈ assembleResults cfg (raceStart entries) fs ns) :
    r.revised_handicap.isSome = r.initial_handicap.isSome := by
  have main : ∀ r0, (r0 ∈ finisherRowsOf cfg fs ∨
      r0 ∈ ns.map (mkNonFinisher (hcpSortedOf fs).length)) →
      r0.revised_handicap.isSome = r0.initial_handicap.isSome := by
    intro r0 hr0
    rcases hr0 with hr0 | hr0
    · unfold finisherRowsOf at hr0
      rcases mem_rankMap (fun s : Result => s.adjusted_time_seconds)
        (fun q n => applyHandicapRank cfg
          (scaling_factor cfg (hcpSortedOf fs).length) q n)
        (hcpSortedOf fs) hr0 with ⟨q, n, _, _, rfl⟩
      simp [applyHandicapRank]
    · rcases List.mem_map.mp hr0 with ⟨e, _, rfl⟩
      simp [mkNonFinisher]
  rcases assembleResults_mem hr with ⟨_, r0, hr0, rfl⟩ | ⟨_, hr0⟩
  · exact main r0 hr0
  · exact main r hr0

/-- When no output row carries the competitor the revised-handicap loop
leaves the map untouched at that key. -/
theorem applyRevised_absent {cid : Nat} :
    ∀ {res : List Result} (m : HMap),
      res.countP (fun r => r.competitor_id == cid) = 0 →
      applyRevised m res cid = m cid := by
  intro res
  induction res with
  | nil => intro m _; rfl
  | cons q rest ih =>
    intro m hc
    rw [List.countP_cons] at hc
    have hq : (q.competitor_id == cid) = false := by
      by_contra hb
      simp only [Bool.not_eq_false] at hb
      rw [hb] at hc
      simp at hc
    have hqne : q.competitor_id ≠ cid := by simpa using hq
    have hrest : rest.countP (fun r => r.competitor_id == cid) = 0 := by
      rw [hq] at hc
      simpa using hc
    rw [applyRevised]
    by_cases hz : q.competitor_id = 0
    · rw [if_pos hz]
      exact ih m hrest
    · rw [if_neg hz]
      rcases hrv : q.revised_handicap with _ | rv
      · exact ih m hrest
      · rw [ih (hmSet m q.competitor_id rv) hrest]
        unfold hmSet
        rw [if_neg (fun hcc => hqne (by rw [hcc]))]

/-- With exactly one output row for the competitor, and that row's revised
handicap present, the map update agrees with reading the row back. -/
theorem applyRevised_unique {cid : Nat} (hcid : cid ≠ 0) :
    ∀ {res : List Result} (m : HMap),
      res.countP (fun r => r.competitor_id == cid) = 1 →
      (∀ r ∈ res, r.competitor_id = cid → r.revised_handicap.isSome = true) →
      applyRevised m res cid
        = res.findSome? (fun r =>
            if r.competitor_id = cid then r.revised_handicap else none) := by
  intro res
  induction res with
  | nil => intro m hc _; simp at hc
  | cons q rest ih =>
    intro m hc hsome
    rw [List.countP_cons] at hc
    by_cases hq : q.competitor_id = cid
    · have hqq : (q.competitor_id == cid) = true := by simpa using hq
      rw [if_pos hqq] at hc
      have hrest : rest.countP (fun r => r.competitor_id == cid) = 0 := by
        omega
      rcases Option.isSome_iff_exists.mp
          (hsome q (List.mem_cons_self q rest) hq) with ⟨rv, hrv⟩
      have hnz : ¬q.competitor_id = 0 := by
        rw [hq]
        exact hcid
      rw [show applyRevised m (q :: rest)
          = applyRevised (hmSet m q.competitor_id rv) rest from by
        simp [applyRevised, hnz, hrv]]
      rw [List.findSome?_cons]
      simp only [if_pos hq, hrv]
      rw [applyRevised_absent _ hrest]
      simp [hmSet, hq]
    · have hqb : (q.competitor_id == cid) = false := by simpa using hq
      rw [if_neg (by simp [hqb])] at hc
      have hrest : rest.countP (fun r => r.competitor_id == cid) = 1 := by
        omega
      have hsome' : ∀ r ∈ rest, r.competitor_id = cid →
          r.revised_handicap.isSome = true :=
        fun r hr => hsome r (List.mem_cons_of_mem q hr)
      rw [List.findSome?_cons]
      simp only [if_neg hq]
      by_cases hz : q.competitor_id = 0
      · rw [show applyRevised m (q :: rest) = applyRevised m rest from by
          simp [applyRevised, hz]]
        exact ih m hrest hsome'
      · rcases hrv : q.revised_handicap with _ | rv
        · rw [show applyRevised m (q :: rest) = applyRevised m rest from by
            simp [applyRevised, hz, hrv]]
          exact ih m hrest hsome'
        · rw [show applyRevised m (q :: rest)
              = applyRevised (hmSet m q.competitor_id rv) rest from by
            simp [applyRevised, hz, hrv]]
          exact ih (hmSet m q.competitor_id rv) hrest hsome'

/-- A member on which `f` fires makes `findSome?` fire. -/
theorem findSome?_isSome_of {α β : Type} (f : α → Option β) :
    ∀ {l : List α} {x : α}, x ∈ l → (f x).isSome = true →
      (l.findSome? f).isSome = true := by
  intro l
  induction l with
  | nil => intro x hx; simp at hx
  | cons a as ih =>
    intro x hx hfx
    rw [List.findSome?_cons]
    rcases ha : f a with _ | b
    · rcases List.mem_cons.mp hx with rfl | hx'
      · rw [ha] at hfx
        simp at hfx
      · exact ih hx' hfx
    · simp

/-- Multiplicity of a truthy id in the per-race id list equals the count
of entrants carrying it. -/
theorem count_truthyCids {cid : Nat} (hcid : cid ≠ 0) (r : Race) :
    (truthyCids r).count cid
      = r.competitors.countP (fun e => e.competitor_id == some cid) := by
  unfold truthyCids
  induction r.competitors with
  | nil => rfl
  | cons e rest ih =>
    rw [List.countP_cons]
    rcases hc : e.competitor_id with _ | n
    · simpa [List.filterMap_cons, hc] using ih
    · by_cases hn : n = 0
      · subst hn
        have : (some 0 == some cid) = false := by
          simp [Ne.symm hcid]
        simpa [List.filterMap_cons, hc, this] using ih
      · by_cases hcc : n = cid
        · subst hcc
          simp only [List.filterMap_cons, hc, if_neg hn]
          rw [List.count_cons]
          simp [ih]
        · have : (some n == some cid) = false := by simp [hcc]
          simp only [List.filterMap_cons, hc, if_neg hn]
          rw [List.count_cons]
          simp [ih, this, hcc]

/-- Inversion of the seeding loop on a skipped (untruthy) head entrant. -/
theorem seedEntrants_skip_inv {m : HMap} {s : ℤ} {ent : Entrant}
    {rest : List Entrant} {m1 : HMap} {ents' : List Entrant} {es : List Entry}
    (hc : ent.competitor_id = none ∨ ent.competitor_id = some 0)
    (h : seedEntrants m s (ent :: rest) = .ok (m1, ents', es)) :
    ∃ rs', seedEntrants m s rest = .ok (m1, rs', es) ∧ ents' = ent :: rs' := by
  rcases hr : seedEntrants m s rest with u | ⟨m', rs', es'⟩ <;>
    rcases hc with hc | hc <;>
      simp only [seedEntrants, hc, hr] at h
  · exact absurd h (by simp)
  · exact absurd h (by simp)
  · obtain ⟨rfl, rfl, rfl⟩ : m1 = m' ∧ ents' = ent :: rs' ∧ es = es' := by
      simpa [Prod.ext_iff, eq_comm] using h
    exact ⟨rs', rfl, rfl⟩
  · obtain ⟨rfl, rfl, rfl⟩ : m1 = m' ∧ ents' = ent :: rs' ∧ es = es' := by
      simpa [Prod.ext_iff, eq_comm] using h
    exact ⟨rs', rfl, rfl⟩

/-- Inversion of the seeding loop on a truthy head entrant. -/
theorem seedEntrants_pos_inv {m : HMap} {s : ℤ} {ent : Entrant}
    {rest : List Entrant} {c : Nat} {m1 : HMap} {ents' : List Entrant}
    {es : List Entry}
    (hc : ent.competitor_id = some c) (h0 : ¬c = 0)
    (h : seedEntrants m s (ent :: rest) = .ok (m1, ents', es)) :
    ∃ fin rs' es',
      (if ent.finish_time.truthy then parse_hms ent.finish_time
        else .ok none) = .ok fin ∧
      seedEntrants (match ent.handicap_override with
                    | some ov => hmSet m c ov
                    | none => m) s rest = .ok (m1, rs', es') ∧
      ents' = { ent with initial_handicap := some (seedVal m c ent) } :: rs' ∧
      es = ({ competitor_id := c, start := some s,
              initial_handicap := some (seedVal m c ent), finish := fin,
              status := if statusTruthy ent.status then ent.status
                else none } : Entry) :: es' := by
  simp only [seedEntrants, hc] at h
  rw [if_neg h0] at h
  rcases hov : ent.handicap_override with _ | ov <;>
    simp only [hov] at h <;>
      rcases hp : (if ent.finish_time.truthy then parse_hms ent.finish_time
        else .ok none) with u | fin <;>
        simp only [hp] at h
  · exact absurd h (by simp)
  · rcases hr : seedEntrants m s rest with u | ⟨m', rs', es'⟩ <;>
      simp only [hr] at h
    · exact absurd h (by simp)
    · rw [Except.ok.injEq, Prod.mk.injEq, Prod.mk.injEq] at h
      obtain ⟨hm, hents, hes⟩ := h
      subst hm
      refine ⟨fin, rs', es', rfl, rfl, ?_, ?_⟩
      · rw [← hents]
        simp [seedVal, hov, hc]
      · rw [← hes]
        simp [seedVal, hov, hc]
  · exact absurd h (by simp)
  · rcases hr : seedEntrants (hmSet m c ov) s rest with u | ⟨m', rs', es'⟩ <;>
      simp only [hr] at h
    · exact absurd h (by simp)
    · rw [Except.ok.injEq, Prod.mk.injEq, Prod.mk.injEq] at h
      obtain ⟨hm, hents, hes⟩ := h
      subst hm
      refine ⟨fin, rs', es', rfl, rfl, ?_, ?_⟩
      · rw [← hents]
        simp [seedVal, hov, hc]
      · rw [← hes]
        simp [seedVal, hov, hc]

/-- Every entry row the seeding loop builds carries a present initial
handicap. -/
theorem seedEntrants_init_some :
    ∀ {ents : List Entrant} {m : HMap} {s : ℤ} {m1 : HMap}
      {ents' : List Entrant} {es : List Entry},
      seedEntrants m s ents = .ok (m1, ents', es) →
      ∀ en ∈ es, en.initial_handicap.isSome = true := by
  intro ents
  induction ents with
  | nil =>
    intro m s m1 ents' es h
    obtain ⟨rfl, rfl, rfl⟩ : m1 = m ∧ ents' = [] ∧ es = [] := by
      simpa [seedEntrants, Prod.ext_iff, eq_comm] using h
    intro en hen
    simp at hen
  | cons ent rest ih =>
    intro m s m1 ents' es h
    rcases hc : ent.competitor_id with _ | c
    · rcases seedEntrants_skip_inv (Or.inl hc) h with ⟨rs', hr, rfl⟩
      exact ih hr
    · by_cases h0 : c = 0
      · subst h0
        rcases seedEntrants_skip_inv (Or.inr hc) h with ⟨rs', hr, rfl⟩
        exact ih hr
      · rcases seedEntrants_pos_inv hc h0 h with ⟨fin, rs', es', hp, hr, rfl, rfl⟩
        intro en hen
        rcases List.mem_cons.mp hen with rfl | hen'
        · rfl
        · exact ih hr en hen'

/-- The seeding loop builds exactly one entry row per entrant carrying a
given truthy competitor id. -/
theorem seedEntrants_count {cid : Nat} (hcid : cid ≠ 0) :
    ∀ {ents : List Entrant} {m : HMap} {s : ℤ} {m1 : HMap}
      {ents' : List Entrant} {es : List Entry},
      seedEntrants m s ents = .ok (m1, ents', es) →
      es.countP (fun en => en.competitor_id == cid)
        = ents.countP (fun e => e.competitor_id == some cid) := by
  intro ents
  induction ents with
  | nil =>
    intro m s m1 ents' es h
    obtain ⟨rfl, rfl, rfl⟩ : m1 = m ∧ ents' = [] ∧ es = [] := by
      simpa [seedEntrants, Prod.ext_iff, eq_comm] using h
    rfl
  | cons ent rest ih =>
    intro m s m1 ents' es h
    rcases hc : ent.competitor_id with _ | c
    · rcases seedEntrants_skip_inv (Or.inl hc) h with ⟨rs', hr, rfl⟩
      rw [List.countP_cons, ih hr, hc]
      simp
    · by_cases h0 : c = 0
      · subst h0
        rcases seedEntrants_skip_inv (Or.inr hc) h with ⟨rs', hr, rfl⟩
        rw [List.countP_cons, ih hr, hc]
        simp [Ne.symm hcid]
      · rcases seedEntrants_pos_inv hc h0 h with ⟨fin, rs', es', hp, hr, rfl, rfl⟩
        rw [List.countP_cons, List.countP_cons, ih hr, hc]
        simp

/-- On a race carrying a truthy competitor id at most once, the seeding
loop stamps the carried seed into exactly the filtered entrants and leaves
the map at that key untouched when the id is absent. -/
theorem seedEntrants_key {cid : Nat} (hcid : cid ≠ 0) :
    ∀ {ents : List Entrant} {m : HMap} {s : ℤ} {m1 : HMap}
      {ents' : List Entrant} {es : List Entry},
      seedEntrants m s ents = .ok (m1, ents', es) →
      ents.countP (fun e => e.competitor_id == some cid) ≤ 1 →
      ents'.filter (fun e => e.competitor_id == some cid)
          = (ents.filter (fun e => e.competitor_id == some cid)).map
              (fun e => { e with initial_handicap := some (seedVal m cid e) })
        ∧ (ents.countP (fun e => e.competitor_id == some cid) = 0 →
            m1 cid = m cid) := by
  intro ents
  induction ents with
  | nil =>
    intro m s m1 ents' es h _
    obtain ⟨rfl, rfl, rfl⟩ : m1 = m ∧ ents' = [] ∧ es = [] := by
      simpa [seedEntrants, Prod.ext_iff, eq_comm] using h
    exact ⟨rfl, fun _ => rfl⟩
  | cons ent rest ih =>
    intro m s m1 ents' es h hle
    rcases hc : ent.competitor_id with _ | c
    · rcases seedEntrants_skip_inv (Or.inl hc) h with ⟨rs', hr, rfl⟩
      have hfa : ¬((ent.competitor_id == some cid) = true) := by simp [hc]
      rw [List.countP_cons_of_neg (fun e : Entrant => e.competitor_id == some cid) _ hfa] at hle
      rcases ih hr hle with ⟨hfil, habs⟩
      constructor
      · rw [List.filter_cons_of_neg (by simpa using hfa),
          List.filter_cons_of_neg (by simpa using hfa), hfil]
      · intro h0
        rw [List.countP_cons_of_neg (fun e : Entrant => e.competitor_id == some cid) _ hfa] at h0
        exact habs h0
    · by_cases h0 : c = 0
      · subst h0
        rcases seedEntrants_skip_inv (Or.inr hc) h with ⟨rs', hr, rfl⟩
        have hfa : ¬((ent.competitor_id == some cid) = true) := by
          simp [hc, Ne.symm hcid]
        rw [List.countP_cons_of_neg (fun e : Entrant => e.competitor_id == some cid) _ hfa] at hle
        rcases ih hr hle with ⟨hfil, habs⟩
        constructor
        · rw [List.filter_cons_of_neg (by simpa using hfa),
            List.filter_cons_of_neg (by simpa using hfa), hfil]
        · intro hz
          rw [List.countP_cons_of_neg (fun e : Entrant => e.competitor_id == some cid) _ hfa] at hz
          exact habs hz
      · rcases seedEntrants_pos_inv hc h0 h with ⟨fin, rs', es', hp, hr, rfl, rfl⟩
        by_cases hcc : c = cid
        · subst hcc
          have hta : ((ent.competitor_id == some c) = true) := by simp [hc]
          rw [List.countP_cons_of_pos (fun e : Entrant => e.competitor_id == some c) _ hta] at hle
          have hrest0 : rest.countP (fun e => e.competitor_id == some c) = 0 := by
            omega
          have hrest_nil :
              rest.filter (fun e => e.competitor_id == some c) = [] :=
            List.filter_eq_nil.mpr (by
              intro e he hpe
              have := List.countP_eq_zero.mp hrest0 e he
              exact this hpe)
          rcases ih hr (by omega) with ⟨hfil, _⟩
          constructor
          · rw [List.filter_cons_of_pos (by simpa using hta),
              List.filter_cons_of_pos (by simpa using hta), hfil, hrest_nil]
            simp
          · intro hz
            rw [List.countP_cons_of_pos (fun e : Entrant => e.competitor_id == some c) _ hta] at hz
            omega
        · have hfalse : (ent.competitor_id == some cid) = false := by
            simp [hc, hcc]
          have hfa : ¬((ent.competitor_id == some cid) = true) := by
            simp [hfalse]
          rw [List.countP_cons_of_neg
            (fun e : Entrant => e.competitor_id == some cid) _ hfa] at hle
          have hmap : (match ent.handicap_override with
              | some ov => hmSet m c ov
              | none => m) cid = m cid := by
            rcases hov : ent.handicap_override with _ | ov
            · rfl
            · simp only [hmSet]
              rw [if_neg (fun hcs => hcc hcs.symm)]
          rcases ih hr hle with ⟨hfil, habs⟩
          constructor
          · rw [List.filter_cons_of_neg (by simp [hfalse]),
              List.filter_cons_of_neg (by simp [hc, hcc]), hfil]
            refine List.map_congr_left ?_
            intro e _
            have : seedVal (match ent.handicap_override with
                | some ov => hmSet m c ov
                | none => m) cid e = seedVal m cid e := by
              unfold seedVal
              rcases e.handicap_override with _ | ov2
              · rw [hmap]
              · rfl
            rw [this]
          · intro hz
            rw [List.countP_cons_of_neg
              (fun e : Entrant => e.competitor_id == some cid) _ hfa] at hz
            rw [habs hz, hmap]

/-- The entry rows the seeding loop emits are exactly the rows read back
from the reseeded entrant list. -/
theorem seedEntrants_entryRows :
    ∀ {ents : List Entrant} {m : HMap} {s : ℤ} {m1 : HMap}
      {ents' : List Entrant} {es : List Entry},
      seedEntrants m s ents = .ok (m1, ents', es) →
      entryRows s ents' = .ok es := by
  intro ents
  induction ents with
  | nil =>
    intro m s m1 ents' es h
    obtain ⟨rfl, rfl, rfl⟩ : m1 = m ∧ ents' = [] ∧ es = [] := by
      simpa [seedEntrants, Prod.ext_iff, eq_comm] using h
    rfl
  | cons ent rest ih =>
    intro m s m1 ents' es h
    rcases hc : ent.competitor_id with _ | c
    · rcases seedEntrants_skip_inv (Or.inl hc) h with ⟨rs', hr, rfl⟩
      rw [entryRows, ih hr, hc]
    · by_cases h0 : c = 0
      · subst h0
        rcases seedEntrants_skip_inv (Or.inr hc) h with ⟨rs', hr, rfl⟩
        rw [entryRows, ih hr, hc]
        rfl
      · rcases seedEntrants_pos_inv hc h0 h with ⟨fin, rs', es', hp, hr, rfl, rfl⟩
        rw [entryRows, ih hr]
        have hc' : ({ ent with
            initial_handicap := some (seedVal m c ent) } : Entrant).competitor_id
            = some c := hc
        rw [hc']
        simp only [if_neg h0]
        have hft : ({ ent with
            initial_handicap := some (seedVal m c ent) } : Entrant).finish_time
            = ent.finish_time := rfl
        rw [hft, hp]

/-- One chronological step, viewed at a single truthy competitor id that
the race carries at most once: the persisted entrants receive the carried
seed, and the map leaves with the race's revised handicap exactly when the
competitor was entered. -/
theorem stepRace_cid {cfg : ScoringConfig} {cid : Nat} (hcid : cid ≠ 0)
    {m M : HMap} {r R : Race}
    (hstep : stepRace cfg m r = .ok (M, R))
    (hnd : (truthyCids r).Nodup) :
    R.competitors.filter (fun e => e.competitor_id == some cid)
        = (r.competitors.filter (fun e => e.competitor_id == some cid)).map
            (fun e => { e with initial_handicap := some (seedVal m cid e) })
      ∧ (r.competitors.countP (fun e => e.competitor_id == some cid) = 0 →
          M cid = m cid)
      ∧ (r.competitors.countP (fun e => e.competitor_id == some cid) = 1 →
          M cid = revisedOf cfg R cid ∧ (revisedOf cfg R cid).isSome = true) := by
  have hle : r.competitors.countP (fun e => e.competitor_id == some cid) ≤ 1 := by
    rw [← count_truthyCids hcid r]
    exact List.nodup_iff_count_le_one.mp hnd cid
  unfold stepRace at hstep
  rcases hps : parse_hms r.start_time with u | st0
  · rw [hps] at hstep
    exact absurd hstep (by simp)
  · rw [hps] at hstep
    rcases hseed : seedEntrants m (st0.getD 0) r.competitors
      with u | ⟨m1, ents', es⟩
    · simp only [hseed] at hstep
      exact absurd hstep (by simp)
    · simp only [hseed] at hstep
      rcases seedEntrants_key hcid hseed hle with ⟨hfil, habs⟩
      have hcnt := seedEntrants_count hcid hseed
      by_cases hes : es.isEmpty
      · rw [if_pos hes] at hstep
        rw [Except.ok.injEq, Prod.mk.injEq] at hstep
        obtain ⟨hM, hR⟩ := hstep
        have hes' : es = [] := List.isEmpty_iff.mp hes
        rw [hes'] at hcnt
        refine ⟨?_, ?_, ?_⟩
        · rw [← hR]
          exact hfil
        · intro h0
          rw [← hM]
          exact habs h0
        · intro h1
          rw [h1] at hcnt
          simp at hcnt
      · rw [if_neg hes] at hstep
        rcases hcalc : calculate_race_results cfg es with u | results
        · simp only [hcalc] at hstep
          exact absurd hstep (by simp)
        · simp only [hcalc] at hstep
          rw [Except.ok.injEq, Prod.mk.injEq] at hstep
          obtain ⟨hM, hR⟩ := hstep
          rcases calculate_ok hcalc with ⟨fs, ns, hsp, hres⟩
          have hP1 := @countP_res_cid_init cfg es fs ns hsp (fun c _ => c == cid)
          rw [← hres] at hP1
          refine ⟨?_, ?_, ?_⟩
          · rw [← hR]
            exact hfil
          · intro h0
            have hz : results.countP (fun q => q.competitor_id == cid) = 0 := by
              rw [hP1, hcnt, h0]
            rw [← hM, applyRevised_absent m1 hz]
            exact habs h0
          · intro h1
            have hres_cnt : results.countP
                (fun q => q.competitor_id == cid) = 1 := by
              rw [hP1, hcnt, h1]
            have hP2 := @countP_res_cid_init cfg es fs ns hsp
              (fun c ih => c == cid && ih.isSome)
            rw [← hres] at hP2
            have hes_eq : es.countP (fun en =>
                en.competitor_id == cid && en.initial_handicap.isSome)
                = es.countP (fun en => en.competitor_id == cid) := by
              refine List.countP_congr ?_
              intro en hen
              rw [seedEntrants_init_some hseed en hen, Bool.and_true]
            have hinit_cnt : results.countP (fun q =>
                q.competitor_id == cid && q.initial_handicap.isSome) = 1 := by
              rw [hP2, hes_eq, hcnt, h1]
            have hnone : results.countP (fun q =>
                q.competitor_id == cid && !q.initial_handicap.isSome) = 0 := by
              have hsplit2 := countP_split results
                (fun q => q.competitor_id == cid)
                (fun q => q.initial_handicap.isSome)
              rw [hres_cnt, hinit_cnt] at hsplit2
              omega
            have hsome : ∀ q ∈ results, q.competitor_id = cid →
                q.revised_handicap.isSome = true := by
              intro q hq hqc
              have hinit : q.initial_handicap.isSome = true := by
                by_contra hni
                have hz := List.countP_eq_zero.mp hnone q hq
                simp only [Bool.not_eq_true] at hni
                simp [hqc, hni] at hz
              have := res_revised_isSome hsp (hres ▸ hq)
              rw [this, hinit]
            have happ := applyRevised_unique hcid m1 hres_cnt hsome
            have hentries : entriesOfRace R = .ok es := by
              unfold entriesOfRace
              have hst : R.start_time = r.start_time := by
                rw [← hR]
              rw [hst, hps]
              have hcomp : R.competitors = ents' := by
                rw [← hR]
              rw [hcomp]
              exact seedEntrants_entryRows hseed
            have hrev : revisedOf cfg R cid
                = results.findSome? (fun q =>
                    if q.competitor_id = cid then q.revised_handicap
                    else none) := by
              unfold revisedOf
              simp only [hentries, hcalc]
            constructor
            · rw [← hM, happ, hrev]
            · rw [hrev]
              have hpos : 0 < results.countP
                  (fun q => q.competitor_id == cid) := by
                rw [hres_cnt]
                exact Nat.one_pos
              rcases List.countP_pos.mp hpos with ⟨q, hq, hpq⟩
              have hqc : q.competitor_id = cid := by simpa using hpq
              refine findSome?_isSome_of _ hq ?_
              rw [if_pos hqc]
              exact hsome q hq hqc

/-- The chronological loop, viewed at one truthy competitor id carried at
most once per race: every occurrence's persisted seed is its override, the
incoming carried value for the first occurrence, or the previous
occurrence's revised handicap; the outgoing map holds the final revised
handicap. -/
theorem procRaces_cid {cfg : ScoringConfig} {cid : Nat} (hcid : cid ≠ 0) :
    ∀ {rs : List Race} {m M : HMap} {rs' : List Race},
      procRaces cfg m rs = .ok (M, rs') →
      (∀ r ∈ rs, (truthyCids r).Nodup) →
      (∀ p ∈ occurrencesOf cid rs', (revisedOf cfg p.1 cid).isSome = true)
      ∧ (∀ j, j < (occurrencesOf cid rs').length →
          ((occurrencesOf cid rs').getD j default).2.initial_handicap =
            match ((occurrencesOf cid rs').getD j
                default).2.handicap_override, j with
            | some ov, _ => some ov
            | none, 0 => some ((m cid).getD 0)
            | none, Nat.succ j' =>
                revisedOf cfg ((occurrencesOf cid rs').getD j' default).1 cid)
      ∧ (M cid = match (occurrencesOf cid rs').getLast? with
          | none => m cid
          | some p => revisedOf cfg p.1 cid) := by
  intro rs
  induction rs with
  | nil =>
    intro m M rs' h hnd
    obtain ⟨rfl, rfl⟩ : M = m ∧ rs' = [] := by
      simpa [procRaces, Prod.ext_iff, eq_comm] using h
    refine ⟨by simp [occurrencesOf], ?_, by simp [occurrencesOf]⟩
    intro j hj
    simp [occurrencesOf] at hj
  | cons r rest ih =>
    intro m M rs' h hnd
    rcases hstep : stepRace cfg m r with u | ⟨m1, r1⟩
    · rw [procRaces] at h
      simp only [hstep] at h
      exact absurd h (by simp)
    · rw [procRaces] at h
      simp only [hstep] at h
      rcases hrec : procRaces cfg m1 rest with u | ⟨M', rest'⟩
      · simp only [hrec] at h
        exact absurd h (by simp)
      · simp only [hrec] at h
        rw [Except.ok.injEq, Prod.mk.injEq] at h
        obtain ⟨rfl, rfl⟩ := h
        have hndr : (truthyCids r).Nodup := hnd r (List.mem_cons_self r rest)
        have hndrest : ∀ r' ∈ rest, (truthyCids r').Nodup :=
          fun r' hr' => hnd r' (List.mem_cons_of_mem r hr')
        rcases stepRace_cid hcid hstep hndr with ⟨hfil, habs0, hab1⟩
        rcases ih hrec hndrest with ⟨ih1, ih2, ih3⟩
        have hle : r.competitors.countP
            (fun e => e.competitor_id == some cid) ≤ 1 := by
          rw [← count_truthyCids hcid r]
          exact List.nodup_iff_count_le_one.mp hndr cid
        have hocc : occurrencesOf cid (r1 :: rest')
            = (r1.competitors.filter
                (fun e => e.competitor_id == some cid)).map (fun e => (r1, e))
              ++ occurrencesOf cid rest' := by
          simp [occurrencesOf]
        rcases Nat.le_one_iff_eq_zero_or_eq_one.mp hle with h0 | h1
        · have hfr : r.competitors.filter
              (fun e => e.competitor_id == some cid) = [] := by
            rw [← List.length_eq_zero, ← List.countP_eq_length_filter]
            exact h0
          have hocc0 : occurrencesOf cid (r1 :: rest')
              = occurrencesOf cid rest' := by
            rw [hocc, hfil, hfr]
            simp
          have hm1 : m1 cid = m cid := habs0 h0
          refine ⟨?_, ?_, ?_⟩
          · intro p hp
            rw [hocc0] at hp
            exact ih1 p hp
          · intro j hj
            rw [hocc0] at hj ⊢
            rw [ih2 j hj, hm1]
          · rw [hocc0, ih3, hm1]
        · have hfr : ∃ e, r.competitors.filter
              (fun e => e.competitor_id == some cid) = [e] := by
            rw [← List.length_eq_one, ← List.countP_eq_length_filter]
            exact h1
          rcases hfr with ⟨e, hfr⟩
          obtain ⟨e', he'⟩ : ∃ x : Entrant, { e with initial_handicap := some (seedVal m cid e) } = x := ⟨_, rfl⟩
          have hov_pres : e'.handicap_override = e.handicap_override := by
            rw [← he']
          have hinit' : e'.initial_handicap = some (seedVal m cid e) := by
            rw [← he']
          have hfil1 : r1.competitors.filter
              (fun e => e.competitor_id == some cid) = [e'] := by
            rw [hfil, hfr, ← he']
            rfl
          have hocc1 : occurrencesOf cid (r1 :: rest')
              = (r1, e') :: occurrencesOf cid rest' := by
            rw [hocc, hfil1]
            rfl
          rcases hab1 h1 with ⟨hm1, hsome1⟩
          rcases Option.isSome_iff_exists.mp hsome1 with ⟨w, hw⟩
          refine ⟨?_, ?_, ?_⟩
          · intro p hp
            rw [hocc1] at hp
            rcases List.mem_cons.mp hp with rfl | hp'
            · exact hsome1
            · exact ih1 p hp'
          · intro j hj
            rw [hocc1] at hj ⊢
            cases j with
            | zero =>
              have hgd : (((r1, e') :: occurrencesOf cid rest').getD 0
                  default) = (r1, e') := rfl
              rw [hgd, hinit', hov_pres]
              rcases hov : e.handicap_override with _ | ov
              · simp [seedVal, hov]
              · simp [seedVal, hov]
            | succ j' =>
              have hj' : j' < (occurrencesOf cid rest').length := by
                simpa using Nat.lt_of_succ_lt_succ hj
              have hgd : ∀ k, (((r1, e') :: occurrencesOf cid rest').getD
                  (k + 1) default) = (occurrencesOf cid rest').getD k
                    default := by
                intro k
                simp [List.getD]
              rw [hgd j', ih2 j' hj']
              rcases hov2 : ((occurrencesOf cid rest').getD j'
                  default).2.handicap_override with _ | ov2
              · cases j' with
                | zero =>
                  show some ((m1 cid).getD 0) = revisedOf cfg r1 cid
                  rw [hm1, hw]
                  rfl
                | succ k =>
                  show revisedOf cfg
                      ((occurrencesOf cid rest').getD k default).1 cid
                    = revisedOf cfg (((r1, e') :: occurrencesOf
                        cid rest').getD (k + 1) default).1 cid
                  rw [hgd k]
              · rfl
          · rw [hocc1]
            rcases hrest' : occurrencesOf cid rest' with _ | ⟨q, qs⟩
            · rw [hrest'] at ih3
              simp only [List.getLast?_nil] at ih3
              rw [ih3, hm1]
              rfl
            · rw [hrest'] at ih3
              rw [List.getLast?_cons_cons]
              rcases hlast : (q :: qs).getLast? with _ | p
              · exact absurd hlast (by simp)
              · rw [hlast] at ih3
                exact ih3

/-- Every chronological position is an index into the stored race list. -/
theorem sortedIdx_lt {d : RaceData} : ∀ i ∈ sortedIdx d, i < d.races.length := by
  intro i hi
  unfold sortedIdx at hi
  by_cases ho : d.order.isEmpty
  · rw [if_pos ho] at hi
    exact List.mem_range.mp ((pySortK_perm _ _).mem_iff.mp hi)
  · rw [if_neg ho] at hi
    exact List.mem_range.mp ((pySortK_perm _ _).mem_iff.mp hi)

/-- The index-walking driver loop is the structural chronological loop on
the arranged race list, reading the processed races back off the final
list. -/
theorem driverLoop_procRaces {cfg : ScoringConfig} :
    ∀ {idxs : List Nat} {races R : List Race} {m M : HMap},
      idxs.Nodup → (∀ i ∈ idxs, i < races.length) →
      driverLoop cfg idxs races m = .ok (R, M) →
      procRaces cfg m (idxs.map (fun i => races.getD i default))
        = .ok (M, idxs.map (fun i => R.getD i default)) := by
  intro idxs
  induction idxs with
  | nil =>
    intro races R m M _ _ h
    obtain ⟨rfl, rfl⟩ : races = R ∧ m = M := by
      simpa [driverLoop, Prod.ext_iff] using h
    rfl
  | cons i rest ih =>
    intro races R m M hnd hlt h
    have hi : i < races.length := hlt i (List.mem_cons_self i rest)
    rcases hg : races.get? i with _ | race
    · exact absurd hg (by
        rw [List.get?_eq_none]
        omega)
    · rw [driverLoop] at h
      simp only [hg] at h
      rcases hstep : stepRace cfg m race with u | ⟨m1, race1⟩
      · simp only [hstep] at h
        exact absurd h (by simp)
      · simp only [hstep] at h
        have hinr : ∀ j ∈ rest, j < (races.set i race1).length := by
          intro j hj
          rw [List.length_set]
          exact hlt j (List.mem_cons_of_mem i hj)
        have hih := ih (List.Nodup.of_cons hnd) hinr h
        have hnotmem : i ∉ rest := (List.nodup_cons.mp hnd).1
        have hmap_eq : rest.map (fun j => (races.set i race1).getD j default)
            = rest.map (fun j => races.getD j default) := by
          refine List.map_congr_left ?_
          intro j hj
          have hne : i ≠ j := fun hc => hnotmem (hc ▸ hj)
          unfold List.getD
          rw [List.get?_set_ne _ _ hne]
        rw [hmap_eq] at hih
        have hRi : R.get? i = some race1 := by
          rw [driverLoop_preserves h i hnotmem, List.get?_set_eq]
          simp [hg]
          exact ⟨race, by simpa using hg⟩
        have hgd_races : races.getD i default = race := by
          unfold List.getD
          rw [hg]
          rfl
        have hgd_R : R.getD i default = race1 := by
          unfold List.getD
          rw [hRi]
          rfl
        rw [List.map_cons, List.map_cons, hgd_races, hgd_R, procRaces]
        simp only [hstep, hih]

end DriverLemmas

section FromLemmas

/-- Reading a list back through its index range is the identity. -/
theorem map_range_getD {α : Type} (l : List α) (d : α) :
    (List.range l.length).map (fun i => l.getD i d) = l := by
  apply List.ext_get
  · simp
  · intro i h1 h2
    simp [List.getD_eq_get?, List.getElem?_eq_getElem h2]

/-- Walking an enumeration of a duplicate-free list without empty ids for
the element at a position finds exactly that (offset) position. -/
theorem enumFrom_filter_last {l : List String} (hnd : l.Nodup)
    (hne : "" ∉ l) :
    ∀ {i : ℕ} (n : ℕ), i < l.length →
      (((List.enumFrom n l).filter
          (fun p => p.2 == l.getD i "" && p.2 != "")).map
        Prod.fst).getLast? = some (n + i) := by
  induction l with
  | nil => intro i n hi; simp at hi
  | cons a l ih =>
    intro i n hi
    have hanl : a ∉ l := (List.nodup_cons.mp hnd).1
    have hndl : l.Nodup := (List.nodup_cons.mp hnd).2
    have hnel : "" ∉ l := fun hc => hne (List.mem_cons_of_mem a hc)
    have hane : a ≠ "" := fun hc => hne (hc ▸ List.mem_cons_self a l)
    have henum : List.enumFrom n (a :: l)
        = (n, a) :: List.enumFrom (n + 1) l := rfl
    cases i with
    | zero =>
      have hgd : (a :: l).getD 0 "" = a := rfl
      rw [henum, hgd, List.filter_cons]
      have hpa : (((n, a) : ℕ × String).2 == a
          && ((n, a) : ℕ × String).2 != "") = true := by
        simp [hane]
      rw [if_pos hpa]
      have hfl : (List.enumFrom (n + 1) l).filter
          (fun p => p.2 == a && p.2 != "") = [] := by
        rw [List.filter_eq_nil]
        intro p hp
        have hp2 : p.2 ∈ l := by
          have := List.mem_map_of_mem Prod.snd hp
          rwa [List.enumFrom_map_snd] at this
        simp only [Bool.not_eq_true, Bool.and_eq_false_iff]
        left
        simp only [beq_eq_false_iff_ne, ne_eq]
        intro hc
        exact hanl (hc ▸ hp2)
      rw [hfl]
      simp
    | succ j =>
      have hj : j < l.length := Nat.lt_of_succ_lt_succ hi
      have hgd : (a :: l).getD (j + 1) "" = l.getD j "" := by
        simp [List.getD]
      have hmem : l.getD j "" ∈ l := by
        unfold List.getD
        rcases hg : l.get? j with _ | x
        · exact absurd hg (by
            rw [List.get?_eq_none]
            omega)
        · simpa using List.get?_mem hg
      rw [henum, hgd, List.filter_cons]
      have hpa : (((n, a) : ℕ × String).2 == l.getD j ""
          && ((n, a) : ℕ × String).2 != "") = false := by
        simp only [Bool.and_eq_false_iff]
        left
        simp only [beq_eq_false_iff_ne, ne_eq]
        intro hc
        exact hanl (hc ▸ hmem)
      rw [if_neg (by
        rw [hpa]
        simp)]
      have := ih hndl hnel (n + 1) hj
      rw [this]
      congr 1
      omega

/-- In a duplicate-free id list without empty ids, each id's last
enumeration index is its position. -/
theorem orderIndex_self {ids : List String} (hnd : ids.Nodup)
    (hne : "" ∉ ids) {i : ℕ} (hi : i < ids.length) :
    orderIndex ids (ids.getD i "") = some i := by
  unfold orderIndex
  have := enumFrom_filter_last hnd hne 0 hi
  simpa using this

/-- A list already strictly sorted by its key is a fixed point of the
stable sort. -/
theorem pySortK_fix {α κ : Type} [LinearOrder κ] (k : α → κ) :
    ∀ {l : List α}, l.Pairwise (fun a b => k a < k b) → pySortK k l = l := by
  intro l
  induction l with
  | nil => intro _; rfl
  | cons a as ih =>
    intro hp
    have has := (List.pairwise_cons.mp hp).1
    have hrest := (List.pairwise_cons.mp hp).2
    rw [pySortK, ih hrest]
    cases as with
    | nil => rfl
    | cons b bs =>
      rw [pyInsert, if_pos (has b (List.mem_cons_self b bs))]

/-- With an authoritative order that lists exactly the stored races (no
duplicates, no empty ids), the chronological arrangement is the stored
order itself. -/
theorem sortedIdx_range {d : RaceData}
    (horder : d.order = d.races.map Race.race_id)
    (hnd : (d.races.map Race.race_id).Nodup)
    (hne : "" ∉ d.races.map Race.race_id) :
    sortedIdx d = List.range d.races.length := by
  rcases hraces : d.races with _ | ⟨r0, rrest⟩
  · unfold sortedIdx
    rw [hraces]
    by_cases ho : d.order.isEmpty
    · rw [if_pos ho]
      rfl
    · rw [if_neg ho]
      rfl
  · rw [← hraces]
    have hordne : d.order.isEmpty = false := by
      rw [horder, hraces]
      rfl
    unfold sortedIdx
    rw [hordne]
    simp only [Bool.false_eq_true, if_false]
    refine pySortK_fix _ ?_
    have hkey : ∀ i < d.races.length,
        (d.races.map (raceKeyOrder d.order)).getD i 0 = i := by
      intro i hi
      have hgd : (d.races.map (raceKeyOrder d.order)).getD i 0
          = raceKeyOrder d.order (d.races.getD i default) := by
        unfold List.getD
        rw [List.get?_map]
        rcases hg : d.races.get? i with _ | x
        · exact absurd hg (by
            rw [List.get?_eq_none]
            omega)
        · rfl
      rw [hgd]
      unfold raceKeyOrder
      have hrid : (d.races.getD i default).race_id
          = (d.races.map Race.race_id).getD i "" := by
        unfold List.getD
        rw [List.get?_map]
        rcases hg : d.races.get? i with _ | x
        · exact absurd hg (by
            rw [List.get?_eq_none]
            omega)
        · rfl
      rw [hrid, horder,
        orderIndex_self hnd hne (by simpa using hi)]
      rfl
    have hp := List.pairwise_lt_range d.races.length
    refine hp.imp_of_mem ?_
    intro a b ha hb hab
    rw [hkey a (List.mem_range.mp ha), hkey b (List.mem_range.mp hb)]
    exact hab

/-- Reading a mapped list at an in-range position. -/
theorem getD_map_lt {α β : Type} (f : α → β) {l : List α} {i : ℕ}
    (hi : i < l.length) (d : α) (d' : β) :
    (l.map f).getD i d' = f (l.getD i d) := by
  unfold List.getD
  rw [List.get?_map]
  rcases hg : l.get? i with _ | x
  · exact absurd hg (by
      rw [List.get?_eq_none]
      omega)
  · rfl

/-- The chronological loop emits one processed race per input race. -/
theorem procRaces_length {cfg : ScoringConfig} :
    ∀ {rs : List Race} {m M : HMap} {rs' : List Race},
      procRaces cfg m rs = .ok (M, rs') → rs'.length = rs.length := by
  intro rs
  induction rs with
  | nil =>
    intro m M rs' h
    obtain ⟨rfl, rfl⟩ : M = m ∧ rs' = [] := by
      simpa [procRaces, Prod.ext_iff, eq_comm] using h
    rfl
  | cons r rest ih =>
    intro m M rs' h
    rw [procRaces] at h
    rcases hstep : stepRace cfg m r with u | ⟨m1, r1⟩ <;>
      simp only [hstep] at h
    · exact absurd h (by simp)
    · rcases hrec : procRaces cfg m1 rest with u | ⟨M', rest'⟩ <;>
        simp only [hrec] at h
      · exact absurd h (by simp)
      · obtain ⟨rfl, rfl⟩ : M' = M ∧ r1 :: rest' = rs' := by
          simpa [Prod.ext_iff] using h
        simp [ih hrec]

/-- Splitting the chronological loop at any point. -/
theorem procRaces_append_split {cfg : ScoringConfig} :
    ∀ {xs ys : List Race} {m M : HMap} {zs : List Race},
      procRaces cfg m (xs ++ ys) = .ok (M, zs) →
      ∃ m1 xs' ys', procRaces cfg m xs = .ok (m1, xs')
        ∧ procRaces cfg m1 ys = .ok (M, ys')
        ∧ zs = xs' ++ ys' ∧ xs'.length = xs.length := by
  intro xs
  induction xs with
  | nil =>
    intro ys m M zs h
    exact ⟨m, [], zs, rfl, h, rfl, rfl⟩
  | cons r rest ih =>
    intro ys m M zs h
    rw [List.cons_append, procRaces] at h
    rcases hstep : stepRace cfg m r with u | ⟨m1, r1⟩ <;>
      simp only [hstep] at h
    · exact absurd h (by simp)
    · rcases hrec : procRaces cfg m1 (rest ++ ys) with u | ⟨M', rest'⟩ <;>
        simp only [hrec] at h
      · exact absurd h (by simp)
      · obtain ⟨rfl, rfl⟩ : M' = M ∧ r1 :: rest' = zs := by
          simpa [Prod.ext_iff] using h
        rcases ih hrec with ⟨m2, xs', ys', hx, hy, rfl, hlen⟩
        refine ⟨m2, r1 :: xs', ys', ?_, hy, rfl, by simp [hlen]⟩
        rw [procRaces]
        simp only [hstep, hx]

/-- `list.index(x)` with an accumulator: the first index of an element of
a duplicate-free list is its position. -/
theorem findIdx_getD_nodup_aux {l : List String} (hnd : l.Nodup) :
    ∀ {i : ℕ} (n : ℕ), i < l.length →
      l.findIdx? (fun x => x == l.getD i "") n = some (n + i) := by
  induction l with
  | nil => intro i n hi; simp at hi
  | cons a rest ih =>
    intro i n hi
    have hanl : a ∉ rest := (List.nodup_cons.mp hnd).1
    have hndr : rest.Nodup := (List.nodup_cons.mp hnd).2
    cases i with
    | zero =>
      rw [List.findIdx?_cons]
      have hpa : (a == (a :: rest).getD 0 "") = true := by simp
      rw [hpa]
      simp
    | succ j =>
      have hj : j < rest.length := Nat.lt_of_succ_lt_succ hi
      have hmem : rest.getD j "" ∈ rest := by
        unfold List.getD
        rcases hg : rest.get? j with _ | x
        · exact absurd hg (by
            rw [List.get?_eq_none]
            omega)
        · simpa using List.get?_mem hg
      have hgd : (a :: rest).getD (j + 1) "" = rest.getD j "" := by
        simp [List.getD]
      rw [hgd, List.findIdx?_cons]
      have hna : (a == rest.getD j "") = false := by
        simp only [beq_eq_false_iff_ne, ne_eq]
        intro hc
        exact hanl (hc ▸ hmem)
      rw [hna]
      simp only [Bool.false_eq_true, if_false]
      rw [ih hndr (n + 1) hj]
      congr 1
      omega

/-- `list.index(x)`: the first index of an element of a duplicate-free
list is its position. -/
theorem findIdx_getD_nodup {l : List String} (hnd : l.Nodup) {i : ℕ}
    (hi : i < l.length) :
    l.findIdx? (fun x => x == l.getD i "") = some i := by
  simpa using findIdx_getD_nodup_aux hnd 0 hi

/-- The forward revised-map fold never erases a key. -/
theorem applyRevisedFrom_isSome {cid : Nat} :
    ∀ {res : List Result} {rl : HMap},
      (rl cid).isSome = true → ((applyRevisedFrom rl res) cid).isSome = true := by
  intro res
  induction res with
  | nil => intro rl h; exact h
  | cons q rest ih =>
    intro rl h
    rw [applyRevisedFrom]
    rcases hrv : q.revised_handicap with _ | rv
    · exact ih h
    · refine ih ?_
      unfold hmSet
      by_cases hc : cid = q.competitor_id
      · rw [if_pos hc]
        rfl
      · rw [if_neg hc]
        exact h

/-- The forward revised-map fold leaves an absent key untouched. -/
theorem applyRevisedFrom_absent {cid : Nat} :
    ∀ {res : List Result} {rl : HMap},
      res.countP (fun r => r.competitor_id == cid) = 0 →
      (∀ q ∈ res, q.revised_handicap.isSome = true) →
      (applyRevisedFrom rl res) cid = rl cid := by
  intro res
  induction res with
  | nil => intro rl _ _; rfl
  | cons q rest ih =>
    intro rl hc hs
    rw [applyRevisedFrom]
    have hq : (q.competitor_id == cid) = false := by
      by_contra hb
      simp only [Bool.not_eq_false] at hb
      rw [List.countP_cons_of_pos (fun r : Result => r.competitor_id == cid)
        _ hb] at hc
      simp at hc
    have hrest : rest.countP (fun r => r.competitor_id == cid) = 0 := by
      rw [List.countP_cons_of_neg (fun r : Result => r.competitor_id == cid)
        _ (by simp [hq])] at hc
      exact hc
    have hs' : ∀ q' ∈ rest, q'.revised_handicap.isSome = true :=
      fun q' hq' => hs q' (List.mem_cons_of_mem q hq')
    rcases hrv : q.revised_handicap with _ | rv
    · exact ih hrest hs'
    · show applyRevisedFrom (hmSet rl q.competitor_id rv) rest cid = rl cid
      rw [ih hrest hs']
      unfold hmSet
      rw [if_neg (fun hcc => by
        rw [hcc] at hq
        simp at hq)]

/-- With exactly one row for the key, the forward fold reads that row's
revised handicap back. -/
theorem applyRevisedFrom_unique {cid : Nat} :
    ∀ {res : List Result} {rl : HMap},
      res.countP (fun r => r.competitor_id == cid) = 1 →
      (∀ q ∈ res, q.revised_handicap.isSome = true) →
      (applyRevisedFrom rl res) cid
        = res.findSome? (fun r =>
            if r.competitor_id = cid then r.revised_handicap else none) := by
  intro res
  induction res with
  | nil => intro rl hc _; simp at hc
  | cons q rest ih =>
    intro rl hc hs
    have hs' : ∀ q' ∈ rest, q'.revised_handicap.isSome = true :=
      fun q' hq' => hs q' (List.mem_cons_of_mem q hq')
    rcases Option.isSome_iff_exists.mp
      (hs q (List.mem_cons_self q rest)) with ⟨rv, hrv⟩
    by_cases hq : q.competitor_id = cid
    · have hqb : (q.competitor_id == cid) = true := by simpa using hq
      rw [List.countP_cons_of_pos (fun r : Result => r.competitor_id == cid)
        _ hqb] at hc
      have hrest : rest.countP (fun r => r.competitor_id == cid) = 0 := by
        omega
      rw [List.findSome?_cons]
      simp only [if_pos hq, hrv]
      rw [show applyRevisedFrom rl (q :: rest)
          = applyRevisedFrom (hmSet rl q.competitor_id rv) rest from by
        simp [applyRevisedFrom, hrv]]
      rw [applyRevisedFrom_absent hrest hs']
      unfold hmSet
      rw [if_pos hq.symm]
    · have hqb : (q.competitor_id == cid) = false := by simpa using hq
      rw [List.countP_cons_of_neg (fun r : Result => r.competitor_id == cid)
        _ (by simp [hqb])] at hc
      rw [List.findSome?_cons]
      simp only [if_neg hq]
      rw [show applyRevisedFrom rl (q :: rest)
          = applyRevisedFrom (hmSet rl q.competitor_id rv) rest from by
        simp [applyRevisedFrom, hrv]]
      rw [ih hc hs']

/-- Re-writing an entrant's initial handicap with its current value is the
identity. -/
theorem entrant_set_initial_self {e : Entrant} {v : Option ℤ}
    (h : e.initial_handicap = v) :
    { e with initial_handicap := v } = e := by
  cases e
  cases h
  rfl

/-- When every entrant is keyed consistently — no zero ids, overridden
rows persisted with their override, at most one row per id, the forward
map agreeing with the carried map, and first-seeds persisted as the
carried values — the forward pass seeds a race exactly as the full driver
does. -/
theorem seedFrom_agrees :
    ∀ {ents : List Entrant} {m rl : HMap} {s : ℤ} {m1 : HMap}
      {ents' : List Entrant} {es : List Entry},
      seedEntrants m s ents = .ok (m1, ents', es) →
      (∀ e ∈ ents, ¬e.competitor_id = some 0) →
      (∀ e ∈ ents, ∀ ov : ℤ, e.handicap_override = some ov →
        e.initial_handicap = some ov) →
      (∀ c : Nat, c ≠ 0 →
        ents.countP (fun e => e.competitor_id == some c) ≤ 1) →
      (∀ e ∈ ents, ∀ c : Nat, e.competitor_id = some c →
        ∀ v, rl c = some v → m c = some v) →
      (∀ e ∈ ents, ∀ c : Nat, e.competitor_id = some c →
        e.handicap_override = none → rl c = none →
        e.initial_handicap = some ((m c).getD 0)) →
      seedEntrantsFrom rl s ents = (ents', es) := by
  intro ents
  induction ents with
  | nil =>
    intro m rl s m1 ents' es h _ _ _ _ _
    obtain ⟨rfl, rfl, rfl⟩ : m1 = m ∧ ents' = [] ∧ es = [] := by
      simpa [seedEntrants, Prod.ext_iff, eq_comm] using h
    rfl
  | cons ent rest ihind =>
    intro m rl s m1 ents' es h hno0 hovp hcnt hag hsd
    have hno0' : ∀ e ∈ rest, ¬e.competitor_id = some 0 :=
      fun e he => hno0 e (List.mem_cons_of_mem ent he)
    have hovp' : ∀ e ∈ rest, ∀ ov : ℤ, e.handicap_override = some ov →
        e.initial_handicap = some ov :=
      fun e he => hovp e (List.mem_cons_of_mem ent he)
    have hcnt' : ∀ c : Nat, c ≠ 0 →
        rest.countP (fun e => e.competitor_id == some c) ≤ 1 := by
      intro c hc0
      refine le_trans ?_ (hcnt c hc0)
      rw [List.countP_cons]
      exact Nat.le_add_right _ _
    rcases hc : ent.competitor_id with _ | c
    · rcases seedEntrants_skip_inv (Or.inl hc) h with ⟨rs', hr, rfl⟩
      have hag' : ∀ e ∈ rest, ∀ c : Nat, e.competitor_id = some c →
          ∀ v, rl c = some v → m c = some v :=
        fun e he => hag e (List.mem_cons_of_mem ent he)
      have hsd' : ∀ e ∈ rest, ∀ c : Nat, e.competitor_id = some c →
          e.handicap_override = none → rl c = none →
          e.initial_handicap = some ((m c).getD 0) :=
        fun e he => hsd e (List.mem_cons_of_mem ent he)
      have ih := ihind hr hno0' hovp' hcnt' hag' hsd'
      simp [seedEntrantsFrom, hc, ih]
    · have hc0 : c ≠ 0 := by
        intro h0
        exact hno0 ent (List.mem_cons_self ent rest) (by rw [hc, h0])
      rcases seedEntrants_pos_inv hc hc0 h with ⟨fin, rs', es', hp, hr, rfl, rfl⟩
      have hcrest : rest.countP (fun e => e.competitor_id == some c) = 0 := by
        have := hcnt c hc0
        rw [List.countP_cons_of_pos (fun e : Entrant =>
          e.competitor_id == some c) _ (by simp [hc])] at this
        omega
      have hnotin : ∀ e ∈ rest, ¬e.competitor_id = some c := by
        intro e he hce
        have := List.countP_eq_zero.mp hcrest e he
        exact this (by simp [hce])
      have hm0 : ∀ c' : Nat, ¬c' = c →
          (match ent.handicap_override with
           | some ov => hmSet m c ov
           | none => m) c' = m c' := by
        intro c' hcc
        rcases hov : ent.handicap_override with _ | ov
        · rfl
        · simp only [hmSet]
          rw [if_neg hcc]
      have hag' : ∀ e ∈ rest, ∀ c' : Nat, e.competitor_id = some c' →
          ∀ v, rl c' = some v →
          (match ent.handicap_override with
           | some ov => hmSet m c ov
           | none => m) c' = some v := by
        intro e he c' hce v hv
        have hcc : ¬c' = c := fun hcc =>
          hnotin e he (by rw [hce, hcc])
        rw [hm0 c' hcc]
        exact hag e (List.mem_cons_of_mem ent he) c' hce v hv
      have hsd' : ∀ e ∈ rest, ∀ c' : Nat, e.competitor_id = some c' →
          e.handicap_override = none → rl c' = none →
          e.initial_handicap = some (((match ent.handicap_override with
            | some ov => hmSet m c ov
            | none => m) c').getD 0) := by
        intro e he c' hce hov hrl
        have hcc : ¬c' = c := fun hcc =>
          hnotin e he (by rw [hce, hcc])
        rw [hm0 c' hcc]
        exact hsd e (List.mem_cons_of_mem ent he) c' hce hov hrl
      have ih := ihind hr hno0' hovp' hcnt' hag' hsd'
      have hinit : (match ent.handicap_override with
          | some ov => some ov
          | none =>
            match rl c with
            | some rv => some rv
            | none => ent.initial_handicap) = some (seedVal m c ent) := by
        rcases hov : ent.handicap_override with _ | ov
        · rcases hrl : rl c with _ | rv
          · have hmc := hsd ent (List.mem_cons_self ent rest) c hc hov hrl
            simp [seedVal, hov, hmc]
          · have hmc := hag ent (List.mem_cons_self ent rest) c hc rv hrl
            simp [seedVal, hov, hmc]
        · simp [seedVal, hov]
      have hfin : (match (if ent.finish_time.truthy then
            parse_hms ent.finish_time else Except.ok none) with
          | .ok f => f
          | .error _ => none) = fin := by
        rw [hp]
      have hini0 := hovp ent (List.mem_cons_self ent rest)
      have hent' : ((match ent.handicap_override, some (seedVal m c ent) with
          | none, some v =>
            { competitor_id := some c, finish_time := ent.finish_time,
              status := ent.status, handicap_override := ent.handicap_override,
              initial_handicap := some v }
          | _, _ => ent) : Entrant)
          = { competitor_id := some c, finish_time := ent.finish_time,
              status := ent.status, handicap_override := ent.handicap_override,
              initial_handicap := some (seedVal m c ent) } := by
        rcases hov : ent.handicap_override with _ | ov
        · rfl
        · have hsv : seedVal m c ent = ov := by simp [seedVal, hov]
          rw [hsv]
          have hini := hini0 ov hov
          obtain ⟨cid0, ft0, st0, ho0, ih0⟩ := ent
          simp only at hc hov hini
          subst hc
          subst hov
          subst hini
          rfl
      show seedEntrantsFrom rl s (ent :: rest) = _
      rw [seedEntrantsFrom]
      simp only [hc]
      rw [hinit, hfin, hent', ih]

/-- Every scored row keeps a present initial handicap when every input
entry had one. -/
theorem res_all_init_isSome {cfg : ScoringConfig} {entries : List Entry}
    {res : List Result} (hcalc : calculate_race_results cfg entries = .ok res)
    (hin : ∀ en ∈ entries, en.initial_handicap.isSome = true) :
    ∀ q ∈ res, q.revised_handicap.isSome = true := by
  rcases calculate_ok hcalc with ⟨fs, ns, hsp, hres⟩
  have hz : entries.countP (fun en => !en.initial_handicap.isSome) = 0 := by
    rw [List.countP_eq_zero]
    intro en hen
    simp [hin en hen]
  have hcount := @countP_res_cid_init cfg entries fs ns hsp
    (fun _ ih => !ih.isSome)
  rw [← hres, hz] at hcount
  intro q hq
  have hq0 := List.countP_eq_zero.mp hcount q hq
  have hinit : q.initial_handicap.isSome = true := by
    by_contra hni
    simp only [Bool.not_eq_true] at hni
    simp [hni] at hq0
  rw [res_revised_isSome hsp (hres ▸ hq), hinit]

/-- One race of the forward pass agrees with the full driver's step when
the carried maps agree on the race's competitors and the first-seed
persistence hypothesis holds. -/
theorem stepFrom_agrees {cfg : ScoringConfig} {m m1 rl : HMap} {r r1 : Race}
    (hstep : stepRace cfg m r = .ok (m1, r1))
    (hnd : (truthyCids r).Nodup)
    (hno0 : ∀ e ∈ r.competitors, ¬e.competitor_id = some 0)
    (hovp : ∀ e ∈ r.competitors, ∀ ov : ℤ, e.handicap_override = some ov →
      e.initial_handicap = some ov)
    (hag : ∀ c : Nat, c ≠ 0 → ∀ v, rl c = some v → m c = some v)
    (hsd : ∀ e ∈ r.competitors, ∀ c : Nat, e.competitor_id = some c →
      e.handicap_override = none → rl c = none →
      e.initial_handicap = some ((m c).getD 0)) :
    ∃ rl1, stepRaceFrom cfg rl r = .ok (rl1, r1)
      ∧ (∀ c : Nat, c ≠ 0 → ∀ v, rl1 c = some v → m1 c = some v)
      ∧ (∀ c : Nat, c ≠ 0 → rl1 c = none →
          rl c = none ∧ m1 c = m c ∧
          r.competitors.countP (fun e => e.competitor_id == some c) = 0) := by
  have hcnt : ∀ c : Nat, c ≠ 0 →
      r.competitors.countP (fun e => e.competitor_id == some c) ≤ 1 := by
    intro c hc0
    rw [← count_truthyCids hc0 r]
    exact List.nodup_iff_count_le_one.mp hnd c
  unfold stepRace at hstep
  rcases hps : parse_hms r.start_time with u | st0
  · rw [hps] at hstep
    exact absurd hstep (by simp)
  · rw [hps] at hstep
    rcases hseed : seedEntrants m (st0.getD 0) r.competitors
      with u | ⟨m1', ents', es⟩
    · simp only [hseed] at hstep
      exact absurd hstep (by simp)
    · simp only [hseed] at hstep
      have hagm : ∀ e ∈ r.competitors, ∀ c : Nat, e.competitor_id = some c →
          ∀ v, rl c = some v → m c = some v := by
        intro e he c hce v hv
        have hc0 : c ≠ 0 := fun h0 => hno0 e he (by rw [hce, h0])
        exact hag c hc0 v hv
      have hfrom := seedFrom_agrees hseed hno0 hovp hcnt hagm hsd
      have habs_all : ∀ c : Nat, c ≠ 0 →
          r.competitors.countP (fun e => e.competitor_id == some c) = 0 →
          m1' c = m c := by
        intro c hc0 h0
        exact (seedEntrants_key hc0 hseed (hcnt c hc0)).2 h0
      have hcnt_es : ∀ c : Nat, c ≠ 0 →
          es.countP (fun en => en.competitor_id == c)
            = r.competitors.countP (fun e => e.competitor_id == some c) :=
        fun c hc0 => seedEntrants_count hc0 hseed
      by_cases hes : es.isEmpty
      · rw [if_pos hes] at hstep
        rw [Except.ok.injEq, Prod.mk.injEq] at hstep
        obtain ⟨hm1, hr1⟩ := hstep
        have hes' : es = [] := List.isEmpty_iff.mp hes
        refine ⟨rl, ?_, ?_, ?_⟩
        · unfold stepRaceFrom
          simp only [hps]
          rw [hfrom]
          simp [hes', hr1]
        · intro c hc0 v hv
          have h0 : r.competitors.countP
              (fun e => e.competitor_id == some c) = 0 := by
            rw [← hcnt_es c hc0, hes']
            rfl
          rw [← hm1, habs_all c hc0 h0]
          exact hag c hc0 v hv
        · intro c hc0 hv
          have h0 : r.competitors.countP
              (fun e => e.competitor_id == some c) = 0 := by
            rw [← hcnt_es c hc0, hes']
            rfl
          exact ⟨hv, by
            rw [← hm1, habs_all c hc0 h0], h0⟩
      · rw [if_neg hes] at hstep
        rcases hcalc : calculate_race_results cfg es with u | results
        · simp only [hcalc] at hstep
          exact absurd hstep (by simp)
        · simp only [hcalc] at hstep
          rw [Except.ok.injEq, Prod.mk.injEq] at hstep
          obtain ⟨hm1, hr1⟩ := hstep
          have hsome : ∀ q ∈ results, q.revised_handicap.isSome = true :=
            res_all_init_isSome hcalc (seedEntrants_init_some hseed)
          have hres_cnt : ∀ c : Nat, c ≠ 0 →
              results.countP (fun q => q.competitor_id == c)
                = r.competitors.countP
                    (fun e => e.competitor_id == some c) := by
            intro c hc0
            rcases calculate_ok hcalc with ⟨fs, ns, hsp, hres⟩
            have := @countP_res_cid_init cfg es fs ns hsp
              (fun c' _ => c' == c)
            rw [← hres] at this
            rw [this, hcnt_es c hc0]
          refine ⟨applyRevisedFrom rl results, ?_, ?_, ?_⟩
          · unfold stepRaceFrom
            simp only [hps]
            rw [hfrom]
            have hesne : es.isEmpty = false := by
              simpa using hes
            simp only [hesne, Bool.false_eq_true, if_false, hcalc]
            rw [hr1]
          · intro c hc0 v hv
            rw [← hm1]
            rcases Nat.le_one_iff_eq_zero_or_eq_one.mp (hcnt c hc0)
              with h0 | h1
            · have hz : results.countP (fun q => q.competitor_id == c) = 0 := by
                rw [hres_cnt c hc0, h0]
              rw [applyRevisedFrom_absent hz hsome] at hv
              rw [applyRevised_absent _ (by
                rw [hres_cnt c hc0]
                exact h0), habs_all c hc0 h0]
              exact hag c hc0 v hv
            · have hone : results.countP (fun q => q.competitor_id == c) = 1 := by
                rw [hres_cnt c hc0, h1]
              have hsome_c : ∀ q ∈ results, q.competitor_id = c →
                  q.revised_handicap.isSome = true :=
                fun q hq _ => hsome q hq
              rw [applyRevisedFrom_unique hone hsome] at hv
              rw [applyRevised_unique hc0 m1' hone hsome_c]
              exact hv
          · intro c hc0 hv
            rw [← hm1]
            rcases Nat.le_one_iff_eq_zero_or_eq_one.mp (hcnt c hc0)
              with h0 | h1
            · have hz : results.countP (fun q => q.competitor_id == c) = 0 := by
                rw [hres_cnt c hc0, h0]
              rw [applyRevisedFrom_absent hz hsome] at hv
              refine ⟨hv, ?_, h0⟩
              rw [applyRevised_absent _ (by
                rw [hres_cnt c hc0]
                exact h0), habs_all c hc0 h0]
            · exfalso
              have hone : results.countP (fun q => q.competitor_id == c) = 1 := by
                rw [hres_cnt c hc0, h1]
              rw [applyRevisedFrom_unique hone hsome] at hv
              have hpos : 0 < results.countP
                  (fun q => q.competitor_id == c) := by
                rw [hone]
                exact Nat.one_pos
              rcases List.countP_pos.mp hpos with ⟨q, hq, hpq⟩
              have hqc : q.competitor_id = c := by simpa using hpq
              have := findSome?_isSome_of (fun q : Result =>
                if q.competitor_id = c then q.revised_handicap else none) hq (by
                show (if q.competitor_id = c then q.revised_handicap
                  else none).isSome = true
                rw [if_pos hqc]
                exact hsome q hq)
              rw [hv] at this
              simp at this

/-- A forward step never erases a revised-map key. -/
theorem stepRaceFrom_isSome {cfg : ScoringConfig} {rl rl1 : HMap}
    {r r1 : Race} (h : stepRaceFrom cfg rl r = .ok (rl1, r1)) {c : Nat}
    (hs : (rl c).isSome = true) : (rl1 c).isSome = true := by
  unfold stepRaceFrom at h
  rcases hps : parse_hms r.start_time with u | st0 <;> simp only [hps] at h
  · exact absurd h (by simp)
  · by_cases hes : (seedEntrantsFrom rl (st0.getD 0) r.competitors).2.isEmpty
    · rw [if_pos hes] at h
      obtain ⟨rfl, _⟩ : rl = rl1 ∧ _ := by
        simpa [Prod.ext_iff] using h
      exact hs
    · rw [if_neg hes] at h
      rcases hcalc : calculate_race_results cfg
          (seedEntrantsFrom rl (st0.getD 0) r.competitors).2
          with u | results <;> simp only [hcalc] at h
      · exact absurd h (by simp)
      · obtain ⟨hrl, _⟩ : applyRevisedFrom rl results = rl1 ∧ _ := by
          simpa [Prod.ext_iff] using h
        rw [← hrl]
        exact applyRevisedFrom_isSome hs

/-- The forward loop agrees with the full chronological loop on a window,
given agreeing carried maps and consistently persisted first seeds.  The
final forward map refines the final full map on every touched competitor,
and leaves exactly the untouched competitors absent. -/
theorem procRacesFrom_agrees {cfg : ScoringConfig} :
    ∀ {rs : List Race} {m rl M : HMap} {rsF : List Race},
      procRaces cfg m rs = .ok (M, rsF) →
      (∀ r ∈ rs, (truthyCids r).Nodup) →
      (∀ r ∈ rs, ∀ e ∈ r.competitors, ¬e.competitor_id = some 0) →
      (∀ r ∈ rs, ∀ e ∈ r.competitors, ∀ ov : ℤ,
        e.handicap_override = some ov → e.initial_handicap = some ov) →
      (∀ c : Nat, c ≠ 0 → ∀ v, rl c = some v → m c = some v) →
      (∀ c : Nat, c ≠ 0 → rl c = none →
        ∀ p, (occurrencesOf c rs).head? = some p →
          p.2.handicap_override = none →
          p.2.initial_handicap = some ((m c).getD 0)) →
      ∃ rlF, procRacesFrom cfg rl rs = .ok (rlF, rsF)
        ∧ (∀ c : Nat, c ≠ 0 → ∀ v, rlF c = some v → M c = some v)
        ∧ (∀ c : Nat, c ≠ 0 → rlF c = none →
            M c = m c ∧ occurrencesOf c rs = [])
        ∧ (∀ c : Nat, (rl c).isSome = true → (rlF c).isSome = true) := by
  intro rs
  induction rs with
  | nil =>
    intro m rl M rsF h _ _ _ hag _
    obtain ⟨rfl, rfl⟩ : M = m ∧ rsF = [] := by
      simpa [procRaces, Prod.ext_iff, eq_comm] using h
    exact ⟨rl, rfl, hag, fun c _ _ => ⟨rfl, by simp [occurrencesOf]⟩,
      fun c hs => hs⟩
  | cons r rest ih =>
    intro m rl M rsF h hnd hno0 hovp hag hsd
    rw [procRaces] at h
    rcases hstepfull : stepRace cfg m r with u | ⟨m1, r1⟩ <;>
      simp only [hstepfull] at h
    · exact absurd h (by simp)
    · rcases hrec : procRaces cfg m1 rest with u | ⟨M', rest1⟩ <;>
        simp only [hrec] at h
      · exact absurd h (by simp)
      · obtain ⟨rfl, rfl⟩ : M' = M ∧ r1 :: rest1 = rsF := by
          simpa [Prod.ext_iff] using h
        have hndr := hnd r (List.mem_cons_self r rest)
        have hno0r := hno0 r (List.mem_cons_self r rest)
        have hovpr := hovp r (List.mem_cons_self r rest)
        have hcntr : ∀ c : Nat, c ≠ 0 →
            r.competitors.countP (fun e => e.competitor_id == some c) ≤ 1 := by
          intro c hc0
          rw [← count_truthyCids hc0 r]
          exact List.nodup_iff_count_le_one.mp hndr c
        have hfilter_singleton : ∀ e ∈ r.competitors, ∀ c : Nat, c ≠ 0 →
            e.competitor_id = some c →
            r.competitors.filter (fun e' => e'.competitor_id == some c)
              = [e] := by
          intro e he c hc0 hce
          have hmemf : e ∈ r.competitors.filter
              (fun e' => e'.competitor_id == some c) :=
            List.mem_filter.mpr ⟨he, by simp [hce]⟩
          have hlen : (r.competitors.filter
              (fun e' => e'.competitor_id == some c)).length ≤ 1 := by
            rw [← List.countP_eq_length_filter]
            exact hcntr c hc0
          rcases hf : r.competitors.filter
              (fun e' => e'.competitor_id == some c) with _ | ⟨x, xs⟩
          · rw [hf] at hmemf
            simp at hmemf
          · rw [hf] at hmemf hlen
            have hxs : xs = [] := by
              simp only [List.length_cons] at hlen
              exact List.eq_nil_of_length_eq_zero (by omega)
            subst hxs
            simp only [List.mem_singleton] at hmemf
            rw [hmemf]
            exact hf
        have hsdr : ∀ e ∈ r.competitors, ∀ c : Nat,
            e.competitor_id = some c → e.handicap_override = none →
            rl c = none → e.initial_handicap = some ((m c).getD 0) := by
          intro e he c hce hov hrl
          have hc0 : c ≠ 0 := fun h0 => hno0r e he (by rw [hce, h0])
          have hhead : (occurrencesOf c (r :: rest)).head? = some (r, e) := by
            unfold occurrencesOf
            rw [List.flatMap_cons, hfilter_singleton e he c hc0 hce]
            rfl
          exact hsd c hc0 hrl (r, e) hhead hov
        rcases stepFrom_agrees hstepfull hndr hno0r hovpr hag hsdr
          with ⟨rl1, hstepFrom, hag1, hnone1⟩
        have hsd1 : ∀ c : Nat, c ≠ 0 → rl1 c = none →
            ∀ p, (occurrencesOf c rest).head? = some p →
              p.2.handicap_override = none →
              p.2.initial_handicap = some ((m1 c).getD 0) := by
          intro c hc0 hrl1 p hp hov
          rcases hnone1 c hc0 hrl1 with ⟨hrl0, hm1c, hcnt0⟩
          have hocc : occurrencesOf c (r :: rest) = occurrencesOf c rest := by
            unfold occurrencesOf
            rw [List.flatMap_cons]
            have hfnil : r.competitors.filter
                (fun e' => e'.competitor_id == some c) = [] := by
              rw [← List.length_eq_zero, ← List.countP_eq_length_filter]
              exact hcnt0
            rw [hfnil]
            rfl
          rw [hm1c]
          exact hsd c hc0 hrl0 p (by
            rw [hocc]
            exact hp) hov
        rcases ih hrec (fun r' hr' => hnd r' (List.mem_cons_of_mem r hr'))
          (fun r' hr' => hno0 r' (List.mem_cons_of_mem r hr'))
          (fun r' hr' => hovp r' (List.mem_cons_of_mem r hr'))
          hag1 hsd1 with ⟨rlF, hprocFrom, ihag, ihnone, ihsome⟩
        refine ⟨rlF, ?_, ihag, ?_, ?_⟩
        · rw [procRacesFrom]
          simp only [hstepFrom, hprocFrom]
        · intro c hc0 hrlF
          have hrl1 : rl1 c = none := by
            rcases hr1c : rl1 c with _ | v
            · rfl
            · have := ihsome c (by
                rw [hr1c]
                rfl)
              rw [hrlF] at this
              simp at this
          rcases hnone1 c hc0 hrl1 with ⟨hrl0, hm1c, hcnt0⟩
          rcases ihnone c hc0 hrlF with ⟨hMc, hoccr⟩
          refine ⟨by rw [hMc, hm1c], ?_⟩
          unfold occurrencesOf
          rw [List.flatMap_cons]
          have hfnil : r.competitors.filter
              (fun e' => e'.competitor_id == some c) = [] := by
            rw [← List.length_eq_zero, ← List.countP_eq_length_filter]
            exact hcnt0
          rw [hfnil]
          simpa [occurrencesOf] using hoccr
        · intro c hs
          exact ihsome c (stepRaceFrom_isSome hstepFrom hs)

/-- A forward step only rewrites the entrant list. -/
theorem stepRaceFrom_headers {cfg : ScoringConfig} {rl rl1 : HMap}
    {r r1 : Race} (h : stepRaceFrom cfg rl r = .ok (rl1, r1)) :
    r1.race_id = r.race_id ∧ r1.date = r.date
      ∧ r1.start_time = r.start_time := by
  unfold stepRaceFrom at h
  rcases hps : parse_hms r.start_time with u | st0 <;> simp only [hps] at h
  · exact absurd h (by simp)
  · by_cases hes : (seedEntrantsFrom rl (st0.getD 0) r.competitors).2.isEmpty
    · rw [if_pos hes] at h
      obtain ⟨_, hr⟩ : rl = rl1 ∧ _ = r1 := by
        simpa [Prod.ext_iff] using h
      rw [← hr]
      exact ⟨rfl, rfl, rfl⟩
    · rw [if_neg hes] at h
      rcases hcalc : calculate_race_results cfg
          (seedEntrantsFrom rl (st0.getD 0) r.competitors).2
          with u | results <;> simp only [hcalc] at h
      · exact absurd h (by simp)
      · obtain ⟨_, hr⟩ : applyRevisedFrom rl results = rl1 ∧ _ = r1 := by
          simpa [Prod.ext_iff] using h
        rw [← hr]
        exact ⟨rfl, rfl, rfl⟩

/-- Setting below the drop point leaves the dropped suffix unchanged. -/
theorem drop_set_lt {α : Type} (l : List α) {i j : ℕ} (a : α) (h : i < j) :
    (l.set i a).drop j = l.drop j := by
  apply List.ext_get?
  intro n
  rw [List.get?_drop, List.get?_drop]
  exact List.get?_set_ne _ _ (by omega)

/-- The mutating forward loop is the structural forward loop on the
dropped suffix, prefixed by the untouched races. -/
theorem fromLoop_proc {cfg : ScoringConfig} :
    ∀ (n : ℕ) {s : Nat} {races : List Race} {rl rlF : HMap}
      {out : List Race},
      races.length - s = n →
      (races.map Race.race_id).Nodup →
      procRacesFrom cfg rl (races.drop s) = .ok (rlF, out) →
      fromLoop cfg rl ((races.map Race.race_id).drop s) races
        = .ok (rlF, races.take s ++ out) := by
  intro n
  induction n with
  | zero =>
    intro s races rl rlF out hn hnd h
    have hs : races.length ≤ s := by omega
    have hdrop : races.drop s = [] := List.drop_eq_nil_of_le hs
    rw [hdrop] at h
    obtain ⟨rfl, rfl⟩ : rlF = rl ∧ out = [] := by
      simpa [procRacesFrom, Prod.ext_iff, eq_comm] using h
    have hdropids : (races.map Race.race_id).drop s = [] :=
      List.drop_eq_nil_of_le (by simpa using hs)
    rw [hdropids, fromLoop, List.take_of_length_le hs]
    simp
  | succ k ihk =>
    intro s races rl rlF out hn hnd h
    have hs : s < races.length := by omega
    have hdrop : races.drop s = races.getD s default :: races.drop (s + 1) := by
      rw [List.getD_eq_get?, List.get?_eq_get hs]
      exact List.drop_eq_get_cons hs
    rw [hdrop, procRacesFrom] at h
    rcases hstep : stepRaceFrom cfg rl (races.getD s default)
        with u | ⟨rl1, race1⟩ <;> simp only [hstep] at h
    · exact absurd h (by simp)
    · rcases hrec : procRacesFrom cfg rl1 (races.drop (s + 1))
          with u | ⟨rlF', out'⟩ <;> simp only [hrec] at h
      · exact absurd h (by simp)
      · obtain ⟨rfl, rfl⟩ : rlF' = rlF ∧ race1 :: out' = out := by
          simpa [Prod.ext_iff] using h
        have hridlen : s < (races.map Race.race_id).length := by
          simpa using hs
        have hrid : (races.getD s default).race_id
            = (races.map Race.race_id).getD s "" :=
          (getD_map_lt Race.race_id hs default "").symm
        have hdropids : (races.map Race.race_id).drop s
            = (races.map Race.race_id).getD s ""
              :: (races.map Race.race_id).drop (s + 1) := by
          rw [List.getD_eq_get?, List.get?_eq_get hridlen]
          exact List.drop_eq_get_cons hridlen
        rw [hdropids, fromLoop]
        have hfind : races.findIdx? (fun r0 =>
            r0.race_id == (races.map Race.race_id).getD s "") = some s := by
          have hmap := findIdx_getD_nodup hnd hridlen
          rw [List.findIdx?_map] at hmap
          have : ((fun x => x == (races.map Race.race_id).getD s "")
              ∘ Race.race_id) = (fun r0 : Race =>
                r0.race_id == (races.map Race.race_id).getD s "") := rfl
          rw [this] at hmap
          exact hmap
        simp only [hfind]
        simp only [hstep]
        have hid1 : race1.race_id = (races.getD s default).race_id :=
          (stepRaceFrom_headers hstep).1
        have hmapset : (races.set s race1).map Race.race_id
            = races.map Race.race_id := by
          rw [List.map_set]
          refine list_set_self ?_
          rw [List.get?_map, List.get?_eq_get hs]
          have hval : race1.race_id = (races.get ⟨s, hs⟩).race_id := by
            rw [hid1]
            congr 1
            rw [List.getD_eq_get?, List.get?_eq_get hs]
            rfl
          rw [hval]
          rfl
        have hlen' : (races.set s race1).length - (s + 1) = k := by
          rw [List.length_set]
          omega
        have hdropset : (races.set s race1).drop (s + 1)
            = races.drop (s + 1) := drop_set_lt races race1 (by omega)
        have hih := ihk hlen' (by
          rw [hmapset]
          exact hnd) (by
          rw [hdropset]
          exact hrec)
        rw [hmapset] at hih
        rw [hih]
        have htake : (races.set s race1).take (s + 1)
            = races.take s ++ [race1] := by
          rw [List.set_eq_take_append_cons_drop, if_pos hs]
          have hlt : (races.take s).length = s := by
            rw [List.length_take]
            omega
          rw [show s + 1 = (races.take s).length + 1 from by omega,
            List.take_append]
          rfl
        rw [htake]
        simp

/-- An occurrence of a truthy competitor id exhibits the id among the
races' entered ids. -/
theorem mem_flatMap_truthy_of_occ {c : Nat} (hc0 : c ≠ 0) {rs : List Race}
    {p : Race × Entrant} (hp : p ∈ occurrencesOf c rs) :
    c ∈ rs.flatMap truthyCids := by
  unfold occurrencesOf at hp
  rcases List.mem_flatMap.mp hp with ⟨r, hr, hpr⟩
  rcases List.mem_map.mp hpr with ⟨e, hef, rfl⟩
  rcases List.mem_filter.mp hef with ⟨he, hpe⟩
  have hce : e.competitor_id = some c := by simpa using hpe
  refine List.mem_flatMap.mpr ⟨r, hr, ?_⟩
  unfold truthyCids
  refine List.mem_filterMap.mpr ⟨e, he, ?_⟩
  rw [hce]
  simp only [if_neg hc0]

theorem head?_mem_take_one {α : Type} {l : List α} {p : α}
    (h : l.head? = some p) : p ∈ l.take 1 := by
  rcases l with _ | ⟨q, t⟩
  · simp at h
  · have : q = p := by simpa using h
    rw [← this]
    simp

/-- Claim C4 (amended): the forward-only recalculation refines the full
replay exactly when the persisted seeds entering the window are the values
the full replay carries there.  With the authoritative order listing the
stored races (no duplicate or empty ids), every window race free of
zero-id entrants, overridden rows persisted with their override, and each
competitor's first no-override occurrence in the window persisted with the
full replay's carried handicap (`mX`, the map after the prefix), the
forward pass from race `s` succeeds, reproduces the full replay's races of
the window, leaves the earlier races untouched, and writes the same final
current handicap for every competitor it touches. -/
theorem C4_forward_refines_full (cfg : ScoringConfig) (d dfull : RaceData)
    (s : Nat) (mX : HMap) (pre1 : List Race)
    (horder : d.order = d.races.map Race.race_id)
    (hndid : (d.races.map Race.race_id).Nodup)
    (hne : "" ∉ d.races.map Race.race_id)
    (hs : s < d.races.length)
    (hfull : recalculate_handicaps cfg d = .ok dfull)
    (hmX : procRaces cfg (initialHandicapMap d.fleet) (d.races.take s)
      = .ok (mX, pre1))
    (hnd : ∀ r ∈ d.races, (truthyCids r).Nodup)
    (hno0 : ∀ r ∈ d.races.drop s, ∀ e ∈ r.competitors,
      ¬e.competitor_id = some 0)
    (hovp : ∀ r ∈ d.races.drop s, ∀ e ∈ r.competitors, ∀ ov : ℤ,
      e.handicap_override = some ov → e.initial_handicap = some ov)
    (hseed : ∀ cid ∈ (d.races.drop s).flatMap truthyCids,
      ∀ p ∈ (occurrencesOf cid (d.races.drop s)).take 1,
        p.2.handicap_override = none →
          p.2.initial_handicap = some ((mX cid).getD 0)) :
    ∃ dpart, recalculate_handicaps_from cfg d
        ((d.races.getD s default).race_id) = .ok dpart
      ∧ dpart.races.drop s = dfull.races.drop s
      ∧ dpart.races.take s = d.races.take s
      ∧ ∀ i, i < d.fleet.length → ∀ cid : Nat,
          (d.fleet.getD i default).competitor_id = some cid → cid ≠ 0 →
          occurrencesOf cid (d.races.drop s) ≠ [] →
          dpart.fleet.getD i default = dfull.fleet.getD i default := by
  unfold recalculate_handicaps at hfull
  rcases hdl : driverLoop cfg (sortedIdx d) d.races (initialHandicapMap d.fleet)
      with u | ⟨races1, MF⟩
  · simp [hdl] at hfull
  · simp only [hdl] at hfull
    have hdfull : dfull = { d with races := races1, fleet := writeFleet MF d.fleet } := by
      simpa [eq_comm] using hfull
    have hlen1 : races1.length = d.races.length := driverLoop_length hdl
    have hsidx : sortedIdx d = List.range d.races.length :=
      sortedIdx_range horder hndid hne
    have hproc_all : procRaces cfg (initialHandicapMap d.fleet) d.races
        = .ok (MF, races1) := by
      have hb := driverLoop_procRaces (by
          rw [hsidx]
          exact List.nodup_range _)
        (by
          intro i hi
          rw [hsidx] at hi
          exact List.mem_range.mp hi) hdl
      rw [hsidx, map_range_getD] at hb
      rw [← hlen1, map_range_getD] at hb
      exact hb
    have hsplit := @procRaces_append_split cfg (d.races.take s)
      (d.races.drop s) (initialHandicapMap d.fleet) MF races1 (by
        rw [List.take_append_drop]
        exact hproc_all)
    rcases hsplit with ⟨m1, xs', ys', hx, hy, hzs, hxslen⟩
    have hmx_eq : m1 = mX ∧ xs' = pre1 := by
      have := hx.symm.trans hmX
      rw [Except.ok.injEq, Prod.mk.injEq] at this
      exact this
    obtain ⟨hm1, hxs⟩ := hmx_eq
    rw [hm1] at hy
    rw [hxs] at hzs hxslen
    have hxslen' : pre1.length = s := by
      rw [hxslen, List.length_take]
      omega
    have hndw : ∀ r ∈ d.races.drop s, (truthyCids r).Nodup :=
      fun r hr => hnd r (List.mem_of_mem_drop hr)
    have hag0 : ∀ c : Nat, c ≠ 0 → ∀ v : ℤ,
        (fun _ => none : HMap) c = some v → mX c = some v := by
      intro c hc0 v hv
      exact Option.noConfusion hv
    have hsd0 : ∀ c : Nat, c ≠ 0 → (fun _ => none : HMap) c = none →
        ∀ p, (occurrencesOf c (d.races.drop s)).head? = some p →
          p.2.handicap_override = none →
          p.2.initial_handicap = some ((mX c).getD 0) := by
      intro c hc0 _ p hp hov
      have hpm : p ∈ occurrencesOf c (d.races.drop s) := by
        rcases hl : occurrencesOf c (d.races.drop s) with _ | ⟨q, t⟩
        · rw [hl] at hp
          simp at hp
        · rw [hl] at hp
          have hq : q = p := by simpa using hp
          rw [hq]
          exact List.mem_cons_self p t
      exact hseed c (mem_flatMap_truthy_of_occ hc0 hpm) p
        (head?_mem_take_one hp) hov
    have hcore := procRacesFrom_agrees hy hndw hno0 hovp hag0 hsd0
    rcases hcore with ⟨rlF, hfromproc, hragree, hrnone, _⟩
    have hbridge := fromLoop_proc (d.races.length - s) rfl hndid hfromproc
    have hordne : d.order.isEmpty = false := by
      rw [horder]
      rcases hr : d.races with _ | ⟨r0, rr⟩
      · rw [hr] at hs
        simp at hs
      · rfl
    have hslen : s < (d.races.map Race.race_id).length := by simpa using hs
    have hrid : (d.races.getD s default).race_id
        = (d.races.map Race.race_id).getD s "" :=
      (getD_map_lt Race.race_id hs default "").symm
    refine ⟨{ d with races := d.races.take s ++ ys', fleet := writeFleetTouched rlF d.fleet }, ?_, ?_, ?_, ?_⟩
    · unfold recalculate_handicaps_from
      simp only [hordne, Bool.false_eq_true, if_false]
      rw [horder, hrid, findIdx_getD_nodup hndid hslen]
      simp only [hbridge]
    · show (d.races.take s ++ ys').drop s = dfull.races.drop s
      rw [hdfull]
      show _ = races1.drop s
      rw [hzs]
      rw [List.drop_left' (by
        rw [List.length_take]
        omega)]
      rw [List.drop_left' hxslen']
    · show (d.races.take s ++ ys').take s = d.races.take s
      rw [List.take_left' (by
        rw [List.length_take]
        omega)]
    · intro i hi cid hcidmatch hc0 hoccne
      have hrlF : ∃ v, rlF cid = some v := by
        rcases hrl : rlF cid with _ | v
        · exact absurd (hrnone cid hc0 hrl).2 hoccne
        · exact ⟨v, rfl⟩
      rcases hrlF with ⟨v, hrl⟩
      have hMF : MF cid = some v := hragree cid hc0 v hrl
      rw [hdfull]
      show (writeFleetTouched rlF d.fleet).getD i default
        = (writeFleet MF d.fleet).getD i default
      unfold writeFleetTouched writeFleet
      rw [getD_map_lt _ hi default default, getD_map_lt _ hi default default]
      simp only [hcidmatch, hrl, hMF]
      rw [if_neg hc0]
      rfl

/-- Witness for the amended C4 on `d5`: the forward window starts at R2,
whose persisted seed already equals the value carried out of R1. -/
theorem C4_forward_refines_full_witness :
    (d5.order = d5.races.map Race.race_id)
    ∧ (d5.races.map Race.race_id).Nodup
    ∧ ("" ∉ d5.races.map Race.race_id)
    ∧ 1 < d5.races.length
    ∧ recalculate_handicaps testConfig d5 = .ok dfull5
    ∧ procRaces testConfig (initialHandicapMap d5.fleet) (d5.races.take 1)
        = .ok (mX5, pre5)
    ∧ (∀ r ∈ d5.races, (truthyCids r).Nodup)
    ∧ (∀ r ∈ d5.races.drop 1, ∀ e ∈ r.competitors,
        ¬e.competitor_id = some 0)
    ∧ (∀ r ∈ d5.races.drop 1, ∀ e ∈ r.competitors, ∀ ov : ℤ,
        e.handicap_override = some ov → e.initial_handicap = some ov)
    ∧ (∀ cid ∈ (d5.races.drop 1).flatMap truthyCids,
        ∀ p ∈ (occurrencesOf cid (d5.races.drop 1)).take 1,
          p.2.handicap_override = none →
            p.2.initial_handicap = some ((mX5 cid).getD 0))
    ∧ ∃ dpart, recalculate_handicaps_from testConfig d5
          ((d5.races.getD 1 default).race_id) = .ok dpart
        ∧ dpart.races.drop 1 = dfull5.races.drop 1
        ∧ dpart.races.take 1 = d5.races.take 1
        ∧ ∀ i, i < d5.fleet.length → ∀ cid : Nat,
            (d5.fleet.getD i default).competitor_id = some cid → cid ≠ 0 →
            occurrencesOf cid (d5.races.drop 1) ≠ [] →
            dpart.fleet.getD i default = dfull5.fleet.getD i default :=
  ⟨by decide, by decide, by decide, by decide, rfl, rfl, by decide, by decide,
    by decide, by decide,
    C4_forward_refines_full testConfig d5 dfull5 1 mX5 pre5 (by decide)
      (by decide) (by decide) (by decide) rfl rfl (by decide) (by decide)
      (by decide) (by decide)⟩

end FromLemmas

/-! ## Claims about the single-race scorer -/

/-- Claim C2: non-finisher neutrality of the single-race scorer.  Every
output row whose finish is null or whose status is DNF/DNS/DSQ keeps its
`initial_handicap` as `revised_handicap`, scores exactly `0.0` league
points, has a null handicap position and zero deltas, and (outside the
degenerate-race quirk) scores `N + 1` traditional points where `N` is the
number of finishers; and there is one such row per non-finisher entry. -/
theorem C2_nonfinisher_neutrality (cfg : ScoringConfig) (entries : List Entry)
    (res : List Result) (h : calculate_race_results cfg entries = .ok res) :
    (∀ r ∈ res, (r.finish = none ∨ statusNonFin r.status = true) →
      r.revised_handicap = r.initial_handicap ∧ r.points = 0 ∧
        r.handicap_position = none ∧ r.full_delta = 0 ∧ r.scaled_delta = 0 ∧
        r.actual_delta = 0 ∧
        (¬degenerateRace entries →
          r.traditional_points = (numFinishers entries : ℚ) + 1)) ∧
    res.countP (fun r => r.finish.isNone || statusNonFin r.status)
      = (entries.filter entryNonFin).length := by
  rcases calculate_ok h with ⟨fs, ns, hsplit, rfl⟩
  exact ⟨fun r hr hnf => nonfin_row_props hsplit hr hnf,
    countP_nonfin_rows hsplit⟩

/-- Witness for C2 on a concrete two-boat race (one finisher, one DNF). -/
theorem C2_nonfinisher_neutrality_witness :
    (∀ r ∈ resC2, (r.finish = none ∨ statusNonFin r.status = true) →
      r.revised_handicap = r.initial_handicap ∧ r.points = 0 ∧
        r.handicap_position = none ∧ r.full_delta = 0 ∧ r.scaled_delta = 0 ∧
        r.actual_delta = 0 ∧
        (¬degenerateRace entsC2 →
          r.traditional_points = (numFinishers entsC2 : ℚ) + 1)) ∧
    resC2.countP (fun r => r.finish.isNone || statusNonFin r.status)
      = (entsC2.filter entryNonFin).length :=
  C2_nonfinisher_neutrality testConfig entsC2 resC2 rfl

/-- Claim C7: the degenerate-race quirk.  In a race with zero finishers or
a null/zero start, every output row (whatever its status) carries `0.0`
traditional points, while the non-finisher rows still score `0.0` league
points and keep their handicap unchanged. -/
theorem C7_degenerate_race (cfg : ScoringConfig) (entries : List Entry)
    (res : List Result) (h : calculate_race_results cfg entries = .ok res)
    (hd : degenerateRace entries) :
    (∀ r ∈ res, r.traditional_points = 0) ∧
    ∀ r ∈ res, (r.finish = none ∨ statusNonFin r.status = true) →
      r.points = 0 ∧ r.revised_handicap = r.initial_handicap := by
  rcases calculate_ok h with ⟨fs, ns, hsplit, rfl⟩
  refine ⟨fun r hr => degen_all_zero hsplit hd hr, fun r hr hnf => ?_⟩
  rcases nonfin_row_props hsplit hr hnf with ⟨h1, h2, _⟩
  exact ⟨h2, h1⟩

/-- Witness for C7 on a concrete race where nobody finishes. -/
theorem C7_degenerate_race_witness :
    (∀ r ∈ resC7, r.traditional_points = 0) ∧
    ∀ r ∈ resC7, (r.finish = none ∨ statusNonFin r.status = true) →
      r.points = 0 ∧ r.revised_handicap = r.initial_handicap :=
  C7_degenerate_race testConfig entsC7 resC7 rfl (by decide)

/-- Claim C8: handicap-rank tie consistency.  Every finisher's handicap
position is one more than the number of finishers with strictly smaller
adjusted time (so equal adjusted times share a position and the next
strictly greater time gets its 1-based rank of first occurrence in the
sort order, with no gap filling), and the same rule governs the absolute
position over raw elapsed time. -/
theorem C8_rank_tie_consistency (cfg : ScoringConfig) (entries : List Entry)
    (res : List Result) (h : calculate_race_results cfg entries = .ok res) :
    ∀ r ∈ res, r.finish.isSome = true →
      r.handicap_position = some (res.countP (fun s => s.finish.isSome &&
        decide (s.adjusted_time_seconds < r.adjusted_time_seconds)) + 1) ∧
      r.absolute_position = some (res.countP (fun s => s.finish.isSome &&
        decide (s.elapsed_seconds < r.elapsed_seconds)) + 1) ∧
      (∀ s ∈ res, s.finish.isSome = true →
        s.adjusted_time_seconds = r.adjusted_time_seconds →
        s.handicap_position = r.handicap_position) ∧
      (∀ s ∈ res, s.finish.isSome = true →
        s.elapsed_seconds = r.elapsed_seconds →
        s.absolute_position = r.absolute_position) := by
  rcases calculate_ok h with ⟨fs, ns, hsplit, rfl⟩
  intro r hr hfin
  rcases finisher_positions hsplit hr hfin with ⟨hh, ha⟩
  refine ⟨hh, ha, ?_, ?_⟩
  · intro s hs hsfin heq
    rcases finisher_positions hsplit hs hsfin with ⟨hsh, _⟩
    rw [hsh, hh, heq]
  · intro s hs hsfin heq
    rcases finisher_positions hsplit hs hsfin with ⟨_, hsa⟩
    rw [hsa, ha, heq]

/-- Witness for C8 on a race with a dead heat for first. -/
theorem C8_rank_tie_consistency_witness :
    calculate_race_results testConfig entsC8 = .ok resC8 ∧
    ∀ r ∈ resC8, r.finish.isSome = true →
      r.handicap_position = some (resC8.countP (fun s => s.finish.isSome &&
        decide (s.adjusted_time_seconds < r.adjusted_time_seconds)) + 1) ∧
      r.absolute_position = some (resC8.countP (fun s => s.finish.isSome &&
        decide (s.elapsed_seconds < r.elapsed_seconds)) + 1) ∧
      (∀ s ∈ resC8, s.finish.isSome = true →
        s.adjusted_time_seconds = r.adjusted_time_seconds →
        s.handicap_position = r.handicap_position) ∧
      (∀ s ∈ resC8, s.finish.isSome = true →
        s.elapsed_seconds = r.elapsed_seconds →
        s.absolute_position = r.absolute_position) :=
  ⟨rfl, C8_rank_tie_consistency testConfig entsC8 resC8 rfl⟩

/-- Claim C10: the degenerate-race check keys off the first non-null
`start` in input order alone.  If the first non-null start is zero (or
every start is null) every row's traditional points are zeroed even when
later entries have non-zero starts and finish normally; when the first
non-null start is non-zero and some entry finishes, the zeroing does not
fire (non-finishers score `N + 1`), regardless of the other entries'
start values. -/
theorem C10_first_nonnull_start (cfg : ScoringConfig) (entries : List Entry)
    (res : List Result) (h : calculate_race_results cfg entries = .ok res) :
    ((entries.findSome? (·.start) = some 0 ∨
        entries.findSome? (·.start) = none) →
      ∀ r ∈ res, r.traditional_points = 0) ∧
    ∀ v : ℤ, entries.findSome? (·.start) = some v → v ≠ 0 →
      numFinishers entries ≠ 0 →
      ∀ r ∈ res, (r.finish = none ∨ statusNonFin r.status = true) →
        r.traditional_points = (numFinishers entries : ℚ) + 1 := by
  rcases calculate_ok h with ⟨fs, ns, hsplit, rfl⟩
  constructor
  · intro hd r hr
    have hdeg : degenerateRace entries := by
      unfold degenerateRace raceStart
      tauto
    exact degen_all_zero hsplit hdeg hr
  · intro v hv hvne hnf r hr hnfr
    have hndeg : ¬degenerateRace entries := by
      unfold degenerateRace raceStart
      rw [hv]
      simp only [Option.some.injEq, not_or]
      exact ⟨fun hc => hvne hc, by simp, hnf⟩
    exact ((nonfin_row_props hsplit hr hnfr).2.2.2.2.2.2) hndeg

/-- Claim C1: the entrant-seeding invariant of the recalculation driver.
After a successful `recalculate_handicaps`, walk one competitor's
chronological occurrence list: each persisted `initial_handicap` equals
the entrant's `handicap_override` when one is set; otherwise, for the
first occurrence, the fleet baseline carried into the season (the roster
`starting_handicap_s_per_hr`, default `0` off-roster); otherwise the
revised handicap produced by the immediately preceding occurrence's race —
which, when that preceding race carried an override, is the revised value
computed from the override (override isolation).  Each occurrence's race
yields a present revised handicap.  Hypotheses: the competitor id is
truthy and no race lists one competitor twice. -/
theorem C1_entrant_seeding (cfg : ScoringConfig) (d d' : RaceData)
    (hrun : recalculate_handicaps cfg d = .ok d')
    (cid : Nat) (hcid : cid ≠ 0)
    (hnd : ∀ r ∈ d.races, (truthyCids r).Nodup) :
    (∀ p ∈ occurrencesOf cid (chronRaces d'),
        (revisedOf cfg p.1 cid).isSome = true)
    ∧ ∀ j, j < (occurrencesOf cid (chronRaces d')).length →
        ((occurrencesOf cid (chronRaces d')).getD j
            default).2.initial_handicap =
          match ((occurrencesOf cid (chronRaces d')).getD j
              default).2.handicap_override, j with
          | some ov, _ => some ov
          | none, 0 => some ((initialHandicapMap d.fleet cid).getD 0)
          | none, Nat.succ j' =>
              revisedOf cfg ((occurrencesOf cid (chronRaces d')).getD j'
                default).1 cid := by
  unfold recalculate_handicaps at hrun
  rcases hdl : driverLoop cfg (sortedIdx d) d.races (initialHandicapMap d.fleet)
      with u | ⟨races1, Mf⟩
  · simp [hdl] at hrun
  · simp only [hdl] at hrun
    have hd' : d' = { d with races := races1, fleet := writeFleet Mf d.fleet } := by
      simpa [eq_comm] using hrun
    subst hd'
    have hsort : sortedIdx { d with races := races1, fleet := writeFleet Mf d.fleet }
        = sortedIdx d := by
      refine sortedIdx_congr rfl ?_ ?_
      · simpa using driverLoop_length hdl
      · simpa using driverLoop_headers hdl
    have hchron : chronRaces { d with races := races1, fleet := writeFleet Mf d.fleet }
        = (sortedIdx d).map (fun i => races1.getD i default) := by
      unfold chronRaces
      rw [hsort]
    have hproc := driverLoop_procRaces (sortedIdx_nodup d)
      (fun i hi => sortedIdx_lt i hi) hdl
    have hndmap : ∀ r ∈ (sortedIdx d).map (fun i => d.races.getD i default),
        (truthyCids r).Nodup := by
      intro r hr
      rcases List.mem_map.mp hr with ⟨i, hi, rfl⟩
      have hilt := sortedIdx_lt i hi
      have hmem : d.races.getD i default ∈ d.races := by
        unfold List.getD
        rcases hg : d.races.get? i with _ | x
        · exact absurd hg (by
            rw [List.get?_eq_none]
            omega)
        · have hx := List.get?_mem hg
          simpa using hx
      exact hnd _ hmem
    rcases procRaces_cid hcid hproc hndmap with ⟨h1, h2, _⟩
    rw [← hchron] at h1 h2
    exact ⟨h1, h2⟩

/-- Witness for C1 on the concrete dataset `dW`, competitor 1 (raced in
R1, then raced R2 under an override). -/
theorem C1_entrant_seeding_witness :
    recalculate_handicaps testConfig dW = .ok dW'
    ∧ (1 : Nat) ≠ 0
    ∧ (∀ r ∈ dW.races, (truthyCids r).Nodup)
    ∧ ((∀ p ∈ occurrencesOf 1 (chronRaces dW'),
          (revisedOf testConfig p.1 1).isSome = true)
      ∧ ∀ j, j < (occurrencesOf 1 (chronRaces dW')).length →
          ((occurrencesOf 1 (chronRaces dW')).getD j
              default).2.initial_handicap =
            match ((occurrencesOf 1 (chronRaces dW')).getD j
                default).2.handicap_override, j with
            | some ov, _ => some ov
            | none, 0 => some ((initialHandicapMap dW.fleet 1).getD 0)
            | none, Nat.succ j' =>
                revisedOf testConfig ((occurrencesOf 1 (chronRaces dW')).getD j'
                  default).1 1) :=
  ⟨rfl, by decide, by decide,
    C1_entrant_seeding testConfig dW dW' rfl 1 (by decide) (by decide)⟩

/-- Claim C3: full recalculation is idempotent — applied to its own output
it returns that output unchanged, so every entrant's `initial_handicap`
and every competitor's `current_handicap_s_per_hr` are reproduced. -/
theorem C3_recalculation_idempotent (cfg : ScoringConfig) (d d' : RaceData)
    (h : recalculate_handicaps cfg d = .ok d') :
    recalculate_handicaps cfg d' = .ok d' := by
  unfold recalculate_handicaps at h
  rcases hloop : driverLoop cfg (sortedIdx d) d.races (initialHandicapMap d.fleet)
      with u | ⟨races', m⟩
  · simp [hloop] at h
  · simp only [hloop] at h
    have hd' : d' = { d with races := races', fleet := writeFleet m d.fleet } := by
      simpa [eq_comm] using h
    subst hd'
    have hsort : sortedIdx { d with races := races', fleet := writeFleet m d.fleet }
        = sortedIdx d := by
      refine sortedIdx_congr rfl ?_ ?_
      · simpa using driverLoop_length hloop
      · simpa using driverLoop_headers hloop
    have hloop2 := driverLoop_idem (sortedIdx_nodup d) hloop
    unfold recalculate_handicaps
    rw [hsort]
    simp only [initialHandicapMap_writeFleet, hloop2, writeFleet_idem]

/-- Witness for C3 on the concrete two-race dataset `dW`. -/
theorem C3_recalculation_idempotent_witness :
    recalculate_handicaps testConfig dW' = .ok dW' :=
  C3_recalculation_idempotent testConfig dW dW' rfl

/-- Claim C4 counterexample.  In `d4` the only race before R2 is already
exactly what a full replay writes ("no race before X changed"), yet the
forward-only pass seeds R2 from the race's own stale persisted
`initial_handicap` (60) — not from "the last persisted pair just prior to
race X" — while the full replay carries R1's revised handicap (100, the
override carried forward) into R2; the persisted seeds and the final
current handicaps diverge. -/
theorem C4_counterexample :
    recalculate_handicaps testConfig d4 = .ok full4
    ∧ recalculate_handicaps_from testConfig d4 "R2" = .ok part4
    ∧ full4.races.getD 0 default = d4.races.getD 0 default
    ∧ ((full4.races.getD 1 default).competitors.getD 0
        default).initial_handicap = some 100
    ∧ ((part4.races.getD 1 default).competitors.getD 0
        default).initial_handicap = some 60
    ∧ (full4.fleet.getD 0 default).current_handicap_s_per_hr = 100
    ∧ (part4.fleet.getD 0 default).current_handicap_s_per_hr = 60 :=
  ⟨rfl, rfl, by decide, by decide, by decide, by decide, by decide⟩

/-- Claim C5 (code bug): a truthy but unparseable finish time makes
`recalculate_handicaps` abort the whole batch — `_parse_hms` raises and the
driver has no handler (unlike `recalculate_handicaps_from`), contradicting
the spec's non-abort failure semantics.  The concrete dataset `dWbad`
differs from `dW` only in one malformed finish time, yet the entire
recalculation errors instead of treating that entrant as a non-finisher. -/
theorem C5_malformed_time_aborts :
    recalculate_handicaps testConfig dWbad = .error () ∧
    (recalculate_handicaps testConfig dW).toOption.isSome = true := by
  constructor
  · rfl
  · rfl

/-- Claim C6 (amended): the rejected-operation behaviour lives in the
`update_race` route, not in the recalculation engine.  When a race edit
adds a new finish-time entrant whose competitor has no usable payload
override and no fleet baseline, the request is rejected with the
user-facing 400 error; in the accepted case every appended entrant's
`initial_handicap` comes from the fleet baseline and is never fabricated.
(`recalculate_handicaps` itself silently seeds `0`; see the
counterexample.) -/
theorem C6_missing_baseline_rejected (baseline : Nat → Option ℤ)
    (ov_map : List (Nat × Option ℤ)) (existing : List Nat)
    (fts : List (Nat × TimeVal)) :
    (∀ cid finish, (cid, finish) ∈ fts → cid ≠ 0 → cid ∉ existing →
      finish.truthy = true →
      (ov_map.lookup cid = none ∨ ov_map.lookup cid = some none) →
      baseline cid = none →
      ∃ msg, addNewFinishEntrants baseline ov_map existing fts = .error msg) ∧
    (∀ ents, addNewFinishEntrants baseline ov_map existing fts = .ok ents →
      ∀ e ∈ ents, ∃ cid, e.competitor_id = some cid ∧
        e.initial_handicap = baseline cid ∧ e.handicap_override = none) := by
  induction fts generalizing existing with
  | nil =>
    constructor
    · intro cid finish hmem
      simp at hmem
    · intro ents h e he
      obtain rfl : ents = [] := by
        simpa [addNewFinishEntrants, eq_comm] using h
      simp at he
  | cons p rest ih =>
    obtain ⟨cid0, f0⟩ := p
    constructor
    · intro cid finish hmem hne hnex htr hov hbase
      rcases List.mem_cons.mp hmem with heq | hmem
      · obtain ⟨rfl, rfl⟩ : cid = cid0 ∧ finish = f0 := by
          simpa [Prod.ext_iff] using heq
        refine ⟨"No starting handicap available from the Fleet for competitor "
          ++ toString cid
          ++ ". Add a starting handicap or provide a race override.", ?_⟩
        rw [addNewFinishEntrants, if_pos ⟨hne, hnex, htr⟩,
          if_pos ⟨hov, hbase⟩]
      · by_cases hc : cid0 ≠ 0 ∧ cid0 ∉ existing ∧ f0.truthy = true
        · by_cases hg : (ov_map.lookup cid0 = none ∨
              ov_map.lookup cid0 = some none) ∧ baseline cid0 = none
          · refine ⟨"No starting handicap available from the Fleet for competitor "
              ++ toString cid0
              ++ ". Add a starting handicap or provide a race override.", ?_⟩
            rw [addNewFinishEntrants, if_pos hc, if_pos hg]
          · have hcidne : cid ≠ cid0 := fun hq => hg (hq ▸ ⟨hov, hbase⟩)
            rcases (ih (cid0 :: existing)).1 cid finish hmem hne
                (by simp [hnex, hcidne]) htr hov hbase with ⟨msg, hmsg⟩
            refine ⟨msg, ?_⟩
            rw [addNewFinishEntrants, if_pos hc, if_neg hg]
            simp [hmsg]
        · rcases (ih existing).1 cid finish hmem hne hnex htr hov hbase
              with ⟨msg, hmsg⟩
          refine ⟨msg, ?_⟩
          rw [addNewFinishEntrants, if_neg hc]
          exact hmsg
    · intro ents h e he
      by_cases hc : cid0 ≠ 0 ∧ cid0 ∉ existing ∧ f0.truthy = true
      · rw [addNewFinishEntrants, if_pos hc] at h
        by_cases hg : (ov_map.lookup cid0 = none ∨
            ov_map.lookup cid0 = some none) ∧ baseline cid0 = none
        · rw [if_pos hg] at h
          exact absurd h (by simp)
        · rw [if_neg hg] at h
          rcases hrec : addNewFinishEntrants baseline ov_map (cid0 :: existing)
              rest with msg | ents1
          · rw [hrec] at h
            exact absurd h (by simp)
          · rw [hrec] at h
            obtain rfl : ({ competitor_id := some cid0, finish_time := f0,
                            initial_handicap := baseline cid0 } : Entrant)
                :: ents1 = ents := by
              simpa [eq_comm] using h
            rcases List.mem_cons.mp he with rfl | he
            · exact ⟨cid0, rfl, rfl, rfl⟩
            · exact (ih (cid0 :: existing)).2 ents1 hrec e he
      · rw [addNewFinishEntrants, if_neg hc] at h
        exact (ih existing).2 ents h e he

/-- Witness for C6's amended theorem: competitor 5 submits a finish time,
has no override and no fleet baseline, and the edit is rejected. -/
theorem C6_missing_baseline_rejected_witness :
    (∃ msg, addNewFinishW = Except.error msg) ∧
    ∀ ents, addNewFinishW = .ok ents →
      ∀ e ∈ ents, ∃ cid, e.competitor_id = some cid ∧
        e.initial_handicap = none ∧ e.handicap_override = none :=
  ⟨(C6_missing_baseline_rejected (fun _ => none) [] [] [(5, .hms 11 0 0)]).1
      5 (.hms 11 0 0) (by decide) (by decide) (by simp) (by decide)
      (Or.inl rfl) rfl,
    fun ents h e he => by
      rcases (C6_missing_baseline_rejected (fun _ => none) [] []
          [(5, .hms 11 0 0)]).2 ents h e he with ⟨cid, h1, h2, h3⟩
      exact ⟨cid, h1, h2, h3⟩⟩

/-- Counterexample to C6 as stated: `recalculate_handicaps` does not raise
for an entrant (competitor 7 of race R1 in `dW`) who has no override, no
prior race and no roster entry — it completes and silently persists
`initial_handicap = 0`. -/
theorem C6_counterexample :
    initialHandicapMap dW.fleet 7 = none ∧
    (recalculate_handicaps testConfig dW).toOption.isSome = true ∧
    ∃ r ∈ dW'.races, r.race_id = "R1" ∧ ∃ e ∈ r.competitors,
      e.competitor_id = some 7 ∧ e.handicap_override = none ∧
      e.initial_handicap = some 0 := by
  refine ⟨rfl, rfl, ?_⟩
  refine ⟨dW'.races.getD 1 default, by decide, by decide, ?_⟩
  refine ⟨(dW'.races.getD 1 default).competitors.getD 2 default,
    by decide, by decide, by decide, by decide⟩

/-- Claim C9: the traditional drop-worst rule.  Each per-series subtotal
is the sum of the competitor's traditional points over the series' races
minus the sum of a maximal batch of dropped scores: exactly
`min(drop_n, #races)` scores, each at least as large as every retained
score, with `drop_n` = 2 when the competitor finished more than 4 races
of the series, 1 when exactly 4, 0 otherwise; and the season total is the
sum of the per-series subtotals after drops. -/
theorem C9_traditional_drop_worst
    (series_results : List (List SeriesRaceResult)) :
    seasonTotalTraditional series_results
      = (series_results.map seriesSubtotal).sum ∧
    ∀ results : List SeriesRaceResult,
      ∃ dropped rest : List ℚ,
        dropped.length = min (dropCount results) results.length ∧
        (dropped ++ rest).Perm (results.map (·.points)) ∧
        (∀ a ∈ dropped, ∀ b ∈ rest, b ≤ a) ∧
        seriesSubtotal results = (results.map (·.points)).sum - dropped.sum := by
  refine ⟨rfl, ?_⟩
  intro results
  set k := dropCount results with hk
  set sorted := pySortK (fun r : SeriesRaceResult => -r.points) results
    with hsorted
  refine ⟨(sorted.take k).map (·.points), (sorted.drop k).map (·.points),
    ?_, ?_, ?_, ?_⟩
  · rw [List.length_map, List.length_take]
    congr 1
    rw [hsorted, pySortK_length]
  · rw [← List.map_append, List.take_append_drop]
    exact (pySortK_perm _ results).map _
  · intro a ha b hb
    rcases List.mem_map.mp ha with ⟨ra, hra, rfl⟩
    rcases List.mem_map.mp hb with ⟨rb, hrb, rfl⟩
    have hpw : sorted.Pairwise (fun x y => -x.points ≤ -y.points) :=
      pySortK_sorted _ results
    have hsplit := (List.take_append_drop k sorted) ▸ hpw
    have := (List.pairwise_append.mp hsplit).2.2 ra hra rb hrb
    linarith
  · unfold seriesSubtotal
    rw [← hk, ← hsorted]
    by_cases hk0 : k = 0
    · rw [if_pos hk0, hk0]
      simp
    · rw [if_neg hk0]

/-- Witness for C10: the first listed entry carries `start = 0`, later
entries start at 30000 and finish; all traditional points are zeroed. -/
theorem C10_first_nonnull_start_witness :
    ((entsC10.findSome? (·.start) = some 0 ∨
        entsC10.findSome? (·.start) = none) →
      ∀ r ∈ resC10, r.traditional_points = 0) ∧
    ∀ v : ℤ, entsC10.findSome? (·.start) = some v → v ≠ 0 →
      numFinishers entsC10 ≠ 0 →
      ∀ r ∈ resC10, (r.finish = none ∨ statusNonFin r.status = true) →
        r.traditional_points = (numFinishers entsC10 : ℚ) + 1 :=
  C10_first_nonnull_start testConfig entsC10 resC10 rfl

end Shrimper
